import Mathlib

/-!
# The prefix writer of `pkg/printers/prefixwriter.go`

A shallow embedding of the indentation / column writer and of the parts of the
Go standard library it is built on (`fmt.Fprintf`, `fmt.Fprintln`,
`strings.Join`, `text/tabwriter`), and of the functions `writeSubject` and
`writeSink` of `pkg/kn/commands/source/binding/describe.go`, followed by
theorems about their operations.

Conventions of the embedding:

* a Go `string` or `[]byte` is a list of bytes (`Bytes`), every byte a natural
  number below 256; nothing below depends on that bound, so theorems quantify
  over all lists;
* a Go `int` that only counts or indexes is a `Nat`; the indentation level,
  which the caller may pass negative, is an `Int`;
* an `io.Writer` is a record of its state and its methods (`GoWriter`), the
  `Flush` method being optional: it is present exactly when the dynamic type
  satisfies the `flusher` interface of prefixwriter.go;
* the parts of package `fmt` whose output depends on reflection over operand
  types (every verb other than `%s`/`%v` on a `string` or `nil` operand, and
  directives with width, precision or argument index) are a parameter
  (`FmtLib`): theorems hold for every instantiation of it.
-/

namespace printers

/-! ## Bytes -/

/-- Go byte strings. -/
abbrev Bytes := List Nat

/-- The bytes of an ASCII literal. -/
def ascii (s : String) : Bytes := s.toList.map Char.toNat

/-- Byte of the space character. -/
abbrev SP : Nat := 32
/-- Byte of the horizontal tab. -/
abbrev HT : Nat := 9
/-- Byte of the line feed. -/
abbrev LF : Nat := 10
/-- Byte of the vertical tab. -/
abbrev VT : Nat := 11
/-- Byte of the form feed. -/
abbrev FF : Nat := 12
/-- Byte of the percent sign. -/
abbrev PERCENT : Nat := 37

/-- Go `strings.Join(elems, sep)`. -/
def stringsJoin (elems : List Bytes) (sep : Bytes) : Bytes := sep.intercalate elems

/-! ## Errors and writers -/

/-- Error values returned by writers: `io.ErrShortWrite` or an error of the
destination itself, identified by a code. -/
inductive GoError where
  | shortWrite
  | sink (code : Nat)
deriving DecidableEq, Repr

/-- An `io.Writer` value: its state, its `Write` method (returning the new
state, the count `n` and the error), and its `Flush() error` method when the
dynamic type has one. -/
structure GoWriter (σ : Type) where
  st : σ
  write : σ → Bytes → σ × Int × Option GoError
  flush : Option (σ → σ × Option GoError)

/-- Call of `w.Write(p)`. -/
def GoWriter.Write {σ : Type} (w : GoWriter σ) (p : Bytes) : GoWriter σ × Int × Option GoError :=
  let r := w.write w.st p
  ({ w with st := r.1 }, r.2.1, r.2.2)

/-! ## Package fmt -/

/-- Operands of the `...interface{}` parameters: the `nil` interface, a value
of dynamic type `string`, or a value of any other dynamic type (identified by
a tag; its rendering belongs to `FmtLib`). -/
inductive GoValue where
  | nil
  | string (s : Bytes)
  | other (tag : Nat)
deriving DecidableEq, Repr

/-- The flags of a formatting directive (`fmt.fmtFlags`), as parsed. -/
structure FmtFlags where
  sharp : Bool := false
  zero : Bool := false
  plus : Bool := false
  minus : Bool := false
  space : Bool := false
deriving DecidableEq, Repr

/-- What the general path of `doPrintf` (argument index, width, precision and
verb) yields for one directive: the text produced, the number of format bytes
consumed, the new argument number, the `reordered` mark and whether the
format loop was left (`%!(NOVERB)`). -/
structure Directive where
  out : Bytes
  used : Nat
  argNum : Nat
  reordered : Bool
  stop : Bool

/-- The parts of package `fmt` that are not modelled concretely. -/
structure FmtLib where
  /-- Method `printArg` on the operands and verbs not covered by `printArg` below. -/
  printArg : FmtFlags → GoValue → Nat → Bytes
  /-- General path of a directive: flags parsed, rest of the format (after the
  flags), argument number, `reordered`, operands. -/
  directive : FmtFlags → Bytes → Nat → Bool → List GoValue → Directive
  /-- Value of `reflect.TypeOf(arg).String()`. -/
  typeString : GoValue → Bytes

/-- Method `(*pp).printArg` with no width and no precision set, which is the
state of every call modelled here. A `nil` operand prints `<nil>` under `%v`
and `%T`; a `string` operand is written verbatim under `%s`, and under `%v`
unless the sharp flag asks for Go syntax. Everything else is the library's. -/
def printArg (lib : FmtLib) (f : FmtFlags) (arg : GoValue) (verb : Nat) : Bytes :=
  match arg with
  | .nil => if verb = 84 ∨ verb = 118 then ascii "<nil>" else lib.printArg f arg verb
  | .string s =>
    if verb = 115 then s
    else if verb = 118 ∧ f.sharp = false then s
    else lib.printArg f arg verb
  | .other _ => lib.printArg f arg verb

/-- The flag loop of `doPrintf` (label `simpleFormat`): consumes flag bytes
and stops at the first byte that is not a flag. -/
def scanFlags : Bytes → FmtFlags → FmtFlags × Bytes
  | [], f => (f, [])
  | c :: cs, f =>
    if c = 35 then scanFlags cs { f with sharp := true }
    else if c = 48 then scanFlags cs { f with zero := !f.minus }
    else if c = 43 then scanFlags cs { f with plus := true }
    else if c = 45 then scanFlags cs { f with minus := true, zero := false }
    else if c = 32 then scanFlags cs { f with space := true }
    else (f, c :: cs)

/-- One surplus operand in the `%!(EXTRA ...)` report. -/
def extraArg (lib : FmtLib) (arg : GoValue) : Bytes :=
  match arg with
  | .nil => ascii "<nil>"
  | _ => lib.typeString arg ++ ascii "=" ++ printArg lib {} arg 118

/-- The check for surplus operands at the end of `doPrintf`. -/
def extraArgs (lib : FmtLib) (a : List GoValue) (argNum : Nat) (reordered : Bool) : Bytes :=
  if reordered = false ∧ argNum < a.length then
    ascii "%!(EXTRA " ++ (ascii ", ").intercalate ((a.drop argNum).map (extraArg lib)) ++ ascii ")"
  else []

/-- The format loop of `(*pp).doPrintf`. Each round copies the literal text up
to the next percent sign, then processes one directive: after the flags, a
lower-case ASCII verb with an operand left takes the fast path
(`printArg(a[argNum], verb)`), anything else the general path. The first
argument bounds the number of rounds; `Sprintf` passes one more than the
length of the format, and every round consumes at least the percent sign. -/
def doPrintfLoop (lib : FmtLib) (a : List GoValue) : Nat → Bytes → Nat → Bool → Bytes
  | 0, _, argNum, reordered => extraArgs lib a argNum reordered
  | fuel + 1, format, argNum, reordered =>
    let lit := format.takeWhile (fun c => c ≠ PERCENT)
    match format.dropWhile (fun c => c ≠ PERCENT) with
    | [] => lit ++ extraArgs lib a argNum reordered
    | _ :: afterPercent =>
      let fb := scanFlags afterPercent {}
      match fb.2, a.get? argNum with
      | c :: cs, some arg =>
        if 97 ≤ c ∧ c ≤ 122 then
          lit ++ printArg lib fb.1 arg c ++ doPrintfLoop lib a fuel cs (argNum + 1) reordered
        else
          let d := lib.directive fb.1 fb.2 argNum reordered a
          lit ++ d.out ++
            (if d.stop then extraArgs lib a d.argNum d.reordered
             else doPrintfLoop lib a fuel (fb.2.drop d.used) d.argNum d.reordered)
      | body, _ =>
        let d := lib.directive fb.1 body argNum reordered a
        lit ++ d.out ++
          (if d.stop then extraArgs lib a d.argNum d.reordered
           else doPrintfLoop lib a fuel (body.drop d.used) d.argNum d.reordered)

/-- Go `fmt.Sprintf(format, a...)`: the text `Fprintf` hands to the writer. -/
def Sprintf (lib : FmtLib) (format : Bytes) (a : List GoValue) : Bytes :=
  doPrintfLoop lib a (format.length + 1) format 0 false

/-- Go `fmt.Fprintf(w, format, a...)`: formats, then calls `w.Write` once. -/
def Fprintf {σ : Type} (lib : FmtLib) (w : GoWriter σ) (format : Bytes) (a : List GoValue) :
    GoWriter σ × Int × Option GoError :=
  w.Write (Sprintf lib format a)

/-- Method `(*pp).doPrintln`: operands under `%v`, always separated by a
space, then a newline. -/
def doPrintln (lib : FmtLib) (a : List GoValue) : Bytes :=
  [SP].intercalate (a.map (fun arg => printArg lib {} arg 118)) ++ [LF]

/-- Go `fmt.Fprintln(w, a...)`. -/
def Fprintln {σ : Type} (lib : FmtLib) (w : GoWriter σ) (a : List GoValue) :
    GoWriter σ × Int × Option GoError :=
  w.Write (doPrintln lib a)

/-! ## Package unicode/utf8 -/

/-- The table `first` of package `utf8` for a lead byte at or above 0x80:
`none` for an invalid lead byte, else the sequence length and the range the
second byte must lie in (`acceptRanges`). -/
def utf8First (c : Nat) : Option (Nat × Nat × Nat) :=
  if c < 0xC2 then none
  else if c < 0xE0 then some (2, 0x80, 0xBF)
  else if c = 0xE0 then some (3, 0xA0, 0xBF)
  else if c < 0xED then some (3, 0x80, 0xBF)
  else if c = 0xED then some (3, 0x80, 0x9F)
  else if c < 0xF0 then some (3, 0x80, 0xBF)
  else if c = 0xF0 then some (4, 0x90, 0xBF)
  else if c < 0xF4 then some (4, 0x80, 0xBF)
  else if c = 0xF4 then some (4, 0x80, 0x8F)
  else none

/-- One round of the loop of `utf8.RuneCount` at lead byte `c` followed by
`rest`: the number of bytes the round advances by (the length of a well-formed
sequence, or 1 for an invalid or truncated one). -/
def runeLen (c : Nat) (rest : Bytes) : Nat :=
  if c < 0x80 then 1
  else
    match utf8First c with
    | none => 1
    | some (size, lo, hi) =>
      if rest.length + 1 < size then 1
      else
        match rest with
        | [] => 1
        | c1 :: r1 =>
          if c1 < lo ∨ hi < c1 then 1
          else if size = 2 then 2
          else
            match r1 with
            | [] => 1
            | c2 :: r2 =>
              if c2 < 0x80 ∨ 0xBF < c2 then 1
              else if size = 3 then 3
              else
                match r2 with
                | [] => 1
                | c3 :: _ => if c3 < 0x80 ∨ 0xBF < c3 then 1 else 4

/-- The loop of `utf8.RuneCount`; the first argument bounds the rounds. -/
def runeCountLoop : Nat → Bytes → Nat
  | 0, _ => 0
  | _ + 1, [] => 0
  | fuel + 1, c :: rest => 1 + runeCountLoop fuel (rest.drop (runeLen c rest - 1))

/-- Go `utf8.RuneCount(p)`: the number of runes in `p`; a byte that does not
start a well-formed sequence counts as one rune of width one byte. -/
def runeCount (p : Bytes) : Nat := runeCountLoop p.length p

/-! ## Package text/tabwriter

The definitions follow the source of package `text/tabwriter` of the Go
standard library, method by method (`Write`, `Flush`, `format`, `writeLines`,
`writeN`, ...), with explicit state passing: a method takes the writer and
yields the writer it leaves behind. The model covers the configuration
`NewPrefixWriter` fixes: `flags = 0` and a pad character other than the tab.
The branches of the package that only other configurations reach (padding
with tabs, right alignment, HTML filtering, stripping of escape bytes, debug
bars, discarding empty columns) are left out. Loops and the recursion of
`format` take a bound on their rounds as first argument; each caller passes
a bound the loop cannot exceed.

A panic inside the package is an outcome of a run (`Run`). There are two: the
`osError` that `write0` raises on an error of the output, which the deferred
`handlePanic` of `Write` and `Flush` turns into their error result, and the
run-time panic of Go for the slice `src[0:n]` of `writeN` with a negative
`n`, which `handlePanic` raises again. Only `Flush` resets the writer after a
panic; `Write` leaves it as it is at that point, with the column widths that
`format` had pushed. The other index and slice expressions of the package
stay in range, since the sizes of the cells add up to the length of `buf`
and `lines` is never empty; they are total operations on lists here. -/

namespace tabwriter

/-- The struct `cell`: size in bytes, width in runes, and whether the cell is
terminated by a horizontal tab. -/
structure cell where
  size : Nat := 0
  width : Int := 0
  htab : Bool := false
deriving DecidableEq, Repr

/-- The struct `Writer`: configuration (`output`, `minwidth`, `tabwidth`,
`padding`, the byte of `padbytes`) and current state. The last field is not
a field of the Go struct: `crashed` records that a call of `Write` or `Flush`
on this writer did not return but ended in the panic that `handlePanic`
raises again (`"tabwriter: panic during ..."`), which reaches the caller. -/
structure Writer (σ : Type) where
  output : GoWriter σ
  minwidth : Nat
  tabwidth : Nat
  padding : Nat
  padchar : Nat
  buf : Bytes
  pos : Nat
  cell : cell
  endChar : Nat
  lines : List (List printers.tabwriter.cell)
  widths : List Int
  crashed : Bool := false

/-- The constant `Escape`. -/
def Escape : Nat := 255

/-- Outcome of an operation inside the tabwriter: it returns a value, or it
panics with the `osError` raised by `write0`, or it panics with a run-time
error of Go (a slice with a negative bound); in each case with the state of
the writer at that point. -/
inductive Run (σ : Type) (α : Type) where
  | ok (val : α) (b : Writer σ)
  | panicked (err : GoError) (b : Writer σ)
  | crashed (b : Writer σ)

/-- Sequencing: a panic skips the rest. -/
def Run.andThen {σ α β : Type} (r : Run σ α) (k : α → Writer σ → Run σ β) : Run σ β :=
  match r with
  | .ok v b => k v b
  | .panicked e b => .panicked e b
  | .crashed b => .crashed b

/-- Method `addLine`: a new, empty last line. -/
def addLine {σ : Type} (b : Writer σ) : Writer σ :=
  { b with lines := b.lines ++ [[]] }

/-- Method `reset`. -/
def reset {σ : Type} (b : Writer σ) : Writer σ :=
  addLine { b with buf := [], pos := 0, cell := {}, endChar := 0, lines := [], widths := [] }

/-- The call `tabwriter.NewWriter(output, minwidth, tabwidth, padding, padchar, 0)`. -/
def NewWriter {σ : Type} (output : GoWriter σ) (minwidth tabwidth padding padchar : Nat) :
    Writer σ :=
  reset { output := output, minwidth := minwidth, tabwidth := tabwidth, padding := padding,
          padchar := padchar, buf := [], pos := 0, cell := {}, endChar := 0, lines := [],
          widths := [] }

/-- Method `write0`: one `Write` on the output; a short write without error
becomes `io.ErrShortWrite`, and any error is raised as a panic. -/
def write0 {σ : Type} (b : Writer σ) (buf : Bytes) : Run σ Unit :=
  let r := b.output.Write buf
  let b1 := { b with output := r.1 }
  let err := if r.2.1 ≠ (buf.length : Int) ∧ r.2.2 = none then some GoError.shortWrite else r.2.2
  match err with
  | some e => .panicked e b1
  | none => .ok () b1

/-- The loop of method `writeN`; the first argument bounds the rounds. -/
def writeNLoop {σ : Type} (src : Bytes) : Nat → Writer σ → Nat → Run σ Unit
  | 0, b, n => write0 b (src.take n)
  | fuel + 1, b, n =>
    if n > src.length then
      (write0 b src).andThen (fun _ b1 => writeNLoop src fuel b1 (n - src.length))
    else write0 b (src.take n)

/-- Method `writeN`: `n` bytes of padding, written in runs of `len(src)`.
For a negative `n` the loop is skipped and the slice `src[0:n]` is a
run-time panic. -/
def writeN {σ : Type} (b : Writer σ) (src : Bytes) (n : Int) : Run σ Unit :=
  if n < 0 then .crashed b else writeNLoop src n.toNat b n.toNat

/-- Method `writePadding` for a pad character other than tab:
`cellw - textw` pad bytes. -/
def writePadding {σ : Type} (b : Writer σ) (textw cellw : Int) : Run σ Unit :=
  writeN b (List.replicate 8 b.padchar) (cellw - textw)

/-- The loop over the cells of one line in `writeLines`, from cell `j` on. -/
def writeCells {σ : Type} : List cell → Writer σ → Nat → Nat → Run σ Nat
  | [], b, _, pos => .ok pos b
  | c :: cs, b, j, pos =>
    if c.size = 0 then
      if j < b.widths.length then
        (writePadding b c.width (b.widths.getD j 0)).andThen
          (fun _ b1 => writeCells cs b1 (j + 1) pos)
      else writeCells cs b (j + 1) pos
    else
      (write0 b ((b.buf.drop pos).take c.size)).andThen (fun _ b1 =>
        if j < b1.widths.length then
          (writePadding b1 c.width (b1.widths.getD j 0)).andThen
            (fun _ b2 => writeCells cs b2 (j + 1) (pos + c.size))
        else writeCells cs b1 (j + 1) (pos + c.size))

/-- The loop of method `writeLines` from line `i` on; the first argument
bounds the rounds (`line1 - line0` of them). The last buffered line has no
newline yet: the text of the incomplete cell is written in its place. -/
def writeLinesLoop {σ : Type} : Nat → Writer σ → Nat → Nat → Nat → Run σ Nat
  | 0, b, _, _, pos => .ok pos b
  | fuel + 1, b, i, line1, pos =>
    if i < line1 then
      (writeCells (b.lines.getD i []) b 0 pos).andThen (fun pos1 b1 =>
        if i + 1 = b1.lines.length then
          (write0 b1 ((b1.buf.drop pos1).take b1.cell.size)).andThen
            (fun _ b2 => writeLinesLoop fuel b2 (i + 1) line1 (pos1 + b2.cell.size))
        else
          (write0 b1 [LF]).andThen (fun _ b2 => writeLinesLoop fuel b2 (i + 1) line1 pos1))
    else .ok pos b

/-- Method `writeLines(pos0, line0, line1)`. -/
def writeLines {σ : Type} (b : Writer σ) (pos0 line0 line1 : Nat) : Run σ Nat :=
  writeLinesLoop (line1 - line0) b line0 line1 pos0

/-- The column-block loop of `format`: from line `this` on, while the line
has a cell in `column` (a cell that is not the last of its line), take the
maximum of the cell widths plus padding. Yields the width and the line at
which the block ends. The first argument bounds the rounds. -/
def columnBlock {σ : Type} (b : Writer σ) (column : Nat) : Nat → Nat → Nat → Int → Int × Nat
  | 0, this, _, width => (width, this)
  | fuel + 1, this, line1, width =>
    if this < line1 then
      let line := b.lines.getD this []
      if column + 1 ≥ line.length then (width, this)
      else
        let c := line.getD column {}
        let w := c.width + b.padding
        columnBlock b column fuel (this + 1) line1 (if w > width then w else width)
    else (width, this)

/-- The outer loop of `format` at line `this`, with `nested` standing for
the recursive call of `format` on a column block. The first argument bounds
the rounds; every round advances `this`. -/
def formatLoop {σ : Type} (nested : Writer σ → Nat → Nat → Nat → Run σ Nat) (column : Nat) :
    Nat → Writer σ → Nat → Nat → Nat → Nat → Run σ Nat
  | 0, b, pos, _, _, _ => .ok pos b
  | fuel + 1, b, pos, line0, this, line1 =>
    if this < line1 then
      if column + 1 ≥ (b.lines.getD this []).length then
        formatLoop nested column fuel b pos line0 (this + 1) line1
      else
        (writeLines b pos line0 this).andThen (fun pos1 b1 =>
          let blk := columnBlock b1 column (line1 - this) this line1 b1.minwidth
          (nested { b1 with widths := b1.widths ++ [blk.1] } pos1 this blk.2).andThen
            (fun pos2 b2 =>
              formatLoop nested column fuel { b2 with widths := b2.widths.dropLast } pos2
                blk.2 (blk.2 + 1) line1))
    else writeLines b pos line0 line1

/-- Method `format(pos0, line0, line1)`. The first argument bounds the depth
of the recursion, which goes one column to the right at each level. -/
def format {σ : Type} : Nat → Writer σ → Nat → Nat → Nat → Run σ Nat
  | 0, b, pos0, line0, line1 => writeLines b pos0 line0 line1
  | depth + 1, b, pos0, line0, line1 =>
    formatLoop (format depth) b.widths.length (line1 - line0 + 1) b pos0 line0 line0 line1

/-- Method `append`. -/
def append {σ : Type} (b : Writer σ) (text : Bytes) : Writer σ :=
  { b with buf := b.buf ++ text, cell := { b.cell with size := b.cell.size + text.length } }

/-- Method `updateWidth`. -/
def updateWidth {σ : Type} (b : Writer σ) : Writer σ :=
  { b with cell := { b.cell with width := b.cell.width + (runeCount (b.buf.drop b.pos) : Nat) },
           pos := b.buf.length }

/-- Method `startEscape` for the byte `Escape`. -/
def startEscape {σ : Type} (b : Writer σ) : Writer σ :=
  { b with endChar := Escape }

/-- Method `endEscape`: the two `Escape` bytes stay in the text and do not
count for the width. -/
def endEscape {σ : Type} (b : Writer σ) : Writer σ :=
  let b1 := if b.endChar = Escape then
      let u := updateWidth b
      { u with cell := { u.cell with width := u.cell.width - 2 } }
    else b
  { b1 with pos := b1.buf.length, endChar := 0 }

/-- Method `terminateCell`: the current cell joins the last line; yields the
number of cells of that line. -/
def terminateCell {σ : Type} (b : Writer σ) (htab : Bool) : Writer σ × Nat :=
  let line := b.lines.getLastD [] ++ [{ b.cell with htab := htab }]
  ({ b with lines := b.lines.dropLast ++ [line], cell := {} }, line.length)

/-- The largest number of cells in a line. -/
def maxCells (lines : List (List cell)) : Nat :=
  (lines.map List.length).foldr max 0

/-- Method `flushNoDefers`. -/
def flushNoDefers {σ : Type} (b : Writer σ) : Run σ Unit :=
  let b1 := if b.cell.size > 0 then
      (terminateCell (if b.endChar ≠ 0 then endEscape b else b) false).1
    else b
  (format (maxCells b1.lines) b1 0 0 b1.lines.length).andThen (fun _ b2 => .ok () (reset b2))

/-- Method `Flush`, with the deferred `handlePanic`: after a panic the
writer is reset; the error of the output is returned, any other panic is
raised again. -/
def Flush {σ : Type} (b : Writer σ) : Writer σ × Option GoError :=
  match flushNoDefers b with
  | .ok _ b1 => (b1, none)
  | .panicked e b1 => (reset b1, some e)
  | .crashed b1 => ({ reset b1 with crashed := true }, none)

/-- The loop of method `Write` over the bytes not yet looked at: `pending`
is the text `buf[n:i]` seen since the last cell boundary and `i` the index of
the next byte. A tab, vertical tab, newline or form feed outside an escaped
segment ends the cell; a newline ends the line, and flushes when the line has
a single cell; a form feed always flushes. With the deferred `handlePanic`:
a panic of the flush ends the call, with the error of the output if it
carries one, and is raised again otherwise; the writer is not reset. -/
def writeLoop {σ : Type} : Bytes → Writer σ → Bytes → Nat → Writer σ × Int × Option GoError
  | [], b, pending, i => (append b pending, (i : Int), none)
  | ch :: rest, b, pending, i =>
    if b.endChar = 0 then
      if ch = HT ∨ ch = VT ∨ ch = LF ∨ ch = FF then
        let t := terminateCell (updateWidth (append b pending)) (ch == HT)
        if ch = LF ∨ ch = FF then
          let b1 := addLine t.1
          if ch = FF ∨ t.2 = 1 then
            match flushNoDefers b1 with
            | .ok _ b2 => writeLoop rest b2 [] (i + 1)
            | .panicked e b2 => (b2, ((i + 1 : Nat) : Int), some e)
            | .crashed b2 => ({ b2 with crashed := true }, ((i + 1 : Nat) : Int), none)
          else writeLoop rest b1 [] (i + 1)
        else writeLoop rest t.1 [] (i + 1)
      else if ch = Escape then
        writeLoop rest (startEscape (updateWidth (append b pending))) [ch] (i + 1)
      else writeLoop rest b (pending ++ [ch]) (i + 1)
    else
      if ch = b.endChar then
        writeLoop rest (endEscape (append b (pending ++ [ch]))) [] (i + 1)
      else writeLoop rest b (pending ++ [ch]) (i + 1)

/-- Method `Write`. -/
def Write {σ : Type} (b : Writer σ) (buf : Bytes) : Writer σ × Int × Option GoError :=
  writeLoop buf b [] 0

/-- A `*tabwriter.Writer` as an `io.Writer` value; it has a `Flush` method. -/
def asWriter {σ : Type} (b : Writer σ) : GoWriter (Writer σ) :=
  { st := b, write := Write, flush := some Flush }

end tabwriter

/-- A destination that keeps whatever it is given and never fails, such as a
`bytes.Buffer`: its state is the text received so far. It has no `Flush`. -/
def memSink (received : Bytes) : GoWriter Bytes :=
  { st := received, write := fun s p => (s ++ p, (p.length : Int), none), flush := none }

/-! ## prefixwriter.go -/

/-- The struct `prefixWriter`. -/
structure prefixWriter (σ : Type) where
  out : GoWriter σ

/-- The function `NewPrefixWriter`. -/
def NewPrefixWriter {σ : Type} (out : GoWriter σ) : prefixWriter (tabwriter.Writer σ) :=
  let tabWriter := tabwriter.NewWriter out 0 8 2 SP
  { out := tabwriter.asWriter tabWriter }

/-- Constant `LEVEL_0`. -/
def LEVEL_0 : Int := 0
/-- Constant `LEVEL_1`. -/
def LEVEL_1 : Int := 1
/-- Constant `LEVEL_2`. -/
def LEVEL_2 : Int := 2
/-- Constant `LEVEL_3`. -/
def LEVEL_3 : Int := 3

/-- The local `levelSpace` of `Write`. -/
def levelSpace : Bytes := ascii "  "

/-- The loop `for i := 0; i < level; i++ { prefix += levelSpace }` from
counter value `i` on. The first argument bounds the number of rounds; `Write`
passes `level.toNat`, the number of values of `i` in `[0, level)`. -/
def prefixLoop (level : Int) : Nat → Int → Bytes → Bytes
  | 0, _, p => p
  | fuel + 1, i, p => if i < level then prefixLoop level fuel (i + 1) (p ++ levelSpace) else p

/-- Method `(*prefixWriter).Write`. -/
def prefixWriter.Write {σ : Type} (lib : FmtLib) (pw : prefixWriter σ) (level : Int)
    (format : Bytes) (a : List GoValue) : prefixWriter σ :=
  let pfx := prefixLoop level level.toNat 0 []
  { pw with out := (Fprintf lib pw.out (pfx ++ format) a).1 }

/-- Method `(*prefixWriter).WriteCols`. -/
def prefixWriter.WriteCols {σ : Type} (lib : FmtLib) (pw : prefixWriter σ) (level : Int)
    (cols : List Bytes) : prefixWriter σ :=
  let ss := cols.map (fun _ => ascii "%s")
  let format := stringsJoin ss (ascii "\t")
  let s := cols.map GoValue.string
  pw.Write lib level format s

/-- Method `(*prefixWriter).WriteLine`. -/
def prefixWriter.WriteLine {σ : Type} (lib : FmtLib) (pw : prefixWriter σ)
    (a : List GoValue) : prefixWriter σ :=
  { pw with out := (Fprintln lib pw.out a).1 }

/-- Method `(*prefixWriter).WriteColsLn`. -/
def prefixWriter.WriteColsLn {σ : Type} (lib : FmtLib) (pw : prefixWriter σ) (level : Int)
    (cols : List Bytes) : prefixWriter σ :=
  (pw.WriteCols lib level cols).WriteLine lib []

/-- The two ways `Flush` can fail: with the error made by `fmt.Errorf` in its
last line (the destination has no `Flush`), or with the error the
destination's own `Flush` returned. -/
inductive FlushError where
  | unsupported
  | fromOut (e : GoError)
deriving DecidableEq, Repr

/-- Method `(*prefixWriter).Flush`: the type assertion `pw.out.(flusher)`
succeeds exactly when the destination has a `Flush` method. -/
def prefixWriter.Flush {σ : Type} (pw : prefixWriter σ) : prefixWriter σ × Option FlushError :=
  match pw.out.flush with
  | some f =>
    let r := f pw.out.st
    ({ pw with out := { pw.out with st := r.1 } }, r.2.map FlushError.fromOut)
  | none => (pw, some FlushError.unsupported)

/-! ## Call sequences -/

/-- A call of one of the methods of the interface `PrefixWriter`. -/
inductive Call where
  | Write (level : Int) (format : Bytes) (a : List GoValue)
  | WriteLine (a : List GoValue)
  | WriteCols (level : Int) (cols : List Bytes)
  | WriteColsLn (level : Int) (cols : List Bytes)
  | Flush

/-- The writer after one call; the error a `Flush` returns is dropped here
(see `prefixWriter.Flush` for it). -/
def prefixWriter.call {σ : Type} (lib : FmtLib) (pw : prefixWriter σ) : Call → prefixWriter σ
  | .Write level format a => pw.Write lib level format a
  | .WriteLine a => pw.WriteLine lib a
  | .WriteCols level cols => pw.WriteCols lib level cols
  | .WriteColsLn level cols => pw.WriteColsLn lib level cols
  | .Flush => pw.Flush.1

/-- The writer after a sequence of calls. -/
def prefixWriter.calls {σ : Type} (lib : FmtLib) (pw : prefixWriter σ) (cs : List Call) :
    prefixWriter σ :=
  cs.foldl (prefixWriter.call lib) pw

/-- The text a sequence of calls hands to the destination `out`, in order:
what a destination that records everything holds after them. -/
def written (lib : FmtLib) (cs : List Call) : Bytes :=
  ((prefixWriter.mk (memSink [])).calls lib cs).out.st

/-- An instantiation of `FmtLib` for concrete evaluation: every directive it
is asked about prints nothing and ends the format. -/
def sampleLib : FmtLib :=
  { printArg := fun _ _ _ => [],
    directive := fun _ _ _ _ _ => { out := [], used := 0, argNum := 0, reordered := false, stop := true },
    typeString := fun _ => [] }

/-! ## What the tabwriter writes, as text

Pure counterparts of the writing methods of the tabwriter, used to state
what reaches a recording sink. -/

namespace tabwriter

/-- The writer after its recording sink received `out`. -/
def emit (b : Writer Bytes) (out : Bytes) : Writer Bytes :=
  { b with output := { b.output with st := b.output.st ++ out } }

/-- The output of the writer is a recording sink: its `Write` appends and
never fails. -/
abbrev Recording (b : Writer Bytes) : Prop :=
  b.output.write = fun s p => (s ++ p, (p.length : Int), none)

/-- Total size in bytes of a list of cells. -/
def cellsSize (cells : List cell) : Nat := (cells.map cell.size).sum

/-- The text `writeCells` produces for the cells of a line from cell `j` on:
each cell's text, followed by padding up to the column width when a width
is known for its column. -/
def cellsOut {σ : Type} (b : Writer σ) : List cell → Nat → Nat → Bytes
  | [], _, _ => []
  | c :: cs, j, pos =>
    (b.buf.drop pos).take c.size
      ++ (if j < b.widths.length then
            List.replicate (b.widths.getD j 0 - c.width).toNat b.padchar
          else [])
      ++ cellsOut b cs (j + 1) (pos + c.size)

/-- The text `writeLines` produces for `n` lines from line `i` on. -/
def linesOut {σ : Type} (b : Writer σ) : Nat → Nat → Nat → Bytes
  | 0, _, _ => []
  | n + 1, i, pos =>
    let line := b.lines.getD i []
    if i + 1 = b.lines.length then
      cellsOut b line 0 pos ++ (b.buf.drop (pos + cellsSize line)).take b.cell.size
        ++ linesOut b n (i + 1) (pos + cellsSize line + b.cell.size)
    else
      cellsOut b line 0 pos ++ [LF] ++ linesOut b n (i + 1) (pos + cellsSize line)

/-- The source text of the cells of one line, as `Write` received it: every
cell but the last is followed by the tab that ended it, horizontal or
vertical. -/
def cellsSrc {σ : Type} (b : Writer σ) : List cell → Nat → Bytes
  | [], _ => []
  | [c], pos => (b.buf.drop pos).take c.size
  | c :: d :: cs, pos =>
    (b.buf.drop pos).take c.size ++ [if c.htab then HT else VT]
      ++ cellsSrc b (d :: cs) (pos + c.size)

/-- The source text of `n` lines from line `i` on: the cells of each line,
then a line feed, or the text of the incomplete cell for the last buffered
line. -/
def linesSrc {σ : Type} (b : Writer σ) : Nat → Nat → Nat → Bytes
  | 0, _, _ => []
  | n + 1, i, pos =>
    let line := b.lines.getD i []
    if i + 1 = b.lines.length then
      cellsSrc b line pos ++ (b.buf.drop (pos + cellsSize line)).take b.cell.size
        ++ linesSrc b n (i + 1) (pos + cellsSize line + b.cell.size)
    else
      cellsSrc b line pos ++ [LF] ++ linesSrc b n (i + 1) (pos + cellsSize line)

/-- The position `writeLines` returns after `n` lines from line `i` on. -/
def linesEnd {σ : Type} (b : Writer σ) : Nat → Nat → Nat → Nat
  | 0, _, pos => pos
  | n + 1, i, pos =>
    let line := b.lines.getD i []
    if i + 1 = b.lines.length then linesEnd b n (i + 1) (pos + cellsSize line + b.cell.size)
    else linesEnd b n (i + 1) (pos + cellsSize line)

end tabwriter

/-- The relation `Aligned src out` between a text handed to the tabwriter and
a text it delivers: `out` is `src`, byte for byte and in order, except that a
horizontal or vertical tab may stand replaced by a run of spaces (possibly
empty) and a form feed by a line feed. -/
inductive Aligned : Bytes → Bytes → Prop where
  | done : Aligned [] []
  | keep (c : Nat) {src out : Bytes} : Aligned src out → Aligned (c :: src) (c :: out)
  | pad (c : Nat) (k : Nat) {src out : Bytes} :
      c = HT ∨ c = VT → Aligned src out → Aligned (c :: src) (List.replicate k SP ++ out)
  | feed {src out : Bytes} : Aligned src out → Aligned (FF :: src) (LF :: out)

namespace tabwriter

/-- What `format` and its loop are shown to do on lines `line0` to `line1`
over a recording sink: they return the position after these lines, and the
sink received a text aligned with their source. -/
def FormatsAligned (r : Run Bytes Nat) (b : Writer Bytes) (pos line0 line1 : Nat) : Prop :=
  ∃ out, r = .ok (linesEnd b (line1 - line0) line0 pos) (emit b out)
    ∧ Aligned (linesSrc b (line1 - line0) line0 pos) out

/-- A buffered line seen as text: its terminated cells, each with its text
and whether a horizontal tab ended it. -/
abbrev DocLine := List (Bytes × Bool)

/-- The tab that ended a cell. -/
def termOf (htab : Bool) : Nat := if htab then HT else VT

/-- The text of the cells of a line, without terminators (as in `buf`). -/
def lineText (l : DocLine) : Bytes := (l.map Prod.fst).flatten

/-- The text of the cells of all lines, without terminators (as in `buf`). -/
def docText (ls : List DocLine) : Bytes := (ls.map lineText).flatten

/-- Source of a line whose cells are all followed by their tab. -/
def lineFull (l : DocLine) : Bytes := (l.map (fun tc => tc.1 ++ [termOf tc.2])).flatten

/-- Source of a line whose last cell is not followed by a tab. -/
def lineSrc : DocLine → Bytes
  | [] => []
  | [tc] => tc.1
  | tc :: d :: l => tc.1 ++ [termOf tc.2] ++ lineSrc (d :: l)

/-- Source of buffered lines when the incomplete cell is empty: a line feed
after every line but the last. -/
def docSrc : List DocLine → Bytes
  | [] => []
  | [l] => lineSrc l
  | l :: m :: ls => lineSrc l ++ [LF] ++ docSrc (m :: ls)

/-- The text received since the last flush, read back from the buffered
lines and the text `cur` of the incomplete cell. -/
def pend : List DocLine → Bytes → Bytes
  | [], cur => cur
  | [l], cur => lineFull l ++ cur
  | l :: m :: ls, cur => lineSrc l ++ [LF] ++ pend (m :: ls) cur

/-- The lines after `terminateCell`, as text. -/
def docTerminate (ls : List DocLine) (cur : Bytes) (htab : Bool) : List DocLine :=
  ls.dropLast ++ [ls.getLastD [] ++ [(cur, htab)]]

/-- The state `b` of a writer holds the lines `ls` and the incomplete cell
text `cur`: sizes and tab marks of its cells are those of `ls`, and `buf`
is the text of the cells in order. -/
structure Rep {σ : Type} (b : Writer σ) (ls : List DocLine) (cur : Bytes) : Prop where
  shape : b.lines.map (List.map (fun c => (c.size, c.htab)))
            = ls.map (List.map (fun tc => (tc.1.length, tc.2)))
  text : b.buf = docText ls ++ cur
  size : b.cell.size = cur.length
  nonempty : ls ≠ []

/-- The invariant of a tabwriter over a recording sink that started with
`s0`, after it received `inp` in all, the last bytes `seg` of it not yet
appended to `buf`: the sink holds a text aligned with a first part of
`inp`, and the state holds the rest. -/
def Inv (s0 inp : Bytes) (b : Writer Bytes) (seg : Bytes) : Prop :=
  ∃ (flushed : Bytes) (ls : List DocLine) (cur o : Bytes),
    inp = flushed ++ pend ls cur ++ seg ∧ Rep b ls cur ∧ b.output.st = s0 ++ o
      ∧ Aligned flushed o ∧ Recording b ∧ b.padchar = SP ∧ b.widths = []

end tabwriter

/-- The invariant of a `prefixWriter` made by `NewPrefixWriter` over a recording sink. -/
def InvPW (s0 inp : Bytes) (pw : prefixWriter (tabwriter.Writer Bytes)) : Prop :=
  pw.out.write = tabwriter.Write ∧ pw.out.flush = some tabwriter.Flush
    ∧ tabwriter.Inv s0 inp pw.out.st []

/-! ## Tables: rows with the same number of cells -/

/-- A cell text that the tabwriter takes as plain text: it holds no tab,
vertical tab, line feed, form feed or `Escape` byte. -/
def plain (t : Bytes) : Prop :=
  ∀ c ∈ t, c ≠ HT ∧ c ≠ VT ∧ c ≠ LF ∧ c ≠ FF ∧ c ≠ tabwriter.Escape

/-- The cells of a row as the tabwriter sees them: the indentation of
`WriteCols` is part of the first cell. -/
def rowCells (n : Nat) : List Bytes → List Bytes
  | [] => []
  | c :: cs => (List.replicate (2 * n) SP ++ c) :: cs

/-- Width of column `j` of a table: the largest width in runes of its cells,
plus the padding of 2. -/
def colWidth (rows : List (List Bytes)) (j : Nat) : Int :=
  (rows.map (fun r => (runeCount (r.getD j []) : Int) + 2)).foldr max 0

/-- Widths of the columns of a table of `k` cells per row: the last cell of
a row belongs to no column. -/
def columnWidths (k : Nat) (rows : List (List Bytes)) : List Int :=
  (List.range (k - 1)).map (colWidth rows)

/-- A row laid out from cell `j` on: each cell's text, followed by spaces up
to the width of its column when the column has one. -/
def renderCells (ws : List Int) : Nat → List Bytes → Bytes
  | _, [] => []
  | j, t :: ts =>
    t ++ (if j < ws.length then List.replicate (ws.getD j 0 - (runeCount t : Int)).toNat SP else [])
      ++ renderCells ws (j + 1) ts

/-- The part of a laid-out row that precedes cell `j`. -/
def renderBefore (ws : List Int) (j : Nat) (cells : List Bytes) : Bytes :=
  renderCells ws 0 (cells.take j)

/-- A table laid out: one line per row, each ended by a line feed. -/
def renderTable (ws : List Int) (rows : List (List Bytes)) : Bytes :=
  (rows.map (fun r => renderCells ws 0 r ++ [LF])).flatten

namespace tabwriter

/-- The cell the tabwriter records for the plain text `t`. -/
def cellOf (htab : Bool) (t : Bytes) : cell :=
  { size := t.length, width := (runeCount t : Int), htab := htab }

/-- The cells recorded for a complete row: all but the last are ended by a
tab. -/
def cellsOf : List Bytes → List cell
  | [] => []
  | [t] => [cellOf false t]
  | t :: u :: ts => cellOf true t :: cellsOf (u :: ts)

/-- The state of the writer of `NewPrefixWriter` that holds the complete
rows `rows` and the tab-ended cells `done` of a row under way. -/
def rowsState (out : GoWriter Bytes) (rows : List (List Bytes)) (done : List Bytes) :
    Writer Bytes :=
  { output := out, minwidth := 0, tabwidth := 8, padding := 2, padchar := SP,
    buf := (rows.map List.flatten).flatten ++ done.flatten,
    pos := ((rows.map List.flatten).flatten ++ done.flatten).length,
    cell := {}, endChar := 0,
    lines := rows.map cellsOf ++ [done.map (cellOf true)],
    widths := [] }

/-- The writer `b` holds the table `rows`, of `K` cells per row, and nothing
else: its lines are the cells of the rows followed by the empty line under
way, and its buffer is their text. -/
structure IsTable (b : Writer Bytes) (rows : List (List Bytes)) (K : Nat) : Prop where
  lines : b.lines = rows.map cellsOf ++ [[]]
  buf : b.buf = (rows.map List.flatten).flatten
  cell : b.cell.size = 0
  pad : b.padding = 2
  minw : b.minwidth = 0
  padchar : b.padchar = SP
  recording : Recording b
  len : ∀ r ∈ rows, r.length = K

/-- Every cell of a line, from column `j` on, that `writeCells` pads is at most
as wide as its column: `writePadding` gets `textw ≤ cellw`. -/
def cellsFit (widths : List Int) : List cell → Nat → Prop
  | [], _ => True
  | c :: cs, j => (j < widths.length → c.width ≤ widths.getD j 0) ∧ cellsFit widths cs (j + 1)

/-- The same for the `n` lines from line `i` on. -/
def linesFit {σ : Type} (b : Writer σ) (i n : Nat) : Prop :=
  ∀ k, i ≤ k → k < i + n → cellsFit b.widths (b.lines.getD k []) 0

end tabwriter

/-! ## describe.go

`writeSubject` and `writeSink` of package `binding` print through the method
`WriteAttribute(attr, value string) PrefixWriter` of their writer. The method
is not among the methods of `PrefixWriter` in prefixwriter.go, and it is left
uninterpreted here: a run of these functions is the sequence of the
`WriteAttribute` calls it makes, each with its receiver. The receiver is the
writer handed to the function or the writer that an earlier call of the run
returned. The structs of the data model come from the packages
`knative.dev/pkg` and `k8s.io/apimachinery`; a pointer field is an `Option`,
`none` standing for `nil`. -/

namespace binding

/-- The receiver of a `WriteAttribute` call: the writer `dw` handed to the
function, or the writer returned by call number `call` of the run (counted
from 0). -/
inductive Receiver where
  | dw
  | result (call : Nat)
deriving DecidableEq, Repr

/-- One call `receiver.WriteAttribute(attr, value)`. -/
structure AttributeCall where
  receiver : Receiver
  attr : Bytes
  value : Bytes
deriving DecidableEq, Repr

/-- The call `w.WriteAttribute(attr, value)` after the calls `t`: the call is
recorded, and the writer it returns is named after its number. -/
def WriteAttribute (t : List AttributeCall) (w : Receiver) (attr value : Bytes) :
    Receiver × List AttributeCall :=
  (Receiver.result t.length, t ++ [{ receiver := w, attr := attr, value := value }])

/-- How a run ends: it returns, or it panics on reading a field through a nil
pointer. -/
inductive Ending where
  | returned
  | nilDereference
deriving DecidableEq, Repr

/-- The struct behind `sink.Ref` (`duckv1.KReference`), with the fields that
`writeSink` reads. -/
structure KReference where
  Kind : Bytes
  Namespace : Bytes
  Name : Bytes
  APIVersion : Bytes

/-- The struct `duckv1.Destination`: `Ref` and `URI` are pointers. The URL is
kept as the text its method `String` returns. -/
structure Destination where
  Ref : Option KReference
  URI : Option Bytes

/-- The struct `metav1.LabelSelector`, of which `MatchLabels` is read: a map
from string to string, kept as its entries in the order in which a `range`
loop happens to visit them. The keys of a map are distinct. -/
structure LabelSelector where
  MatchLabels : List (Bytes × Bytes)

/-- The struct `tracker.Reference`, the subject of a binding. -/
structure Reference where
  APIVersion : Bytes
  Kind : Bytes
  Namespace : Bytes
  Name : Bytes
  Selector : Option LabelSelector

/-- The struct `SinkBindingSpec`, with the fields the describe command reads. -/
structure SinkBindingSpec where
  Subject : Reference
  Sink : Destination

/-- The struct `SinkBinding`, with the fields the describe command reads. -/
structure SinkBinding where
  Spec : SinkBindingSpec

/-- The map index expression `m[k]`: the value stored under `k`, the empty
string when there is none. -/
def mapIndex (m : List (Bytes × Bytes)) (k : Bytes) : Bytes :=
  match m.find? (fun e => e.1 == k) with
  | some e => e.2
  | none => []

/-- The function `sort.Strings`: the strings in increasing order, where strings
compare byte by byte (the lexicographic order of lists of bytes). -/
def sortStrings (l : List Bytes) : List Bytes :=
  l.insertionSort (· ≤ ·)

/-- The function `writeSink`. Reading `sink.Ref.Name` for the second call
panics when `sink.Ref` is nil; the run then ends with the calls made so far. -/
def writeSink (lib : FmtLib) (sink : Destination) : List AttributeCall × Ending :=
  let r0 := WriteAttribute [] Receiver.dw (ascii "Sink") []
  let subWriter := r0.1
  match sink.Ref with
  | none => (r0.2, Ending.nilDereference)
  | some sinkRef =>
    let t1 := (WriteAttribute r0.2 subWriter (ascii "Name") sinkRef.Name).2
    let t2 := (WriteAttribute t1 subWriter (ascii "Namespace") sinkRef.Namespace).2
    let ref := sink.Ref
    let t3 :=
      if ref.isSome then
        (WriteAttribute t2 subWriter (ascii "Resource")
          (Sprintf lib (ascii "%s (%s)")
            [GoValue.string sinkRef.Kind, GoValue.string sinkRef.APIVersion])).2
      else t2
    let uri := sink.URI
    let t4 :=
      match uri with
      | some u => (WriteAttribute t3 subWriter (ascii "URI") u).2
      | none => t3
    (t4, Ending.returned)

/-- The function `writeSubject`. -/
def writeSubject (binding : SinkBinding) : List AttributeCall :=
  let subject := binding.Spec.Subject
  let r0 := WriteAttribute [] Receiver.dw (ascii "Subject") []
  let subjectDw := r0.1
  let t1 := (WriteAttribute r0.2 subjectDw (ascii "Kind") subject.Kind).2
  let t2 := (WriteAttribute t1 subjectDw (ascii "APIVersion") subject.APIVersion).2
  let t3 :=
    if subject.Name ≠ [] then (WriteAttribute t2 subjectDw (ascii "Name") subject.Name).2
    else t2
  match subject.Selector with
  | none => t3
  | some selector =>
    let r4 := WriteAttribute t3 subjectDw (ascii "Selector") []
    let matchDw := r4.1
    if selector.MatchLabels.length > 0 then
      let lKeys := sortStrings (selector.MatchLabels.map Prod.fst)
      lKeys.foldl (fun t k => (WriteAttribute t matchDw k (mapIndex selector.MatchLabels k)).2)
        r4.2
    else r4.2

/-- The calls `writeSubject` makes before it looks at the selector: "Subject"
on the writer it is given, then "Kind", "APIVersion" and, for a subject with a
name, "Name" on the writer returned for "Subject". -/
def subjectHead (subject : Reference) : List AttributeCall :=
  [{ receiver := Receiver.dw, attr := ascii "Subject", value := [] },
   { receiver := Receiver.result 0, attr := ascii "Kind", value := subject.Kind },
   { receiver := Receiver.result 0, attr := ascii "APIVersion", value := subject.APIVersion }]
  ++ (if subject.Name ≠ [] then
        [{ receiver := Receiver.result 0, attr := ascii "Name", value := subject.Name }]
      else [])

end binding

namespace tabwriter

/-- The writer `b` with `st` as the state of its output. -/
def setSink {σ : Type} (b : Writer σ) (st : σ) : Writer σ :=
  { b with output := { b.output with st := st } }

/-- The run `r`, started on the writer `b`, touched the output only and did
not end in a run-time panic: when it returns, the writer is `b` up to the
state of the output; when it panics with an error of the output, the writer
is `b` up to the state of the output and the column widths pushed so far. -/
def Sound {σ α : Type} (r : Run σ α) (b : Writer σ) : Prop :=
  match r with
  | .ok _ b2 => ∃ st, b2 = setSink b st
  | .panicked _ b2 => ∃ st ws, b2 = { setSink b st with widths := ws }
  | .crashed _ => False

/-- The writer `b2` has the configuration of `b`, the methods of its output,
and its `crashed` mark. -/
def Cfg {σ : Type} (b b2 : Writer σ) : Prop :=
  b2.minwidth = b.minwidth ∧ b2.tabwidth = b.tabwidth ∧ b2.padding = b.padding
    ∧ b2.padchar = b.padchar ∧ b2.crashed = b.crashed
    ∧ b2.output.write = b.output.write ∧ b2.output.flush = b.output.flush

end tabwriter

/-- A destination whose first `Write` fails with an error and whose later
writes succeed: its state is the number of writes so far and the text
received. It has no `Flush`. -/
def flakySink : GoWriter (Nat × Bytes) :=
  { st := (0, []),
    write := fun s p =>
      if s.1 = 0 then ((1, s.2), 0, some (GoError.sink 1))
      else ((s.1 + 1, s.2 ++ p), (p.length : Int), none),
    flush := none }

/-- A destination whose every `Write` fails. It has no `Flush`. -/
def failingSink : GoWriter Unit :=
  { st := (), write := fun _ _ => ((), 0, some (GoError.sink 1)), flush := none }

/-- The state of a prefixWriter over a tabwriter that holds no column widths
of an interrupted flush and has not raised a panic: the state of a writer as
`NewPrefixWriter` makes it and as `Flush` leaves it. -/
def Clean {σ : Type} (pw : prefixWriter (tabwriter.Writer σ)) : Prop :=
  pw.out.write = tabwriter.Write ∧ pw.out.flush = some tabwriter.Flush
    ∧ pw.out.st.widths = [] ∧ pw.out.st.crashed = false

namespace tabwriter

/-- The texts the tabwriter keeps to itself. A text makes `Write` flush where
it has a form feed, or a newline that ends a line without tab or vertical
tab; a text with the byte `Escape` is left aside. `holdsBack h text` is
`none` for a text with such a point; for any other text it tells whether the
line under way at the end of `text` holds a tab, `h` telling the same for the
line under way at the start. -/
def holdsBack : Bool → Bytes → Option Bool
  | h, [] => some h
  | h, c :: cs =>
    if c = HT ∨ c = VT then holdsBack true cs
    else if c = LF then (if h then holdsBack false cs else none)
    else if c = FF ∨ c = Escape then none
    else holdsBack h cs

end tabwriter

namespace tabwriter

/-- The text `out` is what `writeLines` produces for the `n` lines from line
`i` on when each line is written with column widths of its own, all of them
starting with the widths `base`. -/
def Via {σ : Type} (b : Writer σ) (base : List Int) : Nat → Nat → Nat → Bytes → Prop
  | 0, _, _, out => out = []
  | n + 1, i, pos, out => ∃ (ext : List Int) (rest : Bytes),
      out = linesOut { b with widths := base ++ ext } 1 i pos ++ rest
      ∧ Via b base n (i + 1) (linesEnd b 1 i pos) rest

/-- What `format` is shown to do on lines `line0` to `line1` over a recording
sink: it returns the position after these lines, and the sink received each
line laid out with column widths that start with the widths in force at the
call. -/
def FormatsVia (r : Run Bytes Nat) (b : Writer Bytes) (pos line0 line1 : Nat) : Prop :=
  ∃ out, r = .ok (linesEnd b (line1 - line0) line0 pos) (emit b out)
    ∧ Via b b.widths (line1 - line0) line0 pos out

end tabwriter

namespace tabwriter

/-- The writer `b` holds the complete rows `rows`, each of at least two
cells, and nothing else. -/
structure IsRows (b : Writer Bytes) (rows : List (List Bytes)) : Prop where
  lines : b.lines = rows.map cellsOf ++ [[]]
  buf : b.buf = (rows.map List.flatten).flatten
  cell : b.cell.size = 0
  pad : b.padding = 2
  minw : b.minwidth = 0
  padchar : b.padchar = SP
  recording : Recording b
  two : ∀ r ∈ rows, 2 ≤ r.length

end tabwriter

/-- The rows laid out one per line, each with column widths of its own that
start with the widths `base`. -/
def RowsVia (base : List Int) : List (List Bytes) → Bytes → Prop
  | [], out => out = []
  | r :: rs, out => ∃ (ext : List Int) (rest : Bytes),
      out = renderCells (base ++ ext) 0 r ++ [LF] ++ rest ∧ RowsVia base rs rest

/-! ## Lemmas on package fmt -/

theorem length_dropWhile_le {α : Type} (p : α → Bool) (l : List α) :
    (l.dropWhile p).length ≤ l.length := by
  induction l with
  | nil => simp
  | cons x xs ih =>
    simp only [List.dropWhile_cons]
    split
    · simp only [List.length_cons]; omega
    · simp

theorem scanFlags_length (l : Bytes) (f : FmtFlags) : (scanFlags l f).2.length ≤ l.length := by
  induction l generalizing f with
  | nil => simp [scanFlags]
  | cons c cs ih =>
    unfold scanFlags
    split_ifs <;> first | (simp only [List.length_cons]; exact Nat.le_succ_of_le (ih _)) | simp

theorem doPrintfLoop_fuel (lib : FmtLib) (a : List GoValue) (m1 : Nat) :
    ∀ (m2 : Nat) (format : Bytes) (argNum : Nat) (reordered : Bool),
      format.length < m1 → format.length < m2 →
      doPrintfLoop lib a m1 format argNum reordered = doPrintfLoop lib a m2 format argNum reordered := by
  induction m1 with
  | zero => intro m2 format argNum reordered h1; omega
  | succ k ih =>
    intro m2 format argNum reordered h1 h2
    obtain ⟨j, rfl⟩ : ∃ j, m2 = j + 1 := ⟨m2 - 1, by omega⟩
    have hd := length_dropWhile_le (fun c => decide (c ≠ PERCENT)) format
    unfold doPrintfLoop
    cases hrest : format.dropWhile (fun c => decide (c ≠ PERCENT)) with
    | nil => rfl
    | cons p afterPercent =>
      rw [hrest] at hd
      simp only [List.length_cons] at hd
      have hs := scanFlags_length afterPercent {}
      simp only
      cases hb : (scanFlags afterPercent {}).2 with
      | nil =>
        simp only
        split_ifs
        · rfl
        · rw [ih j _ _ _ (by simp; omega) (by simp; omega)]
      | cons c cs =>
        rw [hb] at hs
        simp only [List.length_cons] at hs
        cases harg : a.get? argNum with
        | none =>
          simp only
          split_ifs
          · rfl
          · rw [ih j _ _ _ (by simp; omega) (by simp; omega)]
        | some arg =>
          simp only
          split_ifs
          · rw [ih j _ _ _ (by omega) (by omega)]
          · rfl
          · rw [ih j _ _ _ (by simp; omega) (by simp; omega)]

/-- A byte other than the percent sign in front of the format is copied. -/
theorem doPrintfLoop_literal (lib : FmtLib) (a : List GoValue) (fuel : Nat) (c : Nat)
    (hc : c ≠ PERCENT) (format : Bytes) (argNum : Nat) (reordered : Bool) :
    doPrintfLoop lib a (fuel + 1) (c :: format) argNum reordered
      = c :: doPrintfLoop lib a (fuel + 1) format argNum reordered := by
  have h1 : (c :: format).takeWhile (fun c => decide (c ≠ PERCENT))
      = c :: format.takeWhile (fun c => decide (c ≠ PERCENT)) := by
    simp [List.takeWhile_cons, hc]
  have h2 : (c :: format).dropWhile (fun c => decide (c ≠ PERCENT))
      = format.dropWhile (fun c => decide (c ≠ PERCENT)) := by
    simp [List.dropWhile_cons, hc]
  conv_lhs => unfold doPrintfLoop
  conv_rhs => unfold doPrintfLoop
  rw [h1, h2]
  cases format.dropWhile (fun c => decide (c ≠ PERCENT)) with
  | nil => simp
  | cons p afterPercent =>
    simp only
    cases (scanFlags afterPercent {}).2 with
    | nil => simp
    | cons c1 cs =>
      cases a.get? argNum with
      | none => simp
      | some arg =>
        simp only
        split_ifs <;> simp

theorem Sprintf_cons (lib : FmtLib) (c : Nat) (hc : c ≠ PERCENT) (format : Bytes)
    (a : List GoValue) : Sprintf lib (c :: format) a = c :: Sprintf lib format a := by
  unfold Sprintf
  rw [List.length_cons, doPrintfLoop_literal lib a _ c hc]
  rw [doPrintfLoop_fuel lib a _ (format.length + 1) format 0 false (by omega) (by omega)]

theorem Sprintf_literal_append (lib : FmtLib) (l : Bytes) (hl : ∀ c ∈ l, c ≠ PERCENT)
    (format : Bytes) (a : List GoValue) : Sprintf lib (l ++ format) a = l ++ Sprintf lib format a := by
  induction l with
  | nil => rfl
  | cons c cs ih =>
    rw [List.cons_append, Sprintf_cons lib c (hl c (by simp)), ih (fun x hx => hl x (by simp [hx]))]
    rfl

theorem prefixLoop_eq (level : Int) (fuel : Nat) (i : Int) (p : Bytes) (hi : 0 ≤ i)
    (hf : (level - i).toNat ≤ fuel) :
    prefixLoop level fuel i p = p ++ List.replicate (2 * (level - i).toNat) SP := by
  induction fuel generalizing i p with
  | zero =>
    have : (level - i).toNat = 0 := by omega
    simp [prefixLoop, this]
  | succ k ih =>
    unfold prefixLoop
    split_ifs with h
    · rw [ih (i + 1) _ (by omega) (by omega)]
      have : (level - i).toNat = (level - (i + 1)).toNat + 1 := by omega
      rw [this, Nat.mul_add, List.append_assoc]
      congr 1
    · have : (level - i).toNat = 0 := by omega
      simp [this]

theorem indent_eq (level : Int) :
    prefixLoop level level.toNat 0 [] = List.replicate (2 * level.toNat) SP := by
  rw [prefixLoop_eq level _ 0 [] (le_refl _) (by simp)]
  simp

theorem Write_eq (lib : FmtLib) {σ : Type} (pw : prefixWriter σ) (level : Int)
    (format : Bytes) (a : List GoValue) :
    (pw.Write lib level format a).out
      = (pw.out.Write (List.replicate (2 * level.toNat) SP ++ Sprintf lib format a)).1 := by
  unfold prefixWriter.Write Fprintf
  simp only [indent_eq]
  rw [Sprintf_literal_append]
  intro c hc
  rw [List.eq_of_mem_replicate hc]
  decide


theorem intercalate_cons_cons {α : Type} (sep x y : List α) (ys : List (List α)) :
    sep.intercalate (x :: y :: ys) = x ++ sep ++ sep.intercalate (y :: ys) := by
  simp [List.intercalate, List.intersperse]

/-- One round of the format loop on a percent-s directive with a string operand. -/
theorem doPrintfLoop_percent_s (lib : FmtLib) (a : List GoValue) (fuel : Nat) (rest : Bytes)
    (argNum : Nat) (reordered : Bool) (s : Bytes) (ha : a.get? argNum = some (GoValue.string s)) :
    doPrintfLoop lib a (fuel + 1) (PERCENT :: 115 :: rest) argNum reordered
      = s ++ doPrintfLoop lib a fuel rest (argNum + 1) reordered := by
  have ha2 : a[argNum]? = some (GoValue.string s) := by simpa using ha
  conv_lhs => unfold doPrintfLoop
  simp [scanFlags, ha2, printArg, PERCENT]

theorem doPrintfLoop_cols (lib : FmtLib) (cols : List Bytes) :
    ∀ (done : List Bytes) (fuel : Nat) (reordered : Bool),
      (stringsJoin (cols.map (fun _ => ascii "%s")) (ascii "\t")).length < fuel →
      doPrintfLoop lib (done.map GoValue.string ++ cols.map GoValue.string) fuel
        (stringsJoin (cols.map (fun _ => ascii "%s")) (ascii "\t")) done.length reordered
        = stringsJoin cols (ascii "\t") := by
  induction cols with
  | nil =>
    intro done fuel reordered hf
    cases fuel with
    | zero => simp [stringsJoin, doPrintfLoop, extraArgs, List.intercalate]
    | succ k => simp [stringsJoin, doPrintfLoop, extraArgs, List.intercalate]
  | cons c cs ih =>
    intro done fuel reordered hf
    obtain ⟨k, rfl⟩ : ∃ k, fuel = k + 1 := ⟨fuel - 1, by omega⟩
    have hget : (done.map GoValue.string ++ (c :: cs).map GoValue.string).get? done.length
        = some (GoValue.string c) := by
      rw [List.get?_eq_getElem?, List.getElem?_append_right (by simp)]
      simp
    have hargs : done.map GoValue.string ++ (c :: cs).map GoValue.string
        = (done ++ [c]).map GoValue.string ++ cs.map GoValue.string := by simp
    cases cs with
    | nil =>
      have hfmt : stringsJoin ([c].map (fun _ => ascii "%s")) (ascii "\t") = [PERCENT, 115] := by
        rfl
      rw [hfmt, doPrintfLoop_percent_s lib _ k [] _ _ c hget]
      cases k with
      | zero => simp [stringsJoin, doPrintfLoop, extraArgs, List.intercalate]
      | succ k => simp [stringsJoin, doPrintfLoop, extraArgs, List.intercalate]
    | cons c2 cs2 =>
      have hfmt : stringsJoin ((c :: c2 :: cs2).map (fun _ => ascii "%s")) (ascii "\t")
          = PERCENT :: 115 :: HT :: stringsJoin ((c2 :: cs2).map (fun _ => ascii "%s")) (ascii "\t") := by
        simp only [stringsJoin, List.map_cons, intercalate_cons_cons]
        rfl
      rw [hfmt] at hf ⊢
      simp only [List.length_cons] at hf
      rw [doPrintfLoop_percent_s lib _ k _ _ _ c hget]
      obtain ⟨j, rfl⟩ : ∃ j, k = j + 1 := ⟨k - 1, by omega⟩
      rw [doPrintfLoop_literal lib _ j HT (by decide)]
      have := ih (done ++ [c]) (j + 1) reordered (by omega)
      rw [hargs]
      simp only [List.length_append, List.length_singleton] at this
      rw [this]
      simp only [stringsJoin, intercalate_cons_cons]
      simp [ascii]

theorem Sprintf_cols (lib : FmtLib) (cols : List Bytes) :
    Sprintf lib (stringsJoin (cols.map (fun _ => ascii "%s")) (ascii "\t")) (cols.map GoValue.string)
      = stringsJoin cols (ascii "\t") := by
  have h := doPrintfLoop_cols lib cols [] _ false (Nat.lt_succ_self _)
  simpa [Sprintf] using h

theorem WriteCols_eq (lib : FmtLib) {σ : Type} (pw : prefixWriter σ) (level : Int)
    (cols : List Bytes) :
    (pw.WriteCols lib level cols).out
      = (pw.out.Write (List.replicate (2 * level.toNat) SP ++ stringsJoin cols [HT])).1 := by
  unfold prefixWriter.WriteCols
  simp only [Write_eq, Sprintf_cols]
  rfl

theorem doPrintln_nil (lib : FmtLib) : doPrintln lib [] = [LF] := by
  simp [doPrintln, List.intercalate]

theorem WriteLine_eq (lib : FmtLib) {σ : Type} (pw : prefixWriter σ) (a : List GoValue) :
    (pw.WriteLine lib a).out = (pw.out.Write (doPrintln lib a)).1 := rfl

theorem WriteColsLn_eq (lib : FmtLib) {σ : Type} (pw : prefixWriter σ) (level : Int)
    (cols : List Bytes) :
    (pw.WriteColsLn lib level cols).out = ((pw.WriteCols lib level cols).out.Write [LF]).1 := by
  unfold prefixWriter.WriteColsLn
  rw [WriteLine_eq, doPrintln_nil]

theorem memSink_Write (s p : Bytes) : ((memSink s).Write p).1 = memSink (s ++ p) := rfl


/-- C1. For every level `n ≥ 0`, format and operand list, `Write(n, format, a...)` makes one
`Write` on the destination with exactly `2n` spaces followed by the formatted text: a
recording destination grows by these bytes and nothing else. `LEVEL_0` to `LEVEL_3` are the
levels 0 to 3, hence 0, 2, 4 and 6 spaces. -/
theorem Write_appends_indent_then_formatted (lib : FmtLib) {σ : Type} (pw : prefixWriter σ)
    (n : Nat) (format : Bytes) (a : List GoValue) (s : Bytes) :
    (pw.Write lib (n : Int) format a).out
        = (pw.out.Write (List.replicate (2 * n) SP ++ Sprintf lib format a)).1
      ∧ ((prefixWriter.mk (memSink s)).Write lib (n : Int) format a).out.st
        = s ++ (List.replicate (2 * n) SP ++ Sprintf lib format a)
      ∧ (List.replicate (2 * n) SP).length = 2 * n
      ∧ LEVEL_0 = ((0 : Nat) : Int) ∧ LEVEL_1 = ((1 : Nat) : Int) ∧ LEVEL_2 = ((2 : Nat) : Int)
      ∧ LEVEL_3 = ((3 : Nat) : Int) := by
  have h := Write_eq lib pw (n : Int) format a
  rw [Int.toNat_ofNat] at h
  refine ⟨h, ?_, by simp, rfl, rfl, rfl, rfl⟩
  rw [Write_eq, memSink_Write, Int.toNat_ofNat]
  rfl

/-- C2. For every level `n ≥ 0` and every list of cells, `WriteCols(n, cols...)` hands the
destination exactly `2n` spaces followed by the cells joined by single tabs, each cell
verbatim; an empty list gives the indentation alone, and cells holding percent signs are
not interpreted. -/
theorem WriteCols_joins_cells_verbatim (lib : FmtLib) {σ : Type} (pw : prefixWriter σ)
    (n : Nat) (cols : List Bytes) (s : Bytes) :
    (pw.WriteCols lib (n : Int) cols).out
        = (pw.out.Write (List.replicate (2 * n) SP ++ [HT].intercalate cols)).1
      ∧ ((prefixWriter.mk (memSink s)).WriteCols lib (n : Int) cols).out.st
        = s ++ (List.replicate (2 * n) SP ++ [HT].intercalate cols)
      ∧ ((prefixWriter.mk (memSink s)).WriteCols lib (n : Int) []).out.st
        = s ++ List.replicate (2 * n) SP
      ∧ ((prefixWriter.mk (memSink s)).WriteCols lib (n : Int) [ascii "%d", ascii "%"]).out.st
        = s ++ (List.replicate (2 * n) SP ++ ascii "%d\t%") := by
  have h : ∀ (τ : Type) (q : prefixWriter τ) (cs : List Bytes),
      (q.WriteCols lib (n : Int) cs).out
        = (q.out.Write (List.replicate (2 * n) SP ++ [HT].intercalate cs)).1 := by
    intro τ q cs
    rw [WriteCols_eq, Int.toNat_ofNat]
    rfl
  refine ⟨h σ pw cols, ?_, ?_, ?_⟩
  · rw [h, memSink_Write]; rfl
  · rw [h, memSink_Write]; simp [memSink, List.intercalate]
  · rw [h, memSink_Write]; rfl

/-- C3. `WriteColsLn(level, cols...)` is `WriteCols(level, cols...)` followed by one `Write` of
a single newline: a recording destination holds the bytes of `WriteCols` and then exactly
one line feed. -/
theorem WriteColsLn_is_WriteCols_then_newline (lib : FmtLib) {σ : Type} (pw : prefixWriter σ)
    (level : Int) (cols : List Bytes) (s : Bytes) :
    (pw.WriteColsLn lib level cols).out = ((pw.WriteCols lib level cols).out.Write [LF]).1
      ∧ ((prefixWriter.mk (memSink s)).WriteColsLn lib level cols).out.st
        = ((prefixWriter.mk (memSink s)).WriteCols lib level cols).out.st ++ [LF] := by
  refine ⟨WriteColsLn_eq lib pw level cols, ?_⟩
  rw [WriteColsLn_eq, WriteCols_eq, memSink_Write, memSink_Write]
  rfl

/-- C4. `WriteLine()` hands the destination a single newline and no indentation;
`WriteLine(a...)` hands it the operands in their default format separated by single spaces
and ended by one newline, with no indentation; string operands appear verbatim. -/
theorem WriteLine_spaces_then_newline (lib : FmtLib) {σ : Type} (pw : prefixWriter σ)
    (a : List GoValue) (ss : List Bytes) (s : Bytes) :
    (pw.WriteLine lib []).out = (pw.out.Write [LF]).1
      ∧ ((prefixWriter.mk (memSink s)).WriteLine lib []).out.st = s ++ [LF]
      ∧ (pw.WriteLine lib a).out
        = (pw.out.Write ([SP].intercalate (a.map (fun arg => printArg lib {} arg 118)) ++ [LF])).1
      ∧ ((prefixWriter.mk (memSink s)).WriteLine lib a).out.st
        = s ++ ([SP].intercalate (a.map (fun arg => printArg lib {} arg 118)) ++ [LF])
      ∧ ((prefixWriter.mk (memSink s)).WriteLine lib (ss.map GoValue.string)).out.st
        = s ++ ([SP].intercalate ss ++ [LF]) := by
  refine ⟨?_, ?_, rfl, rfl, ?_⟩
  · rw [WriteLine_eq, doPrintln_nil]
  · rw [WriteLine_eq, doPrintln_nil]; rfl
  · rw [WriteLine_eq, memSink_Write]
    simp [doPrintln, memSink, printArg, Function.comp_def]

/-- C8. `Flush` returns the unsupported-destination error exactly when the destination has no
`Flush` method, and then leaves the writer and its destination untouched; otherwise it
returns the result of the destination's own `Flush` and the state that call produced. -/
theorem Flush_unsupported_iff_no_flusher {σ : Type} (pw : prefixWriter σ) :
    (pw.Flush.2 = some FlushError.unsupported ↔ pw.out.flush = none)
      ∧ (pw.out.flush = none → pw.Flush.1 = pw)
      ∧ (∀ f, pw.out.flush = some f →
          pw.Flush.2 = (f pw.out.st).2.map FlushError.fromOut
          ∧ pw.Flush.1.out.st = (f pw.out.st).1
          ∧ pw.Flush.1.out.write = pw.out.write
          ∧ pw.Flush.1.out.flush = pw.out.flush) := by
  unfold prefixWriter.Flush
  cases h : pw.out.flush with
  | none => simp
  | some f =>
    simp only [Option.some.injEq, forall_eq', and_self, and_true, reduceCtorEq, iff_false,
      false_implies, true_and]
    refine ⟨?_, h⟩
    cases (f pw.out.st).2 <;> simp

theorem prefixWriter_ext {σ : Type} (p q : prefixWriter σ) (h : p.out = q.out) : p = q := by
  cases p; cases q; simp_all

/-- Every call leaves the methods of the destination as they are: only its state moves. -/
theorem call_methods (lib : FmtLib) {σ : Type} (pw : prefixWriter σ) (c : Call) :
    (pw.call lib c).out.write = pw.out.write ∧ (pw.call lib c).out.flush = pw.out.flush := by
  cases c with
  | Write level format a => rw [prefixWriter.call, Write_eq]; exact ⟨rfl, rfl⟩
  | WriteLine a => rw [prefixWriter.call, WriteLine_eq]; exact ⟨rfl, rfl⟩
  | WriteCols level cols => rw [prefixWriter.call, WriteCols_eq]; exact ⟨rfl, rfl⟩
  | WriteColsLn level cols =>
    rw [prefixWriter.call, WriteColsLn_eq, WriteCols_eq]; exact ⟨rfl, rfl⟩
  | Flush =>
    rw [prefixWriter.call]
    unfold prefixWriter.Flush
    cases h : pw.out.flush with
    | none => simp [h]
    | some f => simp [h]

theorem calls_methods (lib : FmtLib) {σ : Type} (cs : List Call) :
    ∀ (pw : prefixWriter σ), (pw.calls lib cs).out.write = pw.out.write
      ∧ (pw.calls lib cs).out.flush = pw.out.flush := by
  induction cs with
  | nil => intro pw; exact ⟨rfl, rfl⟩
  | cons c cs ih =>
    intro pw
    have h1 := ih (pw.call lib c)
    have h2 := call_methods lib pw c
    simp only [prefixWriter.calls, List.foldl_cons] at h1 ⊢
    exact ⟨h1.1.trans h2.1, h1.2.trans h2.2⟩

theorem calls_append (lib : FmtLib) {σ : Type} (pw : prefixWriter σ) (cs ds : List Call) :
    pw.calls lib (cs ++ ds) = (pw.calls lib cs).calls lib ds := by
  simp [prefixWriter.calls, List.foldl_append]

theorem call_memSink (lib : FmtLib) (s : Bytes) (c : Call) :
    (prefixWriter.mk (memSink s)).call lib c = prefixWriter.mk (memSink (s ++ written lib [c])) := by
  apply prefixWriter_ext
  cases c with
  | Write level format a =>
    simp only [written, prefixWriter.calls, List.foldl_cons, List.foldl_nil, prefixWriter.call,
      Write_eq, memSink_Write]
    simp [memSink]
  | WriteLine a =>
    simp only [written, prefixWriter.calls, List.foldl_cons, List.foldl_nil, prefixWriter.call,
      WriteLine_eq, memSink_Write]
    simp [memSink]
  | WriteCols level cols =>
    simp only [written, prefixWriter.calls, List.foldl_cons, List.foldl_nil, prefixWriter.call,
      WriteCols_eq, memSink_Write]
    simp [memSink]
  | WriteColsLn level cols =>
    simp only [written, prefixWriter.calls, List.foldl_cons, List.foldl_nil, prefixWriter.call,
      WriteColsLn_eq, WriteCols_eq, memSink_Write]
    simp [memSink]
  | Flush =>
    simp [written, prefixWriter.calls, prefixWriter.call, prefixWriter.Flush, memSink]

theorem calls_memSink (lib : FmtLib) (cs : List Call) :
    ∀ s : Bytes, (prefixWriter.mk (memSink s)).calls lib cs
      = prefixWriter.mk (memSink (s ++ written lib cs)) := by
  induction cs with
  | nil => intro s; simp [prefixWriter.calls, written, memSink]
  | cons c cs ih =>
    intro s
    have e : ∀ t, (prefixWriter.mk (memSink t)).calls lib (c :: cs)
        = ((prefixWriter.mk (memSink t)).call lib c).calls lib cs := fun t => rfl
    rw [e, call_memSink, ih]
    have hw : written lib (c :: cs) = written lib [c] ++ written lib cs := by
      show ((prefixWriter.mk (memSink [])).calls lib (c :: cs)).out.st = _
      rw [e, call_memSink, ih]
      simp [memSink]
    rw [hw, List.append_assoc]


/-- C9. For every sink given to `NewPrefixWriter` (with or without a `Flush` of its own) and
every sequence of calls, the destination of the writer is the tabwriter, which has a `Flush`
method: `Flush` never returns the unsupported-destination error and returns what the
tabwriter's `Flush` returns. -/
theorem NewPrefixWriter_Flush_never_unsupported (lib : FmtLib) {σ : Type} (sink : GoWriter σ)
    (cs : List Call) :
    ((NewPrefixWriter sink).calls lib cs).out.flush = some tabwriter.Flush
      ∧ ((NewPrefixWriter sink).calls lib cs).Flush.2 ≠ some FlushError.unsupported
      ∧ ((NewPrefixWriter sink).calls lib cs).Flush.2
          = (tabwriter.Flush ((NewPrefixWriter sink).calls lib cs).out.st).2.map FlushError.fromOut := by
  have h : ((NewPrefixWriter sink).calls lib cs).out.flush = some tabwriter.Flush :=
    (calls_methods lib cs (NewPrefixWriter sink)).2
  refine ⟨h, ?_, ?_⟩
  · unfold prefixWriter.Flush
    rw [h]
    cases (tabwriter.Flush ((NewPrefixWriter sink).calls lib cs).out.st).2 <;> simp
  · unfold prefixWriter.Flush
    rw [h]

/-- C10, counterexample. A sink without a `Flush` method given to `NewPrefixWriter`: `Flush`
on the writer succeeds and delivers the aligned text. -/
theorem Flush_over_plain_sink_succeeds :
    (memSink []).flush = none
      ∧ ((NewPrefixWriter (memSink [])).calls sampleLib
          [Call.WriteColsLn 1 [ascii "a", ascii "b"]]).Flush.2 = none
      ∧ ((NewPrefixWriter (memSink [])).calls sampleLib
          [Call.WriteColsLn 1 [ascii "a", ascii "b"]]).Flush.1.out.st.output.st
          = ascii "  a  b\n" :=
  ⟨rfl, by decide, by decide⟩

/-- C10, amended. A `prefixWriter` whose field `out` is itself a destination without `Flush`
fails every `Flush` with the unsupported-destination error and is left unchanged by it; on
a recording destination the text written before is there exactly once, in order. -/
theorem Flush_without_flusher_fails_and_keeps_content (lib : FmtLib) {σ : Type}
    (pw : prefixWriter σ) (hplain : pw.out.flush = none) (cs : List Call) (s : Bytes) :
    (pw.calls lib cs).Flush = (pw.calls lib cs, some FlushError.unsupported)
      ∧ ((prefixWriter.mk (memSink s)).calls lib cs).Flush
          = (prefixWriter.mk (memSink (s ++ written lib cs)), some FlushError.unsupported) := by
  have h : ∀ (τ : Type) (q : prefixWriter τ), q.out.flush = none →
      (q.calls lib cs).Flush = (q.calls lib cs, some FlushError.unsupported) := by
    intro τ q hq
    have h2 := (calls_methods lib cs q).2
    rw [hq] at h2
    unfold prefixWriter.Flush
    rw [h2]
  refine ⟨h σ pw hplain, ?_⟩
  have h3 := h Bytes (prefixWriter.mk (memSink s)) rfl
  rw [calls_memSink] at h3 ⊢
  exact h3

/-- C10, witness: a recording destination set directly as `out`, two calls and a `Flush` in
between; the final `Flush` fails and the text is there once. -/
theorem Flush_without_flusher_fails_and_keeps_content_witness :
    (prefixWriter.mk (memSink (ascii "x"))).out.flush = none
      ∧ ((prefixWriter.mk (memSink (ascii "x"))).calls sampleLib
          [Call.WriteColsLn 1 [ascii "a", ascii "b"], Call.Flush, Call.WriteLine []]).Flush.2
          = some FlushError.unsupported
      ∧ ((prefixWriter.mk (memSink (ascii "x"))).calls sampleLib
          [Call.WriteColsLn 1 [ascii "a", ascii "b"], Call.Flush, Call.WriteLine []]).Flush.1.out.st
          = ascii "x  a\tb\n\n" :=
  ⟨rfl,
   congrArg Prod.snd (Flush_without_flusher_fails_and_keeps_content sampleLib
      (prefixWriter.mk (memSink (ascii "x"))) rfl
      [Call.WriteColsLn 1 [ascii "a", ascii "b"], Call.Flush, Call.WriteLine []] []).1,
   by decide⟩

theorem Sprintf_literal (lib : FmtLib) (l : Bytes) (hl : ∀ c ∈ l, c ≠ PERCENT) :
    Sprintf lib l [] = l := by
  have h := Sprintf_literal_append lib l hl [] []
  rw [List.append_nil] at h
  rw [h]
  simp [Sprintf, doPrintfLoop, extraArgs]

/-- C7, counterexample. The scenario delivers `Name:  foo` and `  a  b`: two lines with a
single line feed, not the three lines `Name:`, four-space-indented `foo` and `  a  b`. -/
theorem scenario_is_not_three_lines :
    ((NewPrefixWriter (memSink [])).calls sampleLib
        [Call.Write 0 (ascii "Name:") [], Call.Write 1 (ascii "foo") [], Call.WriteLine [],
         Call.WriteCols 1 [ascii "a", ascii "b"]]).Flush.1.out.st.output.st
      = ascii "Name:  foo\n  a  b"
    ∧ ascii "Name:  foo\n  a  b" ≠ ascii "Name:\n    foo\n  a  b"
    ∧ (ascii "Name:  foo\n  a  b").count LF = 1 :=
  ⟨by decide, by decide, by decide⟩

/-- C7, amended. On a fresh writer over a recording sink, `Write(0,"Name:")`,
`Write(1,"foo")`, `WriteLine()`, `WriteCols(1,"a","b")`, `Flush()` succeeds and delivers
exactly `Name:  foo`, a line feed and `  a  b`; the tabwriter is left with an empty buffer,
one empty line and an empty cell. -/
theorem scenario_delivers_two_lines (lib : FmtLib) :
    ((NewPrefixWriter (memSink [])).calls lib
        [Call.Write 0 (ascii "Name:") [], Call.Write 1 (ascii "foo") [], Call.WriteLine [],
         Call.WriteCols 1 [ascii "a", ascii "b"]]).Flush.2 = none
    ∧ ((NewPrefixWriter (memSink [])).calls lib
        [Call.Write 0 (ascii "Name:") [], Call.Write 1 (ascii "foo") [], Call.WriteLine [],
         Call.WriteCols 1 [ascii "a", ascii "b"]]).Flush.1.out.st.output.st
      = ascii "Name:  foo\n  a  b"
    ∧ ((NewPrefixWriter (memSink [])).calls lib
        [Call.Write 0 (ascii "Name:") [], Call.Write 1 (ascii "foo") [], Call.WriteLine [],
         Call.WriteCols 1 [ascii "a", ascii "b"]]).Flush.1.out.st.buf = []
    ∧ ((NewPrefixWriter (memSink [])).calls lib
        [Call.Write 0 (ascii "Name:") [], Call.Write 1 (ascii "foo") [], Call.WriteLine [],
         Call.WriteCols 1 [ascii "a", ascii "b"]]).Flush.1.out.st.lines = [[]]
    ∧ ((NewPrefixWriter (memSink [])).calls lib
        [Call.Write 0 (ascii "Name:") [], Call.Write 1 (ascii "foo") [], Call.WriteLine [],
         Call.WriteCols 1 [ascii "a", ascii "b"]]).Flush.1.out.st.cell = {} := by
  have key : (NewPrefixWriter (memSink [])).calls lib
        [Call.Write 0 (ascii "Name:") [], Call.Write 1 (ascii "foo") [], Call.WriteLine [],
         Call.WriteCols 1 [ascii "a", ascii "b"]]
      = (NewPrefixWriter (memSink [])).calls sampleLib
        [Call.Write 0 (ascii "Name:") [], Call.Write 1 (ascii "foo") [], Call.WriteLine [],
         Call.WriteCols 1 [ascii "a", ascii "b"]] := by
    apply prefixWriter_ext
    simp only [prefixWriter.calls, List.foldl_cons, List.foldl_nil, prefixWriter.call,
      Write_eq, WriteCols_eq, WriteLine_eq, doPrintln_nil]
    rw [Sprintf_literal lib _ (by decide), Sprintf_literal lib _ (by decide),
      Sprintf_literal sampleLib _ (by decide), Sprintf_literal sampleLib _ (by decide)]
  rw [key]
  exact ⟨by decide, by decide, by decide, by decide, by decide⟩

/-! ## The tabwriter over a recording sink -/

namespace tabwriter

theorem emit_nil (b : Writer Bytes) : emit b [] = b := by
  simp [emit]

theorem emit_emit (b : Writer Bytes) (x y : Bytes) : emit (emit b x) y = emit b (x ++ y) := by
  simp [emit]

theorem write0_rec (b : Writer Bytes) (hw : Recording b) (buf : Bytes) :
    write0 b buf = .ok () (emit b buf) := by
  have h : b.output.write b.output.st buf = (b.output.st ++ buf, (buf.length : Int), none) := by
    rw [hw]
  simp [write0, GoWriter.Write, h, emit]

theorem writeNLoop_rec (c : Nat) (fuel : Nat) :
    ∀ (b : Writer Bytes) (n : Nat), Recording b → n ≤ fuel →
      writeNLoop (List.replicate 8 c) fuel b n = .ok () (emit b (List.replicate n c)) := by
  induction fuel with
  | zero =>
    intro b n hw hn
    have : n = 0 := by omega
    subst this
    simp [writeNLoop, write0_rec b hw]
  | succ k ih =>
    intro b n hw hn
    unfold writeNLoop
    simp only [List.length_replicate]
    split_ifs with h
    · rw [write0_rec b hw]
      simp only [Run.andThen]
      rw [ih (emit b _) (n - 8) hw (by omega), emit_emit]
      congr 2
      rw [← List.replicate_add]
      congr 1
      omega
    · rw [write0_rec b hw]
      congr 2
      rw [List.take_replicate, Nat.min_eq_left (by omega)]

theorem writePadding_rec (b : Writer Bytes) (hw : Recording b) (textw cellw : Int)
    (h : textw ≤ cellw) :
    writePadding b textw cellw
      = .ok () (emit b (List.replicate (cellw - textw).toNat b.padchar)) := by
  unfold writePadding writeN
  rw [if_neg (by omega)]
  exact writeNLoop_rec b.padchar _ b _ hw (le_refl _)

theorem recording_emit (b : Writer Bytes) (hw : Recording b) (x : Bytes) :
    Recording (emit b x) := hw

theorem cellsOut_emit (cells : List cell) :
    ∀ (b : Writer Bytes) (x : Bytes) (j pos : Nat),
      cellsOut (emit b x) cells j pos = cellsOut b cells j pos := by
  induction cells with
  | nil => intro b x j pos; rfl
  | cons c cs ih =>
    intro b x j pos
    simp only [cellsOut, ih]
    rfl

theorem cellsSize_cons (c : cell) (cs : List cell) :
    cellsSize (c :: cs) = c.size + cellsSize cs := by
  simp [cellsSize]

theorem writeCells_rec (cells : List cell) :
    ∀ (b : Writer Bytes) (j pos : Nat), Recording b → cellsFit b.widths cells j →
      writeCells cells b j pos
        = .ok (pos + cellsSize cells) (emit b (cellsOut b cells j pos)) := by
  induction cells with
  | nil => intro b j pos hw _; simp [writeCells, cellsOut, cellsSize, emit_nil]
  | cons c cs ih =>
    intro b j pos hw hf
    obtain ⟨hf1, hf2⟩ := hf
    unfold writeCells
    rw [cellsSize_cons]
    by_cases hsz : c.size = 0
    · simp only [hsz, if_true]
      by_cases hj : j < b.widths.length
      · simp only [hj, if_true]
        rw [writePadding_rec b hw _ _ (hf1 hj)]
        simp only [Run.andThen]
        rw [ih _ _ _ (recording_emit b hw _) hf2, cellsOut_emit, emit_emit]
        simp [cellsOut, hsz, hj]
      · simp only [hj, if_false]
        rw [ih _ _ _ hw hf2]
        simp [cellsOut, hsz, hj]
    · simp only [hsz, if_false]
      rw [write0_rec b hw]
      simp only [Run.andThen]
      have hwid : (emit b (List.take c.size (List.drop pos b.buf))).widths = b.widths := rfl
      rw [hwid]
      by_cases hj : j < b.widths.length
      · simp only [hj, if_true]
        rw [writePadding_rec _ (recording_emit b hw _) _ _ (hf1 hj)]
        simp only [Run.andThen]
        rw [ih _ _ _ (recording_emit _ (recording_emit b hw _) _) hf2, cellsOut_emit,
          cellsOut_emit, emit_emit, emit_emit]
        simp [cellsOut, hj, emit, Nat.add_assoc]
      · simp only [hj, if_false]
        rw [ih _ _ _ (recording_emit b hw _) hf2, cellsOut_emit, emit_emit]
        simp [cellsOut, hj, emit, Nat.add_assoc]

theorem linesOut_emit (n : Nat) :
    ∀ (b : Writer Bytes) (x : Bytes) (i pos : Nat),
      linesOut (emit b x) n i pos = linesOut b n i pos := by
  induction n with
  | zero => intro b x i pos; rfl
  | succ k ih =>
    intro b x i pos
    simp only [linesOut, ih, cellsOut_emit]
    rfl

theorem linesEnd_emit (n : Nat) :
    ∀ (b : Writer Bytes) (x : Bytes) (i pos : Nat),
      linesEnd (emit b x) n i pos = linesEnd b n i pos := by
  induction n with
  | zero => intro b x i pos; rfl
  | succ k ih =>
    intro b x i pos
    simp only [linesEnd, ih]
    rfl

theorem writeLinesLoop_rec (n : Nat) :
    ∀ (b : Writer Bytes) (i line1 pos : Nat), Recording b → i + n = line1 → linesFit b i n →
      writeLinesLoop n b i line1 pos
        = .ok (linesEnd b n i pos) (emit b (linesOut b n i pos)) := by
  induction n with
  | zero => intro b i line1 pos hw h _; simp [writeLinesLoop, linesOut, linesEnd, emit_nil]
  | succ k ih =>
    intro b i line1 pos hw h hf
    have hf2 : linesFit b (i + 1) k := fun m h1 h2 => hf m (by omega) (by omega)
    unfold writeLinesLoop
    have hi : i < line1 := by omega
    simp only [hi, if_true]
    rw [writeCells_rec _ b 0 pos hw (hf i (le_refl _) (by omega))]
    simp only [Run.andThen]
    have hl : (emit b (cellsOut b (b.lines.getD i []) 0 pos)).lines = b.lines := rfl
    rw [hl]
    by_cases hlast : i + 1 = b.lines.length
    · simp only [hlast, if_true]
      rw [write0_rec _ (recording_emit b hw _)]
      simp only [Run.andThen]
      rw [ih _ _ _ _ (recording_emit _ (recording_emit b hw _) _) (by omega) (hlast ▸ hf2)]
      rw [linesOut_emit, linesOut_emit, linesEnd_emit, linesEnd_emit, emit_emit, emit_emit]
      simp [linesOut, linesEnd, hlast, emit]
    · simp only [hlast, if_false]
      rw [write0_rec _ (recording_emit b hw _)]
      simp only [Run.andThen]
      rw [ih _ _ _ _ (recording_emit _ (recording_emit b hw _) _) (by omega) hf2]
      rw [linesOut_emit, linesOut_emit, linesEnd_emit, linesEnd_emit, emit_emit, emit_emit]
      simp [linesOut, linesEnd, hlast, emit]


theorem writeLines_rec (b : Writer Bytes) (hw : Recording b) (pos line0 line1 : Nat)
    (h : line0 ≤ line1) (hf : linesFit b line0 (line1 - line0)) :
    writeLines b pos line0 line1
      = .ok (linesEnd b (line1 - line0) line0 pos) (emit b (linesOut b (line1 - line0) line0 pos)) :=
  writeLinesLoop_rec _ b line0 line1 pos hw (by omega) hf

end tabwriter

theorem Aligned.refl (t : Bytes) : Aligned t t := by
  induction t with
  | nil => exact Aligned.done
  | cons c cs ih => exact Aligned.keep c ih

theorem Aligned.append {a x : Bytes} (h1 : Aligned a x) {b y : Bytes} (h2 : Aligned b y) :
    Aligned (a ++ b) (x ++ y) := by
  induction h1 with
  | done => exact h2
  | keep c _ ih => exact Aligned.keep c ih
  | pad c k hc _ ih =>
    rw [List.cons_append, List.append_assoc]
    exact Aligned.pad c k hc ih
  | feed _ ih => exact Aligned.feed ih

theorem Aligned.text (t : Bytes) {b y : Bytes} (h : Aligned b y) : Aligned (t ++ b) (t ++ y) :=
  Aligned.append (Aligned.refl t) h

theorem Aligned.tab (c k : Nat) (hc : c = HT ∨ c = VT) : Aligned [c] (List.replicate k SP) := by
  have := Aligned.pad c k hc Aligned.done
  simpa using this

namespace tabwriter

theorem cells_aligned {σ : Type} (b : Writer σ) (hp : b.padchar = SP) (cells : List cell) :
    ∀ (j pos : Nat), (cells = [] ∨ b.widths.length < j + cells.length) →
      Aligned (cellsSrc b cells pos) (cellsOut b cells j pos) := by
  induction cells with
  | nil => intro j pos _; exact Aligned.done
  | cons c cs ih =>
    intro j pos h
    cases cs with
    | nil =>
      have hj : ¬ j < b.widths.length := by
        rcases h with h | h
        · simp at h
        · simp at h; omega
      simp only [cellsSrc, cellsOut, hj, if_false, List.append_nil]
      exact Aligned.refl _
    | cons d ds =>
      have h2 : (d :: ds = [] ∨ b.widths.length < (j + 1) + (d :: ds).length) := by
        right
        rcases h with h | h
        · simp at h
        · simp only [List.length_cons] at h ⊢; omega
      have ih2 := ih (j + 1) (pos + c.size) h2
      have e1 : cellsSrc b (c :: d :: ds) pos
          = (b.buf.drop pos).take c.size ++ ([if c.htab then HT else VT]
            ++ cellsSrc b (d :: ds) (pos + c.size)) := by
        simp [cellsSrc]
      have e2 : cellsOut b (c :: d :: ds) j pos
          = (b.buf.drop pos).take c.size
            ++ ((if j < b.widths.length then
                  List.replicate (b.widths.getD j 0 - c.width).toNat b.padchar
                else [])
            ++ cellsOut b (d :: ds) (j + 1) (pos + c.size)) := by
        rw [cellsOut, List.append_assoc]
      rw [e1, e2]
      apply Aligned.text
      have ht : (if c.htab = true then HT else VT) = HT ∨ (if c.htab = true then HT else VT) = VT := by
        split_ifs <;> simp
      by_cases hj : j < b.widths.length
      · rw [if_pos hj, hp]
        exact Aligned.append (Aligned.tab _ _ ht) ih2
      · rw [if_neg hj]
        exact Aligned.append (Aligned.tab _ 0 ht) ih2

theorem lines_aligned {σ : Type} (b : Writer σ) (hp : b.padchar = SP) (n : Nat) :
    ∀ (i pos : Nat),
      (∀ k, i ≤ k → k < i + n → b.widths.length = 0 ∨ b.widths.length < (b.lines.getD k []).length) →
      Aligned (linesSrc b n i pos) (linesOut b n i pos) := by
  induction n with
  | zero => intro i pos _; exact Aligned.done
  | succ m ih =>
    intro i pos h
    have hc : (b.lines.getD i [] = [] ∨ b.widths.length < 0 + (b.lines.getD i []).length) := by
      rcases h i (le_refl _) (by omega) with h0 | h0
      · by_cases he : b.lines.getD i [] = []
        · exact Or.inl he
        · right
          rw [h0]
          have := List.length_pos.mpr he
          omega
      · right; omega
    have h1 := cells_aligned b hp _ 0 pos hc
    have h2 := fun p => ih (i + 1) p (fun k hk1 hk2 => h k (by omega) (by omega))
    simp only [linesSrc, linesOut]
    split_ifs
    · exact Aligned.append (Aligned.append h1 (Aligned.refl _)) (h2 _)
    · exact Aligned.append (Aligned.append h1 (Aligned.refl _)) (h2 _)

end tabwriter

namespace tabwriter

theorem cellsSrc_congr {σ τ : Type} (b1 : Writer σ) (b2 : Writer τ) (hb : b1.buf = b2.buf)
    (cells : List cell) : ∀ pos, cellsSrc b1 cells pos = cellsSrc b2 cells pos := by
  induction cells with
  | nil => intro pos; rfl
  | cons c cs ih =>
    intro pos
    cases cs with
    | nil => simp [cellsSrc, hb]
    | cons d ds => simp only [cellsSrc, hb, ih]

theorem linesSrc_congr {σ τ : Type} (b1 : Writer σ) (b2 : Writer τ) (hb : b1.buf = b2.buf)
    (hl : b1.lines = b2.lines) (hc : b1.cell = b2.cell) (n : Nat) :
    ∀ i pos, linesSrc b1 n i pos = linesSrc b2 n i pos := by
  induction n with
  | zero => intro i pos; rfl
  | succ m ih =>
    intro i pos
    simp only [linesSrc, hb, hl, hc, ih, cellsSrc_congr b1 b2 hb]

theorem linesEnd_congr {σ τ : Type} (b1 : Writer σ) (b2 : Writer τ)
    (hl : b1.lines = b2.lines) (hc : b1.cell = b2.cell) (n : Nat) :
    ∀ i pos, linesEnd b1 n i pos = linesEnd b2 n i pos := by
  induction n with
  | zero => intro i pos; rfl
  | succ m ih =>
    intro i pos
    simp only [linesEnd, hl, hc, ih]

theorem linesEnd_add {σ : Type} (b : Writer σ) (m n : Nat) :
    ∀ i pos, linesEnd b (m + n) i pos = linesEnd b n (i + m) (linesEnd b m i pos) := by
  induction m with
  | zero => intro i pos; simp [linesEnd]
  | succ k ih =>
    intro i pos
    have e : k + 1 + n = (k + n) + 1 := by omega
    rw [e]
    simp only [linesEnd]
    split_ifs
    · rw [ih]; congr 1; omega
    · rw [ih]; congr 1; omega

theorem linesSrc_add {σ : Type} (b : Writer σ) (m n : Nat) :
    ∀ i pos, linesSrc b (m + n) i pos
      = linesSrc b m i pos ++ linesSrc b n (i + m) (linesEnd b m i pos) := by
  induction m with
  | zero => intro i pos; simp [linesSrc, linesEnd]
  | succ k ih =>
    intro i pos
    have e : k + 1 + n = (k + n) + 1 := by omega
    have e2 : i + (k + 1) = i + 1 + k := by omega
    rw [e, e2]
    simp only [linesSrc, linesEnd]
    split_ifs
    · rw [ih]; simp only [List.append_assoc]
    · rw [ih]; simp only [List.append_assoc]

theorem columnBlock_spec {σ : Type} (b : Writer σ) (column : Nat) (n : Nat) :
    ∀ (this line1 : Nat) (w : Int),
      this ≤ (columnBlock b column n this line1 w).2
      ∧ (this ≤ line1 → (columnBlock b column n this line1 w).2 ≤ line1)
      ∧ (∀ k, this ≤ k → k < (columnBlock b column n this line1 w).2 →
            column + 1 < (b.lines.getD k []).length) := by
  induction n with
  | zero =>
    intro this line1 w
    simp only [columnBlock]
    exact ⟨le_refl _, fun h => h, fun k h1 h2 => by omega⟩
  | succ m ih =>
    intro this line1 w
    unfold columnBlock
    by_cases h1 : this < line1
    · simp only [h1, if_true]
      by_cases h2 : column + 1 ≥ (b.lines.getD this []).length
      · simp only [h2, if_true]
        exact ⟨le_refl _, fun h => h, fun k h1 h2 => by omega⟩
      · simp only [h2, if_false]
        generalize (if _ > w then _ else w) = w2
        obtain ⟨a1, a2, a3⟩ := ih (this + 1) line1 w2
        refine ⟨by omega, fun _ => a2 (by omega), ?_⟩
        intro k hk1 hk2
        by_cases hk : k = this
        · subst hk; omega
        · exact a3 k (by omega) hk2
    · simp only [h1, if_false]
      exact ⟨le_refl _, fun h => h, fun k h1 h2 => by omega⟩

theorem columnBlock_width {σ : Type} (b : Writer σ) (column : Nat) (n : Nat) :
    ∀ (this line1 : Nat) (w : Int),
      w ≤ (columnBlock b column n this line1 w).1
      ∧ (∀ k, this ≤ k → k < (columnBlock b column n this line1 w).2 →
            ((b.lines.getD k []).getD column {}).width + (b.padding : Int)
              ≤ (columnBlock b column n this line1 w).1) := by
  induction n with
  | zero =>
    intro this line1 w
    simp only [columnBlock]
    exact ⟨le_refl _, fun k h1 h2 => by omega⟩
  | succ m ih =>
    intro this line1 w
    unfold columnBlock
    by_cases h1 : this < line1
    · simp only [h1, if_true]
      by_cases h2 : column + 1 ≥ (b.lines.getD this []).length
      · simp only [h2, if_true]
        exact ⟨le_refl _, fun k h1 h2 => by omega⟩
      · simp only [h2, if_false]
        generalize hw2 : (if _ > w then _ else w) = w2
        have hge : w ≤ w2
            ∧ ((b.lines.getD this []).getD column {}).width + (b.padding : Int) ≤ w2 := by
          rw [← hw2]
          split_ifs <;> constructor <;> omega
        obtain ⟨a1, a2⟩ := ih (this + 1) line1 w2
        refine ⟨by omega, ?_⟩
        intro k hk1 hk2
        by_cases hk : k = this
        · subst hk; omega
        · exact a2 k (by omega) hk2
    · simp only [h1, if_false]
      exact ⟨le_refl _, fun k h1 h2 => by omega⟩

theorem cellsFit_push (ws : List Int) (w : Int) (cells : List cell) :
    ∀ j, cellsFit ws cells j →
      (∀ p, p < cells.length → j + p = ws.length → (cells.getD p {}).width ≤ w) →
      cellsFit (ws ++ [w]) cells j := by
  induction cells with
  | nil => intro j _ _; trivial
  | cons c cs ih =>
    intro j hf hw
    obtain ⟨h1, h2⟩ := hf
    refine ⟨?_, ih (j + 1) h2 (fun p hp hjp => by
      have := hw (p + 1) (by simp only [List.length_cons]; omega) (by omega)
      simpa using this)⟩
    intro hj
    simp only [List.length_append, List.length_singleton] at hj
    by_cases hlt : j < ws.length
    · rw [List.getD_append _ _ _ _ hlt]
      exact h1 hlt
    · have hje : j = ws.length := by omega
      have h0 := hw 0 (by simp) (by omega)
      rw [List.getD_append_right _ _ _ _ (by omega)]
      simpa [hje] using h0

theorem cellsFit_nil (cells : List cell) : ∀ j, cellsFit [] cells j := by
  induction cells with
  | nil => intro j; trivial
  | cons c cs ih => intro j; exact ⟨fun h => absurd h (by simp), ih (j + 1)⟩

theorem columnBlock_advances {σ : Type} (b : Writer σ) (column : Nat) (n : Nat)
    (this line1 : Nat) (w : Int) (h1 : this < line1)
    (h2 : column + 1 < (b.lines.getD this []).length) :
    this < (columnBlock b column (n + 1) this line1 w).2 := by
  unfold columnBlock
  have h3 : ¬ column + 1 ≥ (b.lines.getD this []).length := by omega
  simp only [h1, if_true, h3, if_false]
  generalize (if _ > w then _ else w) = w2
  have := (columnBlock_spec b column n (this + 1) line1 w2).1
  omega

end tabwriter

namespace tabwriter

theorem push_pop_widths (b : Writer Bytes) (w : Int) (x y : Bytes) :
    { emit { emit b x with widths := (emit b x).widths ++ [w] } y with
        widths := (emit { emit b x with widths := (emit b x).widths ++ [w] } y).widths.dropLast }
      = emit b (x ++ y) := by
  simp [emit]

theorem formatLoop_aligned (nested : Writer Bytes → Nat → Nat → Nat → Run Bytes Nat)
    (column : Nat)
    (hnested : ∀ (b : Writer Bytes) (pos l0 l1 : Nat), Recording b → b.padchar = SP →
      b.widths.length = column + 1 → l0 ≤ l1 →
      (∀ k, l0 ≤ k → k < l1 → column + 1 < (b.lines.getD k []).length) →
      (∀ k, l0 ≤ k → k < l1 → cellsFit b.widths (b.lines.getD k []) 0) →
      FormatsAligned (nested b pos l0 l1) b pos l0 l1)
    (fuel : Nat) :
    ∀ (b : Writer Bytes) (pos line0 this line1 : Nat), Recording b → b.padchar = SP →
      b.widths.length = column → line0 ≤ this → line0 ≤ line1 →
      1 ≤ fuel → line1 + 1 ≤ this + fuel →
      (∀ k, line0 ≤ k → k < line1 → column = 0 ∨ column < (b.lines.getD k []).length) →
      (∀ k, line0 ≤ k → k < line1 → cellsFit b.widths (b.lines.getD k []) 0) →
      FormatsAligned (formatLoop nested column fuel b pos line0 this line1) b pos line0 line1 := by
  induction fuel with
  | zero => intro b pos line0 this line1 _ _ _ _ _ h; omega
  | succ f ih =>
    intro b pos line0 this line1 hw hp hcol h0 h01 _ hfuel H HF
    have Hw : ∀ (l0 n : Nat), line0 ≤ l0 → l0 + n ≤ line1 →
        ∀ k, l0 ≤ k → k < l0 + n →
          b.widths.length = 0 ∨ b.widths.length < (b.lines.getD k []).length := by
      intro l0 n h1 h2 k hk1 hk2
      rw [hcol]
      exact H k (by omega) (by omega)
    unfold formatLoop
    by_cases hthis : this < line1
    · simp only [hthis, if_true]
      by_cases hskip : column + 1 ≥ (b.lines.getD this []).length
      · simp only [hskip, if_true]
        exact ih b pos line0 (this + 1) line1 hw hp hcol (by omega) h01 (by omega) (by omega) H HF
      · simp only [hskip, if_false]
        rw [writeLines_rec b hw pos line0 this h0 (fun k hk1 hk2 => HF k hk1 (by omega))]
        simp only [Run.andThen]
        have hA1 := lines_aligned b hp (this - line0) line0 pos
          (Hw line0 (this - line0) (le_refl _) (by omega))
        generalize hout1 : linesOut b (this - line0) line0 pos = out1 at hA1 ⊢
        generalize hpos1 : linesEnd b (this - line0) line0 pos = pos1
        have hblk := columnBlock_spec (emit b out1) column (line1 - this) this line1
          (emit b out1).minwidth
        have hadv : this < (columnBlock (emit b out1) column (line1 - this) this line1
            (emit b out1).minwidth).2 := by
          have e : line1 - this = (line1 - this - 1) + 1 := by omega
          rw [e]
          exact columnBlock_advances (emit b out1) column _ this line1 _ hthis (by
            show column + 1 < (b.lines.getD this []).length
            omega)
        have hbw := (columnBlock_width (emit b out1) column (line1 - this) this line1
          (emit b out1).minwidth).2
        generalize columnBlock (emit b out1) column (line1 - this) this line1
          (emit b out1).minwidth = blk at hblk hadv hbw ⊢
        obtain ⟨_, hb2, hb3⟩ := hblk
        have hb2 := hb2 (by omega)
        have hbw2 : ∀ k, this ≤ k → k < blk.2 →
            ((b.lines.getD k []).getD column {}).width + (b.padding : Int) ≤ blk.1 := hbw
        obtain ⟨out2, hr2, hA2⟩ := hnested
          { emit b out1 with widths := (emit b out1).widths ++ [blk.1] } pos1 this blk.2
          hw hp (by simp [emit, hcol]) (by omega) hb3
          (fun k hk1 hk2 => cellsFit_push b.widths blk.1 (b.lines.getD k []) 0
            (HF k (by omega) (by omega))
            (fun p _ hjp => by
              have e : p = column := by omega
              have := hbw2 k hk1 hk2
              rw [e]
              omega))
        rw [hr2]
        simp only [Run.andThen]
        rw [push_pop_widths]
        obtain ⟨out3, hr3, hA3⟩ := ih (emit b (out1 ++ out2))
          (linesEnd { emit b out1 with widths := (emit b out1).widths ++ [blk.1] }
            (blk.2 - this) this pos1)
          blk.2 (blk.2 + 1) line1 hw hp hcol (by omega) hb2 (by omega) (by omega)
          (fun k hk1 hk2 => H k (by omega) hk2) (fun k hk1 hk2 => HF k (by omega) hk2)
        rw [hr3]
        refine ⟨out1 ++ out2 ++ out3, ?_, ?_⟩
        · rw [emit_emit]
          have e1 : line1 - line0 = (this - line0) + ((blk.2 - this) + (line1 - blk.2)) := by omega
          rw [e1, linesEnd_add, linesEnd_add, hpos1]
          have e2 : line0 + (this - line0) = this := by omega
          have e3 : this + (blk.2 - this) = blk.2 := by omega
          rw [e2, e3]
          rw [linesEnd_congr (emit b (out1 ++ out2)) b rfl rfl,
            linesEnd_congr { emit b out1 with widths := (emit b out1).widths ++ [blk.1] } b rfl rfl]
        · have e1 : line1 - line0 = (this - line0) + ((blk.2 - this) + (line1 - blk.2)) := by omega
          rw [e1, linesSrc_add, linesSrc_add, hpos1]
          have e2 : line0 + (this - line0) = this := by omega
          have e3 : this + (blk.2 - this) = blk.2 := by omega
          rw [e2, e3, List.append_assoc]
          rw [linesSrc_congr { emit b out1 with widths := (emit b out1).widths ++ [blk.1] } b
            rfl rfl rfl] at hA2
          rw [linesSrc_congr (emit b (out1 ++ out2)) b rfl rfl rfl,
            linesEnd_congr { emit b out1 with widths := (emit b out1).widths ++ [blk.1] } b
              rfl rfl] at hA3
          exact Aligned.append hA1 (Aligned.append hA2 hA3)
    · simp only [hthis, if_false]
      rw [writeLines_rec b hw pos line0 line1 h01 (fun k hk1 hk2 => HF k hk1 (by omega))]
      exact ⟨_, rfl, lines_aligned b hp (line1 - line0) line0 pos
        (Hw line0 (line1 - line0) (le_refl _) (by omega))⟩

theorem format_aligned (depth : Nat) :
    ∀ (b : Writer Bytes) (pos line0 line1 : Nat), Recording b → b.padchar = SP →
      line0 ≤ line1 →
      (∀ k, line0 ≤ k → k < line1 →
        b.widths.length = 0 ∨ b.widths.length < (b.lines.getD k []).length) →
      (∀ k, line0 ≤ k → k < line1 → cellsFit b.widths (b.lines.getD k []) 0) →
      FormatsAligned (format depth b pos line0 line1) b pos line0 line1 := by
  induction depth with
  | zero =>
    intro b pos line0 line1 hw hp h01 H HF
    unfold format
    rw [writeLines_rec b hw pos line0 line1 h01 (fun k hk1 hk2 => HF k hk1 (by omega))]
    exact ⟨_, rfl, lines_aligned b hp (line1 - line0) line0 pos
      (fun k hk1 hk2 => H k hk1 (by omega))⟩
  | succ d ih =>
    intro b pos line0 line1 hw hp h01 H HF
    unfold format
    exact formatLoop_aligned (format d) b.widths.length
      (fun b2 pos2 l0 l1 hw2 hp2 hc2 hl hB hF2 =>
        ih b2 pos2 l0 l1 hw2 hp2 hl (fun k hk1 hk2 => Or.inr (by rw [hc2]; exact hB k hk1 hk2))
          hF2)
      (line1 - line0 + 1) b pos line0 line0 line1 hw hp rfl (le_refl _) h01 (by omega) (by omega) H
      HF

end tabwriter

namespace tabwriter

theorem docTerminate_single (l : DocLine) (cur : Bytes) (h : Bool) :
    docTerminate [l] cur h = [l ++ [(cur, h)]] := by
  simp [docTerminate]

theorem docTerminate_cons (l m : DocLine) (ls : List DocLine) (cur : Bytes) (h : Bool) :
    docTerminate (l :: m :: ls) cur h = l :: docTerminate (m :: ls) cur h := by
  simp [docTerminate, List.dropLast, List.getLastD]

theorem docTerminate_ne_nil (ls : List DocLine) (cur : Bytes) (h : Bool) :
    docTerminate ls cur h ≠ [] := by
  simp [docTerminate]

theorem lineSrc_snoc (l : DocLine) (cur : Bytes) (h : Bool) :
    lineSrc (l ++ [(cur, h)]) = lineFull l ++ cur := by
  induction l with
  | nil => simp [lineSrc, lineFull]
  | cons tc l ih =>
    cases l with
    | nil => simp [lineSrc, lineFull]
    | cons d l2 =>
      have e : (tc :: d :: l2) ++ [(cur, h)] = tc :: d :: (l2 ++ [(cur, h)]) := rfl
      rw [e, lineSrc]
      have e2 : d :: (l2 ++ [(cur, h)]) = (d :: l2) ++ [(cur, h)] := rfl
      rw [e2, ih]
      simp [lineFull]

theorem lineFull_snoc (l : DocLine) (cur : Bytes) (h : Bool) :
    lineFull (l ++ [(cur, h)]) = lineFull l ++ cur ++ [termOf h] := by
  simp [lineFull]

theorem pend_append_cur (ls : List DocLine) (cur seg : Bytes) :
    pend ls (cur ++ seg) = pend ls cur ++ seg := by
  induction ls with
  | nil => simp [pend]
  | cons l ls ih =>
    cases ls with
    | nil => simp [pend]
    | cons m ms => simp only [pend, ih, List.append_assoc]

theorem pend_terminate (ls : List DocLine) (hne : ls ≠ []) (cur : Bytes) (h : Bool) :
    pend (docTerminate ls cur h) [] = pend ls cur ++ [termOf h] := by
  induction ls with
  | nil => exact absurd rfl hne
  | cons l ls ih =>
    cases ls with
    | nil => simp [docTerminate_single, pend, lineFull_snoc]
    | cons m ms =>
      rw [docTerminate_cons]
      have ih2 := ih (by simp)
      cases hd : docTerminate (m :: ms) cur h with
      | nil => exact absurd hd (docTerminate_ne_nil _ _ _)
      | cons x xs =>
        rw [hd] at ih2
        simp only [pend, ih2, List.append_assoc]

theorem docSrc_terminate (ls : List DocLine) (hne : ls ≠ []) (cur : Bytes) (h : Bool) :
    docSrc (docTerminate ls cur h) = pend ls cur := by
  induction ls with
  | nil => exact absurd rfl hne
  | cons l ls ih =>
    cases ls with
    | nil => simp [docTerminate_single, pend, docSrc, lineSrc_snoc]
    | cons m ms =>
      rw [docTerminate_cons]
      have ih2 := ih (by simp)
      cases hd : docTerminate (m :: ms) cur h with
      | nil => exact absurd hd (docTerminate_ne_nil _ _ _)
      | cons x xs =>
        rw [hd] at ih2
        simp only [pend, docSrc, ih2]

theorem docSrc_addLine (ls : List DocLine) (hne : ls ≠ []) :
    docSrc (ls ++ [[]]) = docSrc ls ++ [LF] := by
  induction ls with
  | nil => exact absurd rfl hne
  | cons l ls ih =>
    cases ls with
    | nil => simp [docSrc, lineSrc]
    | cons m ms =>
      have ih2 := ih (by simp)
      have e : (l :: m :: ms) ++ [[]] = l :: m :: (ms ++ [[]]) := rfl
      have e2 : m :: (ms ++ [[]]) = (m :: ms) ++ [[]] := rfl
      rw [e, docSrc, e2, ih2]
      simp [docSrc]

theorem pend_addLine (ls : List DocLine) (hne : ls ≠ []) :
    pend (ls ++ [[]]) [] = docSrc ls ++ [LF] := by
  induction ls with
  | nil => exact absurd rfl hne
  | cons l ls ih =>
    cases ls with
    | nil => simp [docSrc, pend, lineFull]
    | cons m ms =>
      have ih2 := ih (by simp)
      have e : (l :: m :: ms) ++ [[]] = l :: m :: (ms ++ [[]]) := rfl
      have e2 : m :: (ms ++ [[]]) = (m :: ms) ++ [[]] := rfl
      rw [e, pend, e2, ih2]
      simp [docSrc]

theorem lineFull_lineSrc (l : DocLine) :
    ∃ t, lineFull l = lineSrc l ++ t ∧ Aligned t [] := by
  induction l with
  | nil => exact ⟨[], by simp [lineFull, lineSrc], Aligned.done⟩
  | cons tc l ih =>
    cases l with
    | nil =>
      refine ⟨[termOf tc.2], by simp [lineFull, lineSrc], ?_⟩
      have := Aligned.tab (termOf tc.2) 0 (by unfold termOf; split_ifs <;> simp)
      simpa using this
    | cons d l2 =>
      obtain ⟨t, ht, hA⟩ := ih
      refine ⟨t, ?_, hA⟩
      have e : lineFull (tc :: d :: l2) = tc.1 ++ [termOf tc.2] ++ lineFull (d :: l2) := by
        simp [lineFull]
      rw [e, ht, lineSrc]
      simp

theorem pend_docSrc (ls : List DocLine) :
    ∃ t, pend ls [] = docSrc ls ++ t ∧ Aligned t [] := by
  induction ls with
  | nil => exact ⟨[], by simp [pend, docSrc], Aligned.done⟩
  | cons l ls ih =>
    cases ls with
    | nil =>
      obtain ⟨t, ht, hA⟩ := lineFull_lineSrc l
      exact ⟨t, by simp [pend, docSrc, ht], hA⟩
    | cons m ms =>
      obtain ⟨t, ht, hA⟩ := ih
      exact ⟨t, by simp only [pend, docSrc, ht, List.append_assoc], hA⟩

end tabwriter

namespace tabwriter

theorem Rep.of_eq {σ τ : Type} {b : Writer σ} {b2 : Writer τ} {ls : List DocLine} {cur : Bytes}
    (h : Rep b ls cur) (hl : b2.lines = b.lines) (hb : b2.buf = b.buf)
    (hc : b2.cell.size = b.cell.size) : Rep b2 ls cur :=
  ⟨by rw [hl]; exact h.shape, by rw [hb]; exact h.text, by rw [hc]; exact h.size, h.nonempty⟩

theorem Rep.append_text {σ : Type} {b : Writer σ} {ls : List DocLine} {cur : Bytes}
    (h : Rep b ls cur) (seg : Bytes) : Rep (append b seg) ls (cur ++ seg) :=
  ⟨h.shape, by simp [tabwriter.append, h.text], by simp [tabwriter.append, h.size], h.nonempty⟩

theorem Rep.updateWidth {σ : Type} {b : Writer σ} {ls : List DocLine} {cur : Bytes}
    (h : Rep b ls cur) : Rep (updateWidth b) ls cur :=
  h.of_eq rfl rfl rfl

theorem Rep.startEscape {σ : Type} {b : Writer σ} {ls : List DocLine} {cur : Bytes}
    (h : Rep b ls cur) : Rep (startEscape b) ls cur :=
  h.of_eq rfl rfl rfl

theorem Rep.endEscape {σ : Type} {b : Writer σ} {ls : List DocLine} {cur : Bytes}
    (h : Rep b ls cur) : Rep (endEscape b) ls cur := by
  unfold tabwriter.endEscape
  split_ifs
  · exact h.of_eq rfl rfl rfl
  · exact h.of_eq rfl rfl rfl

theorem Rep.emit {b : Writer Bytes} {ls : List DocLine} {cur : Bytes}
    (h : Rep b ls cur) (x : Bytes) : Rep (emit b x) ls cur :=
  h.of_eq rfl rfl rfl

theorem Rep.addLine {σ : Type} {b : Writer σ} {ls : List DocLine} {cur : Bytes}
    (h : Rep b ls cur) : Rep (addLine b) (ls ++ [[]]) cur :=
  ⟨by simp [tabwriter.addLine, h.shape],
   by simp [tabwriter.addLine, h.text, docText, lineText],
   h.size, by simp⟩

theorem Rep.reset {σ : Type} (b : Writer σ) : Rep (reset b) [[]] [] :=
  ⟨by simp [tabwriter.reset, tabwriter.addLine],
   by simp [tabwriter.reset, tabwriter.addLine, docText, lineText],
   by simp [tabwriter.reset, tabwriter.addLine], by simp⟩

theorem docText_terminate (ls : List DocLine) (hne : ls ≠ []) (cur : Bytes) (h : Bool) :
    docText (docTerminate ls cur h) = docText ls ++ cur := by
  induction ls with
  | nil => exact absurd rfl hne
  | cons l ls ih =>
    cases ls with
    | nil => simp [docTerminate_single, docText, lineText]
    | cons m ms =>
      rw [docTerminate_cons]
      have ih2 := ih (by simp)
      simp only [docText, List.map_cons, List.flatten_cons] at ih2 ⊢
      rw [ih2]
      simp

theorem map_getLastD {α β : Type} (f : α → β) (l : List α) (a : α) :
    (l.map f).getLastD (f a) = f (l.getLastD a) := by
  induction l generalizing a with
  | nil => rfl
  | cons x xs ih =>
    cases xs with
    | nil => rfl
    | cons y ys =>
      simp only [List.map_cons, List.getLastD_cons] at ih ⊢
      exact ih x

theorem Rep.terminateCell {σ : Type} {b : Writer σ} {ls : List DocLine} {cur : Bytes}
    (h : Rep b ls cur) (htab : Bool) :
    Rep (terminateCell b htab).1 (docTerminate ls cur htab) []
      ∧ (terminateCell b htab).2 = (ls.getLastD []).length + 1 := by
  have hs := h.shape
  have hlast : (b.lines.getLastD []).map (fun c => (c.size, c.htab))
      = (ls.getLastD []).map (fun tc => (tc.1.length, tc.2)) := by
    have e1 := map_getLastD (List.map (fun c : cell => (c.size, c.htab))) b.lines []
    have e2 := map_getLastD (List.map (fun tc : Bytes × Bool => (tc.1.length, tc.2))) ls []
    simp only [List.map_nil] at e1 e2
    rw [← e1, ← e2, hs]
  refine ⟨⟨?_, ?_, rfl, docTerminate_ne_nil _ _ _⟩, ?_⟩
  · simp only [tabwriter.terminateCell, docTerminate, List.map_append, List.map_dropLast, hs,
      List.map_cons, List.map_nil, hlast, h.size]
  · simp only [tabwriter.terminateCell, List.append_nil]
    rw [docText_terminate ls h.nonempty, h.text]
  · simp only [tabwriter.terminateCell, List.length_append, List.length_singleton]
    have := congrArg List.length hlast
    simp only [List.length_map] at this
    omega

end tabwriter

namespace tabwriter

theorem cellsSrc_rep {σ : Type} (b : Writer σ) (cells : List cell) :
    ∀ (d : DocLine) (pos : Nat) (rest : Bytes),
      cells.map (fun c => (c.size, c.htab)) = d.map (fun tc => (tc.1.length, tc.2)) →
      b.buf.drop pos = lineText d ++ rest →
      cellsSrc b cells pos = lineSrc d ∧ cellsSize cells = (lineText d).length := by
  induction cells with
  | nil =>
    intro d pos rest hs _
    cases d with
    | nil => simp [cellsSrc, lineSrc, cellsSize, lineText]
    | cons _ _ => simp at hs
  | cons c cs ih =>
    intro d pos rest hs hb
    cases d with
    | nil => simp at hs
    | cons tc d2 =>
      simp only [List.map_cons, List.cons.injEq, Prod.mk.injEq] at hs
      obtain ⟨⟨hsz, hh⟩, hs2⟩ := hs
      have hlt : lineText (tc :: d2) = tc.1 ++ lineText d2 := by simp [lineText]
      rw [hlt, List.append_assoc] at hb
      have htake : (b.buf.drop pos).take c.size = tc.1 := by
        rw [hb, hsz, List.take_left']
        rfl
      have hdrop : b.buf.drop (pos + c.size) = lineText d2 ++ rest := by
        rw [← List.drop_drop, hb, hsz, List.drop_left']
        rfl
      obtain ⟨i1, i2⟩ := ih d2 (pos + c.size) rest hs2 hdrop
      refine ⟨?_, ?_⟩
      · cases cs with
        | nil =>
          cases d2 with
          | nil => simp [cellsSrc, lineSrc, htake]
          | cons _ _ => simp at hs2
        | cons e es =>
          cases d2 with
          | nil => simp at hs2
          | cons td d3 =>
            simp only [cellsSrc, lineSrc, htake, i1, hh, termOf]
      · rw [cellsSize_cons, i2, hlt, hsz]
        simp

theorem linesSrc_suffix (b : Writer Bytes) (hc : b.cell.size = 0) (bl : List (List cell)) :
    ∀ (dl : List DocLine) (i pos : Nat), b.lines.drop i = bl →
      bl.map (List.map (fun c => (c.size, c.htab)))
        = dl.map (List.map (fun tc => (tc.1.length, tc.2))) →
      b.buf.drop pos = docText dl →
      linesSrc b bl.length i pos = docSrc dl := by
  induction bl with
  | nil =>
    intro dl i pos _ hs _
    cases dl with
    | nil => rfl
    | cons _ _ => simp at hs
  | cons x xs ih =>
    intro dl i pos hdrop hs hb
    cases dl with
    | nil => simp at hs
    | cons d ds =>
      simp only [List.map_cons, List.cons.injEq] at hs
      obtain ⟨hs1, hs2⟩ := hs
      have hi : i < b.lines.length := by
        by_contra hcon
        rw [List.drop_eq_nil_of_le (by omega)] at hdrop
        exact absurd hdrop (by simp)
      have hget : b.lines.getD i [] = x := by
        have := List.drop_eq_getElem_cons hi
        rw [this] at hdrop
        simp only [List.cons.injEq] at hdrop
        simp [List.getD_eq_getElem?_getD, List.getElem?_eq_getElem hi, hdrop.1]
      have hdrop2 : b.lines.drop (i + 1) = xs := by
        have := List.drop_eq_getElem_cons hi
        rw [this] at hdrop
        simp only [List.cons.injEq] at hdrop
        exact hdrop.2
      have hlen : b.lines.length - i = xs.length + 1 := by
        have := congrArg List.length hdrop
        simpa using this
      have hdt : docText (d :: ds) = lineText d ++ docText ds := by simp [docText]
      rw [hdt] at hb
      obtain ⟨c1, c2⟩ := cellsSrc_rep b x d pos (docText ds) hs1 hb
      have hb2 : b.buf.drop (pos + cellsSize x) = docText ds := by
        rw [← List.drop_drop, hb, c2, List.drop_left']
        rfl
      simp only [List.length_cons, linesSrc, hget, hc, List.take_zero, List.append_nil,
        Nat.add_zero]
      cases xs with
      | nil =>
        cases ds with
        | nil =>
          have : i + 1 = b.lines.length := by simp at hlen; omega
          simp [this, c1, docSrc, linesSrc]
        | cons _ _ => simp at hs2
      | cons y ys =>
        cases ds with
        | nil => simp at hs2
        | cons e es =>
          have : ¬ i + 1 = b.lines.length := by simp at hlen; omega
          simp only [this, if_false]
          rw [c1]
          rw [ih (e :: es) (i + 1) (pos + cellsSize x) hdrop2 hs2 hb2]
          simp [docSrc]

theorem linesSrc_rep (b : Writer Bytes) (ls : List DocLine) (h : Rep b ls []) :
    linesSrc b (b.lines.length - 0) 0 0 = docSrc ls := by
  have hc : b.cell.size = 0 := by simpa using h.size
  have := linesSrc_suffix b hc b.lines ls 0 0 rfl h.shape (by simpa using h.text)
  simpa using this

end tabwriter

theorem Aligned.nil_out {out : Bytes} (h : Aligned [] out) : out = [] := by
  cases h; rfl

/-- A byte at the end of the source that is neither a tab nor a form feed is the last byte
delivered. -/
theorem Aligned.snoc_inv (c : Nat) (hc : c ≠ HT ∧ c ≠ VT ∧ c ≠ FF) (src : Bytes) :
    ∀ out, Aligned (src ++ [c]) out → ∃ o, out = o ++ [c] ∧ Aligned src o := by
  induction src with
  | nil =>
    intro out h
    cases h with
    | keep _ h2 => exact ⟨[], by rw [Aligned.nil_out h2]; rfl, Aligned.done⟩
    | pad _ k h1 h2 => rcases h1 with h1 | h1 <;> simp_all
    | feed h2 => simp_all
  | cons x xs ih =>
    intro out h
    rw [List.cons_append] at h
    cases h with
    | keep _ h2 =>
      obtain ⟨o, ho, hA⟩ := ih _ h2
      exact ⟨x :: o, by rw [ho]; rfl, Aligned.keep x hA⟩
    | pad _ k h1 h2 =>
      obtain ⟨o, ho, hA⟩ := ih _ h2
      exact ⟨List.replicate k SP ++ o, by rw [ho, List.append_assoc], Aligned.pad x k h1 hA⟩
    | feed h2 =>
      obtain ⟨o, ho, hA⟩ := ih _ h2
      exact ⟨LF :: o, by rw [ho]; rfl, Aligned.feed hA⟩

theorem Aligned.feed_end {src out : Bytes} (h : Aligned (src ++ [LF]) out) :
    Aligned (src ++ [FF]) out := by
  obtain ⟨o, ho, hA⟩ := Aligned.snoc_inv LF (by decide) src out h
  rw [ho]
  exact Aligned.append hA (Aligned.feed Aligned.done)

namespace tabwriter

theorem flushNoDefers_inv (b : Writer Bytes) (ls : List DocLine) (cur : Bytes)
    (h : Rep b ls cur) (hw : Recording b) (hp : b.padchar = SP) (hwid : b.widths = []) :
    ∃ (out : Bytes) (b2 : Writer Bytes), flushNoDefers b = .ok () (reset b2)
      ∧ b2.output = { b.output with st := b.output.st ++ out }
      ∧ b2.padchar = b.padchar
      ∧ Aligned (pend ls cur) out := by
  unfold flushNoDefers
  by_cases hsz : b.cell.size > 0
  · simp only [hsz, if_true]
    have hR : Rep (if b.endChar ≠ 0 then endEscape b else b) ls cur := by
      split_ifs
      · exact h.endEscape
      · exact h
    have hf : (if b.endChar ≠ 0 then endEscape b else b).output = b.output
        ∧ (if b.endChar ≠ 0 then endEscape b else b).padchar = b.padchar
        ∧ (if b.endChar ≠ 0 then endEscape b else b).widths = b.widths := by
      unfold endEscape
      split_ifs <;> exact ⟨rfl, rfl, rfl⟩
    generalize (if b.endChar ≠ 0 then endEscape b else b) = b0 at hR hf
    obtain ⟨hf1, hf2, hf3⟩ := hf
    have hR1 := (hR.terminateCell false).1
    have ho1 : (terminateCell b0 false).1.output = b.output := hf1
    have hp1 : (terminateCell b0 false).1.padchar = SP := by
      show b0.padchar = SP
      rw [hf2, hp]
    have hw1 : (terminateCell b0 false).1.widths = [] := by
      show b0.widths = []
      rw [hf3, hwid]
    have hrec : Recording (terminateCell b0 false).1 := by
      show (terminateCell b0 false).1.output.write = _
      rw [ho1]; exact hw
    generalize (terminateCell b0 false).1 = b1 at hR1 ho1 hp1 hw1 hrec
    obtain ⟨out, hr, hA⟩ := format_aligned (maxCells b1.lines) b1 0 0 b1.lines.length hrec hp1
      (Nat.zero_le _) (fun k _ _ => Or.inl (by rw [hw1]; rfl))
      (fun k _ _ => by rw [hw1]; exact cellsFit_nil _ _)
    rw [hr]
    refine ⟨out, emit b1 out, rfl, ?_, ?_, ?_⟩
    · simp [emit, ho1]
    · show b1.padchar = b.padchar
      rw [hp1, hp]
    · rw [linesSrc_rep b1 _ hR1, docSrc_terminate ls h.nonempty] at hA
      exact hA
  · simp only [hsz, if_false]
    have hcur : cur = [] := by
      have := h.size
      have h0 : b.cell.size = 0 := by omega
      rw [h0] at this
      exact List.length_eq_zero.mp this.symm
    subst hcur
    obtain ⟨out, hr, hA⟩ := format_aligned (maxCells b.lines) b 0 0 b.lines.length hw hp
      (Nat.zero_le _) (fun k _ _ => Or.inl (by rw [hwid]; rfl))
      (fun k _ _ => by rw [hwid]; exact cellsFit_nil _ _)
    rw [hr]
    refine ⟨out, emit b out, rfl, rfl, rfl, ?_⟩
    rw [linesSrc_rep b _ h] at hA
    obtain ⟨t, ht, hAt⟩ := pend_docSrc ls
    rw [ht]
    have := Aligned.append hA hAt
    simpa using this

end tabwriter

namespace tabwriter

theorem termOf_eq (ch : Nat) (h : ch = HT ∨ ch = VT) : termOf (ch == HT) = ch := by
  rcases h with h | h <;> subst h <;> rfl

theorem writeLoop_inv (s0 : Bytes) (rest : Bytes) :
    ∀ (b : Writer Bytes) (seg : Bytes) (i : Nat) (inp : Bytes), Inv s0 inp b seg →
      Inv s0 (inp ++ rest) (writeLoop rest b seg i).1 [] ∧ (writeLoop rest b seg i).2.2 = none := by
  induction rest with
  | nil =>
    intro b seg i inp hI
    obtain ⟨flushed, ls, cur, o, hinp, hR, ho, hA, hw, hp, hwid⟩ := hI
    refine ⟨⟨flushed, ls, cur ++ seg, o, ?_, hR.append_text seg, ho, hA, hw, hp, hwid⟩, rfl⟩
    rw [hinp, pend_append_cur]
    simp
  | cons ch rest ih =>
    intro b seg i inp hI
    have hsplit : inp ++ ch :: rest = (inp ++ [ch]) ++ rest := by simp
    rw [hsplit]
    obtain ⟨flushed, ls, cur, o, hinp, hR, ho, hA, hw, hp, hwid⟩ := hI
    -- the byte joins the text not yet appended
    have htext : Inv s0 (inp ++ [ch]) b (seg ++ [ch]) :=
      ⟨flushed, ls, cur, o, by rw [hinp]; simp, hR, ho, hA, hw, hp, hwid⟩
    unfold writeLoop
    by_cases hend : b.endChar = 0
    · simp only [hend, if_true]
      by_cases hsp : ch = HT ∨ ch = VT ∨ ch = LF ∨ ch = FF
      · simp only [hsp, if_true]
        have hRa : Rep (updateWidth (append b seg)) ls (cur ++ seg) := (hR.append_text seg).updateWidth
        obtain ⟨hRt, hn⟩ := hRa.terminateCell (ch == HT)
        have hto : (terminateCell (updateWidth (append b seg)) (ch == HT)).1.output = b.output := rfl
        have htp : (terminateCell (updateWidth (append b seg)) (ch == HT)).1.padchar = b.padchar := rfl
        have htw : (terminateCell (updateWidth (append b seg)) (ch == HT)).1.widths = b.widths := rfl
        generalize terminateCell (updateWidth (append b seg)) (ch == HT) = t at hRt hn hto htp htw
        by_cases hnl : ch = LF ∨ ch = FF
        · simp only [hnl, if_true]
          have hfalse : (ch == HT) = false := by
            rcases hnl with h | h <;> subst h <;> rfl
          rw [hfalse] at hRt
          have hRl : Rep (addLine t.1) (docTerminate ls (cur ++ seg) false ++ [[]]) [] := hRt.addLine
          have hpendl : pend (docTerminate ls (cur ++ seg) false ++ [[]]) []
              = pend ls cur ++ seg ++ [LF] := by
            rw [pend_addLine _ (docTerminate_ne_nil _ _ _), docSrc_terminate ls hR.nonempty,
              pend_append_cur]
          by_cases hfl : ch = FF ∨ t.2 = 1
          · simp only [hfl, if_true]
            obtain ⟨out, b2, hr, hbo, hbp, hAo⟩ := flushNoDefers_inv (addLine t.1) _ [] hRl
              (by show t.1.output.write = _; rw [hto]; exact hw)
              (by show t.1.padchar = SP; rw [htp, hp])
              (by show t.1.widths = []; rw [htw, hwid])
            rw [hr]
            simp only
            apply ih
            rw [hpendl] at hAo
            have hAo2 : Aligned (pend ls cur ++ seg ++ [ch]) out := by
              rcases hnl with h | h
              · rw [h]; exact hAo
              · rw [h]; exact Aligned.feed_end hAo
            refine ⟨inp ++ [ch], [[]], [], o ++ out, by simp [pend, lineFull], Rep.reset b2, ?_,
              ?_, ?_, ?_, rfl⟩
            · show b2.output.st = _
              rw [hbo]
              show t.1.output.st ++ out = _
              rw [hto, ho, List.append_assoc]
            · rw [hinp, List.append_assoc, List.append_assoc]
              rw [List.append_assoc] at hAo2
              exact Aligned.append hA hAo2
            · show b2.output.write = _
              rw [hbo]
              show t.1.output.write = _
              rw [hto]; exact hw
            · show b2.padchar = SP
              rw [hbp]
              show t.1.padchar = SP
              rw [htp, hp]
          · simp only [hfl, if_false]
            apply ih
            have hch : ch = LF := by
              rcases hnl with h | h
              · exact h
              · exact absurd (Or.inl h) hfl
            refine ⟨flushed, _, [], o, ?_, hRl, ?_, hA, ?_, ?_, ?_⟩
            · rw [hpendl, hinp, hch]; simp
            · show t.1.output.st = _
              rw [hto, ho]
            · show t.1.output.write = _
              rw [hto]; exact hw
            · show t.1.padchar = SP
              rw [htp, hp]
            · show t.1.widths = []
              rw [htw, hwid]
        · simp only [hnl, if_false]
          apply ih
          have hch : ch = HT ∨ ch = VT := by
            rcases hsp with h | h | h | h
            · exact Or.inl h
            · exact Or.inr h
            · exact absurd (Or.inl h) hnl
            · exact absurd (Or.inr h) hnl
          refine ⟨flushed, _, [], o, ?_, hRt, ?_, hA, ?_, ?_, ?_⟩
          · rw [pend_terminate ls hR.nonempty, pend_append_cur, termOf_eq ch hch, hinp]; simp
          · rw [hto, ho]
          · show t.1.output.write = _
            rw [hto]; exact hw
          · rw [htp, hp]
          · rw [htw, hwid]
      · simp only [hsp, if_false]
        by_cases hesc : ch = Escape
        · simp only [hesc, if_true]
          apply ih
          refine ⟨flushed, ls, cur ++ seg, o, ?_, (hR.append_text seg).updateWidth.startEscape, ho, hA,
            hw, hp, hwid⟩
          rw [hinp, pend_append_cur]; simp
        · simp only [hesc, if_false]
          exact ih b (seg ++ [ch]) (i + 1) (inp ++ [ch]) htext
    · simp only [hend, if_false]
      by_cases hce : ch = b.endChar
      · simp only [hce, if_true]
        apply ih
        have hfr : (endEscape (append b (seg ++ [b.endChar]))).output = b.output
            ∧ (endEscape (append b (seg ++ [b.endChar]))).padchar = b.padchar
            ∧ (endEscape (append b (seg ++ [b.endChar]))).widths = b.widths := by
          unfold endEscape
          split_ifs <;> exact ⟨rfl, rfl, rfl⟩
        refine ⟨flushed, ls, cur ++ (seg ++ [b.endChar]), o, ?_,
          (hR.append_text (seg ++ [b.endChar])).endEscape, ?_, hA, ?_, ?_, ?_⟩
        · rw [hinp, pend_append_cur]; simp
        · rw [hfr.1, ho]
        · show (endEscape (append b (seg ++ [b.endChar]))).output.write = _
          rw [hfr.1]; exact hw
        · rw [hfr.2.1, hp]
        · rw [hfr.2.2, hwid]
      · simp only [hce, if_false]
        exact ih b (seg ++ [ch]) (i + 1) (inp ++ [ch]) htext

end tabwriter

namespace tabwriter

theorem Write_inv (s0 inp : Bytes) (b : Writer Bytes) (buf : Bytes) (h : Inv s0 inp b []) :
    Inv s0 (inp ++ buf) (Write b buf).1 [] :=
  (writeLoop_inv s0 buf b [] 0 inp h).1

theorem reset_reset {σ : Type} (b : Writer σ) : reset (reset b) = reset b := rfl

theorem Flush_inv (s0 inp : Bytes) (b : Writer Bytes) (h : Inv s0 inp b []) :
    (Flush b).2 = none
      ∧ (∃ o, (Flush b).1.output.st = s0 ++ o ∧ Aligned inp o)
      ∧ (∃ b2 : Writer Bytes, (Flush b).1 = reset b2)
      ∧ Inv s0 inp (Flush b).1 [] := by
  obtain ⟨flushed, ls, cur, o, hinp, hR, ho, hA, hw, hp, hwid⟩ := h
  obtain ⟨out, b2, hr, hbo, hbp, hAo⟩ := flushNoDefers_inv b ls cur hR hw hp hwid
  have hA2 : Aligned inp (o ++ out) := by
    rw [hinp, List.append_nil]
    exact Aligned.append hA hAo
  have hst : (reset b2).output.st = s0 ++ (o ++ out) := by
    show b2.output.st = _
    rw [hbo]
    show b.output.st ++ out = _
    rw [ho, List.append_assoc]
  unfold Flush
  rw [hr]
  refine ⟨rfl, ⟨o ++ out, hst, hA2⟩, ⟨b2, rfl⟩, ?_⟩
  refine ⟨inp, [[]], [], o ++ out, by simp [pend, lineFull], Rep.reset b2, hst, hA2, ?_, ?_, rfl⟩
  · show b2.output.write = _
    rw [hbo]; exact hw
  · show b2.padchar = SP
    rw [hbp, hp]

/-- `Flush` on a writer that was just reset writes no byte and changes nothing. -/
theorem Flush_reset (b : Writer Bytes) (hw : Recording b) :
    Flush (reset b) = (reset b, none) := by
  have hw2 : Recording (reset b) := hw
  unfold Flush flushNoDefers
  have hc : ¬ (reset b).cell.size > 0 := by simp [reset, addLine]
  simp only [hc, if_false]
  have hm : maxCells (reset b).lines = 0 := by simp [reset, addLine, maxCells]
  rw [hm]
  unfold format
  rw [writeLines_rec (reset b) hw2 0 0 _ (Nat.zero_le _) (fun k _ _ => cellsFit_nil _ _)]
  have hl : (reset b).lines.length - 0 = 1 := by simp [reset, addLine]
  rw [hl]
  have ho : linesOut (reset b) 1 0 0 = [] := by
    simp [linesOut, reset, addLine, cellsOut]
  rw [ho, emit_nil]
  rfl

end tabwriter

open tabwriter

theorem InvPW_new (s0 : Bytes) : InvPW s0 [] (NewPrefixWriter (memSink s0)) := by
  refine ⟨rfl, rfl, [], [[]], [], [], by simp [pend, lineFull], Rep.reset _, ?_, Aligned.done,
    rfl, rfl, rfl⟩
  simp [NewPrefixWriter, asWriter, NewWriter, tabwriter.reset, tabwriter.addLine, memSink]

theorem InvPW_Write (s0 inp : Bytes) (pw : prefixWriter (Writer Bytes)) (h : InvPW s0 inp pw)
    (q : prefixWriter (Writer Bytes)) (x : Bytes) (hq : q.out = (pw.out.Write x).1) :
    InvPW s0 (inp ++ x) q := by
  obtain ⟨h1, h2, h3⟩ := h
  refine ⟨by rw [hq]; exact h1, by rw [hq]; exact h2, ?_⟩
  rw [hq]
  show tabwriter.Inv s0 (inp ++ x) (pw.out.write pw.out.st x).1 []
  rw [h1]
  exact tabwriter.Write_inv s0 inp _ x h3

theorem written_single (lib : FmtLib) (c : Call) :
    ((prefixWriter.mk (memSink [])).call lib c).out.st = written lib [c] := rfl

theorem written_cons (lib : FmtLib) (c : Call) (cs : List Call) :
    written lib (c :: cs) = written lib [c] ++ written lib cs := by
  show ((prefixWriter.mk (memSink [])).calls lib (c :: cs)).out.st = _
  have e : (prefixWriter.mk (memSink [])).calls lib (c :: cs)
      = ((prefixWriter.mk (memSink [])).call lib c).calls lib cs := rfl
  rw [e, call_memSink, calls_memSink]
  simp [memSink]

theorem written_Write (lib : FmtLib) (level : Int) (format : Bytes) (a : List GoValue) :
    written lib [Call.Write level format a]
      = List.replicate (2 * level.toNat) SP ++ Sprintf lib format a := by
  rw [← written_single]
  show ((prefixWriter.mk (memSink [])).Write lib level format a).out.st = _
  rw [Write_eq, memSink_Write]
  rfl

theorem written_WriteLine (lib : FmtLib) (a : List GoValue) :
    written lib [Call.WriteLine a] = doPrintln lib a := by
  rw [← written_single]
  show ((prefixWriter.mk (memSink [])).WriteLine lib a).out.st = _
  rw [WriteLine_eq, memSink_Write]
  rfl

theorem written_WriteCols (lib : FmtLib) (level : Int) (cols : List Bytes) :
    written lib [Call.WriteCols level cols]
      = List.replicate (2 * level.toNat) SP ++ stringsJoin cols [HT] := by
  rw [← written_single]
  show ((prefixWriter.mk (memSink [])).WriteCols lib level cols).out.st = _
  rw [WriteCols_eq, memSink_Write]
  rfl

theorem written_WriteColsLn (lib : FmtLib) (level : Int) (cols : List Bytes) :
    written lib [Call.WriteColsLn level cols]
      = List.replicate (2 * level.toNat) SP ++ stringsJoin cols [HT] ++ [LF] := by
  rw [← written_single]
  show ((prefixWriter.mk (memSink [])).WriteColsLn lib level cols).out.st = _
  rw [WriteColsLn_eq, WriteCols_eq, memSink_Write, memSink_Write]
  rfl

theorem written_Flush (lib : FmtLib) : written lib [Call.Flush] = [] := rfl

theorem InvPW_call (lib : FmtLib) (s0 inp : Bytes) (pw : prefixWriter (Writer Bytes))
    (h : InvPW s0 inp pw) (c : Call) : InvPW s0 (inp ++ written lib [c]) (pw.call lib c) := by
  cases c with
  | Write level format a =>
    rw [written_Write]
    exact InvPW_Write s0 inp pw h _ _ (Write_eq lib pw level format a)
  | WriteLine a =>
    rw [written_WriteLine]
    exact InvPW_Write s0 inp pw h _ _ (WriteLine_eq lib pw a)
  | WriteCols level cols =>
    rw [written_WriteCols]
    exact InvPW_Write s0 inp pw h _ _ (WriteCols_eq lib pw level cols)
  | WriteColsLn level cols =>
    rw [written_WriteColsLn, ← List.append_assoc]
    have h1 := InvPW_Write s0 inp pw h _ _ (WriteCols_eq lib pw level cols)
    exact InvPW_Write s0 _ _ h1 _ _ (WriteColsLn_eq lib pw level cols)
  | Flush =>
    rw [written_Flush, List.append_nil]
    obtain ⟨h1, h2, h3⟩ := h
    have hf := tabwriter.Flush_inv s0 inp pw.out.st h3
    show InvPW s0 inp pw.Flush.1
    unfold prefixWriter.Flush
    rw [h2]
    exact ⟨h1, h2, hf.2.2.2⟩

theorem InvPW_calls (lib : FmtLib) (s0 : Bytes) (cs : List Call) :
    ∀ (inp : Bytes) (pw : prefixWriter (Writer Bytes)), InvPW s0 inp pw →
      InvPW s0 (inp ++ written lib cs) (pw.calls lib cs) := by
  induction cs with
  | nil =>
    intro inp pw h
    have : written lib [] = [] := rfl
    rw [this, List.append_nil]
    exact h
  | cons c cs ih =>
    intro inp pw h
    rw [written_cons, ← List.append_assoc]
    exact ih _ _ (InvPW_call lib s0 inp pw h c)

theorem Flush_of_flusher {σ : Type} (pw : prefixWriter σ) (f : σ → σ × Option GoError)
    (h : pw.out.flush = some f) :
    pw.Flush = ({ pw with out := { pw.out with st := (f pw.out.st).1 } },
                (f pw.out.st).2.map FlushError.fromOut) := by
  unfold prefixWriter.Flush
  rw [h]

/-- C5, counterexample. `Write(0, "a\fb")` then `Flush`: the text written holds no tab, yet
the sink receives `a`, a line feed and `b`: the form feed was replaced, and not by
padding. -/
theorem form_feed_becomes_line_feed :
    written sampleLib [Call.Write 0 [97, FF, 98] []] = [97, FF, 98]
      ∧ HT ∉ written sampleLib [Call.Write 0 [97, FF, 98] []]
      ∧ ((NewPrefixWriter (memSink [])).calls sampleLib
          [Call.Write 0 [97, FF, 98] []]).Flush.1.out.st.output.st = [97, LF, 98]
      ∧ ([97, LF, 98] : Bytes) ≠ [97, FF, 98] := by
  decide

/-- After any sequence of calls, `Flush` succeeds and the sink holds a text aligned with
what was written. -/
theorem Flush_calls_sink (lib : FmtLib) (cs : List Call) (s0 : Bytes) :
    ((NewPrefixWriter (memSink s0)).calls lib cs).Flush.2 = none
      ∧ (∃ o, ((NewPrefixWriter (memSink s0)).calls lib cs).Flush.1.out.st.output.st = s0 ++ o
            ∧ Aligned (written lib cs) o) := by
  have h := InvPW_calls lib s0 cs [] _ (InvPW_new s0)
  rw [List.nil_append] at h
  obtain ⟨_, h2, h3⟩ := h
  obtain ⟨f1, f2, _, _⟩ := tabwriter.Flush_inv s0 _ _ h3
  rw [Flush_of_flusher _ _ h2]
  exact ⟨by rw [f1]; rfl, f2⟩

/-- C5, amended. For every sequence of `Write`, `WriteLine`, `WriteCols`, `WriteColsLn` and
`Flush` calls on a writer made by `NewPrefixWriter` over a recording sink, a final `Flush`
succeeds; the sink then holds, after what it held before, a text aligned with all that was
written: the same bytes in the same order, except that a horizontal or vertical tab may
stand replaced by padding spaces and a form feed by a line feed; nothing remains buffered
(empty buffer, one empty line, empty cell); and a second `Flush` right after succeeds and
changes nothing, so delivers no byte. -/
theorem Flush_delivers_all_in_order (lib : FmtLib) (cs : List Call) (s0 : Bytes) :
    ((NewPrefixWriter (memSink s0)).calls lib cs).Flush.2 = none
      ∧ (∃ o, ((NewPrefixWriter (memSink s0)).calls lib cs).Flush.1.out.st.output.st = s0 ++ o
            ∧ Aligned (written lib cs) o)
      ∧ ((NewPrefixWriter (memSink s0)).calls lib cs).Flush.1.out.st.buf = []
      ∧ ((NewPrefixWriter (memSink s0)).calls lib cs).Flush.1.out.st.lines = [[]]
      ∧ ((NewPrefixWriter (memSink s0)).calls lib cs).Flush.1.out.st.cell = {}
      ∧ ((NewPrefixWriter (memSink s0)).calls lib cs).Flush.1.Flush
          = (((NewPrefixWriter (memSink s0)).calls lib cs).Flush.1, none) := by
  have h := InvPW_calls lib s0 cs [] _ (InvPW_new s0)
  rw [List.nil_append] at h
  obtain ⟨h1, h2, h3⟩ := h
  obtain ⟨f1, f2, ⟨b2, f3⟩, f4⟩ := tabwriter.Flush_inv s0 _ _ h3
  have hrec : Recording b2 := by
    obtain ⟨_, _, _, _, _, _, _, _, hw, _, _⟩ := f4
    rw [f3] at hw
    exact hw
  generalize hpw : (NewPrefixWriter (memSink s0)).calls lib cs = pw at h1 h2 h3 f1 f2 f3 f4
  have e0 := Flush_of_flusher pw _ h2
  have e1 : pw.Flush.1.out.st = (tabwriter.Flush pw.out.st).1 := by rw [e0]
  have e2 : pw.Flush.2 = (tabwriter.Flush pw.out.st).2.map FlushError.fromOut := by rw [e0]
  have e3 : pw.Flush.1.out.flush = some tabwriter.Flush := by rw [e0]; exact h2
  refine ⟨by rw [e2, f1]; rfl, by rw [e1]; exact f2, by rw [e1, f3]; rfl, by rw [e1, f3]; rfl,
    by rw [e1, f3]; rfl, ?_⟩
  rw [Flush_of_flusher pw.Flush.1 _ e3, e1, f3, tabwriter.Flush_reset b2 hrec]
  simp only [Option.map_none', Prod.mk.injEq, and_true]
  apply prefixWriter_ext
  show { pw.Flush.1.out with st := tabwriter.reset b2 } = pw.Flush.1.out
  rw [← f3, ← e1]

namespace tabwriter

theorem NewWriter_rowsState (out : GoWriter Bytes) :
    NewWriter out 0 8 2 SP = rowsState out [] [] := by
  simp [NewWriter, reset, addLine, rowsState]

theorem writeLoop_plain (t : Bytes) :
    ∀ (rest : Bytes) (b : Writer Bytes) (seg : Bytes) (i : Nat), b.endChar = 0 → plain t →
      writeLoop (t ++ rest) b seg i = writeLoop rest b (seg ++ t) (i + t.length) := by
  induction t with
  | nil => intro rest b seg i _ _; simp
  | cons c cs ih =>
    intro rest b seg i he hp
    have hc := hp c (by simp)
    have hp2 : plain cs := fun x hx => hp x (by simp [hx])
    rw [List.cons_append, writeLoop]
    have h1 : ¬ (c = HT ∨ c = VT ∨ c = LF ∨ c = FF) := by
      rintro (h | h | h | h)
      · exact hc.1 h
      · exact hc.2.1 h
      · exact hc.2.2.1 h
      · exact hc.2.2.2.1 h
    simp only [he, if_true, h1, if_false, hc.2.2.2.2]
    rw [ih rest b (seg ++ [c]) (i + 1) he hp2]
    congr 1
    · simp
    · simp only [List.length_cons]; omega

theorem cellsOf_snoc (done : List Bytes) (t : Bytes) :
    cellsOf (done ++ [t]) = done.map (cellOf true) ++ [cellOf false t] := by
  induction done with
  | nil => rfl
  | cons d ds ih =>
    cases ds with
    | nil => rfl
    | cons e es =>
      have e1 : (d :: e :: es) ++ [t] = d :: e :: (es ++ [t]) := rfl
      rw [e1, cellsOf]
      have e2 : e :: (es ++ [t]) = (e :: es) ++ [t] := rfl
      rw [e2, ih]
      rfl

theorem runeCount_drop_own (buf seg : Bytes) :
    runeCount ((buf ++ seg).drop buf.length) = runeCount seg := by
  rw [List.drop_left]

theorem getLastD_snoc {α : Type} (l : List α) (a d : α) : (l ++ [a]).getLastD d = a := by
  cases l with
  | nil => rfl
  | cons x xs => simp [List.getLastD]

/-- A horizontal tab after the plain text `seg` ends the cell made of `seg`. -/
theorem terminate_rowsState (out : GoWriter Bytes) (rows : List (List Bytes))
    (done : List Bytes) (seg : Bytes) :
    (terminateCell (updateWidth (append (rowsState out rows done) seg)) true).1
      = rowsState out rows (done ++ [seg]) := by
  simp only [terminateCell, updateWidth, tabwriter.append, rowsState, runeCount_drop_own,
    getLastD_snoc, List.dropLast_concat]
  simp [cellOf, List.append_assoc]

theorem writeLoop_tab (out : GoWriter Bytes) (rows : List (List Bytes)) (done : List Bytes)
    (rest seg : Bytes) (i : Nat) :
    writeLoop (HT :: rest) (rowsState out rows done) seg i
      = writeLoop rest (rowsState out rows (done ++ [seg])) [] (i + 1) := by
  rw [writeLoop]
  have h0 : (rowsState out rows done).endChar = 0 := rfl
  have h1 : (HT = HT ∨ HT = VT ∨ HT = LF ∨ HT = FF) := Or.inl rfl
  have h2 : ¬ (HT = LF ∨ HT = FF) := by decide
  have h3 : (HT == HT) = true := rfl
  rw [if_pos h0, if_pos h1, if_neg h2, h3, terminate_rowsState]

theorem writeLoop_row (out : GoWriter Bytes) (rows : List (List Bytes)) (ts : List Bytes) :
    ∀ (done : List Bytes) (t : Bytes) (seg : Bytes) (i : Nat), plain t → (∀ u ∈ ts, plain u) →
      (writeLoop (stringsJoin (t :: ts) [HT]) (rowsState out rows done) seg i).1
        = append (rowsState out rows (done ++ ((seg ++ t) :: ts).dropLast))
            (((seg ++ t) :: ts).getLast (by simp)) := by
  induction ts with
  | nil =>
    intro done t seg i ht _
    have e : stringsJoin [t] [HT] = t ++ [] := by simp [stringsJoin, List.intercalate]
    rw [e, writeLoop_plain t [] _ seg i rfl ht]
    simp [writeLoop]
  | cons u us ih =>
    intro done t seg i ht hts
    have e : stringsJoin (t :: u :: us) [HT] = t ++ (HT :: stringsJoin (u :: us) [HT]) := by
      simp [stringsJoin, intercalate_cons_cons]
    rw [e, writeLoop_plain t _ _ seg i rfl ht, writeLoop_tab]
    rw [ih (done ++ [seg ++ t]) u [] (i + t.length + 1) (hts u (by simp))
      (fun x hx => hts x (by simp [hx]))]
    simp [List.dropLast, List.getLast]

end tabwriter

namespace tabwriter

theorem append_nil_text {σ : Type} (b : Writer σ) : append b [] = b := by
  simp [tabwriter.append]

theorem newline_rowsState (out : GoWriter Bytes) (rows : List (List Bytes)) (done : List Bytes)
    (hd : done ≠ []) (seg : Bytes) :
    (Write (append (rowsState out rows done) seg) [LF]).1
      = rowsState out (rows ++ [done ++ [seg]]) [] := by
  unfold Write
  rw [writeLoop]
  have h0 : (append (rowsState out rows done) seg).endChar = 0 := rfl
  have h1 : (LF = HT ∨ LF = VT ∨ LF = LF ∨ LF = FF) := Or.inr (Or.inr (Or.inl rfl))
  have h2 : (LF = LF ∨ LF = FF) := Or.inl rfl
  have h3 : (LF == HT) = false := rfl
  rw [if_pos h0, if_pos h1, if_pos h2, h3, append_nil_text]
  have hn : (terminateCell (updateWidth (append (rowsState out rows done) seg)) false).2
      = done.length + 1 := by
    simp [terminateCell, updateWidth, tabwriter.append, rowsState, getLastD_snoc]
  have hne : ¬ (LF = FF ∨
      (terminateCell (updateWidth (append (rowsState out rows done) seg)) false).2 = 1) := by
    rw [hn]
    have := List.length_pos.mpr hd
    rintro (h | h)
    · exact absurd h (by decide)
    · omega
  rw [if_neg hne]
  simp only [writeLoop, append_nil_text]
  simp only [terminateCell, updateWidth, tabwriter.append, rowsState, runeCount_drop_own,
    getLastD_snoc, List.dropLast_concat, addLine]
  simp [cellOf, List.append_assoc, cellsOf_snoc]

theorem Write_row (out : GoWriter Bytes) (rows : List (List Bytes)) (t : Bytes)
    (ts : List Bytes) (ht : plain t) (hts : ∀ u ∈ ts, plain u) :
    (Write (rowsState out rows []) (stringsJoin (t :: ts) [HT])).1
      = append (rowsState out rows ((t :: ts).dropLast)) ((t :: ts).getLast (by simp)) := by
  unfold Write
  have := writeLoop_row out rows ts [] t [] 0 ht hts
  simpa using this

theorem Write_row_newline (out : GoWriter Bytes) (rows : List (List Bytes)) (t u : Bytes)
    (ts : List Bytes) (ht : plain t) (hts : ∀ v ∈ u :: ts, plain v) :
    (Write (Write (rowsState out rows []) (stringsJoin (t :: u :: ts) [HT])).1 [LF]).1
      = rowsState out (rows ++ [t :: u :: ts]) [] := by
  rw [Write_row out rows t (u :: ts) ht hts, newline_rowsState _ _ _ (by simp)]
  rw [List.dropLast_append_getLast]

end tabwriter

theorem plain_replicate_sp (k : Nat) : plain (List.replicate k SP) := by
  intro c hc
  rw [List.eq_of_mem_replicate hc]
  decide

theorem plain_append {a b : Bytes} (ha : plain a) (hb : plain b) : plain (a ++ b) := by
  intro c hc
  rcases List.mem_append.mp hc with h | h
  · exact ha c h
  · exact hb c h

theorem join_rowCells (n : Nat) (c : Bytes) (cs : List Bytes) :
    List.replicate (2 * n) SP ++ stringsJoin (c :: cs) [HT]
      = stringsJoin (rowCells n (c :: cs)) [HT] := by
  cases cs with
  | nil => simp [stringsJoin, rowCells, List.intercalate]
  | cons d ds => simp [stringsJoin, rowCells, intercalate_cons_cons]

/-- One `WriteColsLn` of a row of at least two plain cells adds the row to the lines held
by the tabwriter, and nothing reaches the sink. -/
theorem WriteColsLn_rowsState (lib : FmtLib) (out : GoWriter Bytes) (rows : List (List Bytes))
    (n : Nat) (c d : Bytes) (cs : List Bytes) (hp : ∀ v ∈ c :: d :: cs, plain v) :
    (prefixWriter.mk (asWriter (rowsState out rows []))).WriteColsLn lib (n : Int) (c :: d :: cs)
      = prefixWriter.mk (asWriter (rowsState out (rows ++ [rowCells n (c :: d :: cs)]) [])) := by
  apply prefixWriter_ext
  rw [WriteColsLn_eq, WriteCols_eq, Int.toNat_ofNat, join_rowCells]
  show asWriter (Write (Write (rowsState out rows []) _).1 [LF]).1 = _
  have h1 : plain (List.replicate (2 * n) SP ++ c) :=
    plain_append (plain_replicate_sp _) (hp c (by simp))
  rw [show rowCells n (c :: d :: cs) = (List.replicate (2 * n) SP ++ c) :: d :: cs from rfl]
  rw [tabwriter.Write_row_newline out rows _ d cs h1 (fun v hv => hp v (by simp [hv]))]

theorem calls_rowsState (lib : FmtLib) (out : GoWriter Bytes) (n : Nat) (k : Nat)
    (more : List (List Bytes)) :
    ∀ (rows : List (List Bytes)), (∀ r ∈ more, r.length = k + 2 ∧ ∀ v ∈ r, plain v) →
      (prefixWriter.mk (asWriter (rowsState out rows []))).calls lib
          (more.map (Call.WriteColsLn (n : Int)))
        = prefixWriter.mk (asWriter (rowsState out (rows ++ more.map (rowCells n)) [])) := by
  induction more with
  | nil => intro rows _; simp [prefixWriter.calls]
  | cons r rs ih =>
    intro rows h
    obtain ⟨hl, hp⟩ := h r (by simp)
    match r, hl, hp with
    | c :: d :: cs, _, hp =>
      simp only [List.map_cons, prefixWriter.calls, List.foldl_cons, prefixWriter.call]
      rw [WriteColsLn_rowsState lib out rows n c d cs hp]
      have := ih (rows ++ [rowCells n (c :: d :: cs)]) (fun r hr => h r (by simp [hr]))
      simp only [prefixWriter.calls] at this
      rw [this]
      simp

namespace tabwriter

theorem cellsOf_length (r : List Bytes) : (cellsOf r).length = r.length := by
  induction r with
  | nil => rfl
  | cons t ts ih =>
    cases ts with
    | nil => rfl
    | cons u us => simp only [cellsOf, List.length_cons] at ih ⊢; omega

theorem cellsOf_getD_width (r : List Bytes) :
    ∀ j, j < r.length → ((cellsOf r).getD j {}).width = (runeCount (r.getD j []) : Int) := by
  induction r with
  | nil => intro j hj; simp at hj
  | cons t ts ih =>
    intro j hj
    cases ts with
    | nil =>
      have : j = 0 := by simp at hj; omega
      subst this
      rfl
    | cons u us =>
      cases j with
      | zero => rfl
      | succ i =>
        have := ih i (by simp only [List.length_cons] at hj ⊢; omega)
        simpa [cellsOf] using this

theorem IsTable.line {b : Writer Bytes} {rows : List (List Bytes)} {K : Nat}
    (h : IsTable b rows K) (i : Nat) (hi : i < rows.length) :
    b.lines.getD i [] = cellsOf (rows.getD i []) := by
  rw [h.lines, List.getD_eq_getElem?_getD, List.getD_eq_getElem?_getD,
    List.getElem?_append_left (by simpa using hi)]
  simp [List.getElem?_eq_getElem hi]

theorem IsTable.lastLine {b : Writer Bytes} {rows : List (List Bytes)} {K : Nat}
    (h : IsTable b rows K) : b.lines.getD rows.length [] = [] := by
  rw [h.lines, List.getD_eq_getElem?_getD, List.getElem?_append_right (by simp)]
  simp

theorem IsTable.rowLength {b : Writer Bytes} {rows : List (List Bytes)} {K : Nat}
    (h : IsTable b rows K) (i : Nat) (hi : i < rows.length) :
    (rows.getD i []).length = K := by
  apply h.len
  rw [List.getD_eq_getElem?_getD, List.getElem?_eq_getElem hi]
  exact List.getElem_mem hi

theorem IsTable.lineLength {b : Writer Bytes} {rows : List (List Bytes)} {K : Nat}
    (h : IsTable b rows K) (i : Nat) (hi : i < rows.length) :
    (b.lines.getD i []).length = K := by
  rw [h.line i hi, cellsOf_length]
  exact h.rowLength i hi

theorem IsTable.linesLength {b : Writer Bytes} {rows : List (List Bytes)} {K : Nat}
    (h : IsTable b rows K) : b.lines.length = rows.length + 1 := by
  rw [h.lines]; simp

theorem IsTable.of_same {b b2 : Writer Bytes} {rows : List (List Bytes)} {K : Nat}
    (h : IsTable b rows K) (hl : b2.lines = b.lines) (hb : b2.buf = b.buf)
    (hc : b2.cell = b.cell) (hp : b2.padding = b.padding) (hm : b2.minwidth = b.minwidth)
    (hpc : b2.padchar = b.padchar) (ho : b2.output.write = b.output.write) :
    IsTable b2 rows K :=
  ⟨by rw [hl]; exact h.lines, by rw [hb]; exact h.buf, by rw [hc]; exact h.cell,
   by rw [hp]; exact h.pad, by rw [hm]; exact h.minw, by rw [hpc]; exact h.padchar,
   by show b2.output.write = _; rw [ho]; exact h.recording, h.len⟩

/-- The column-block loop on a table, for a column that every row has: it runs to the end
of the rows and yields the largest cell width of the column plus the padding. -/
theorem columnBlock_table {b : Writer Bytes} {rows : List (List Bytes)} {K : Nat}
    (h : IsTable b rows K) (j : Nat) (hj : j + 1 < K) (line1 : Nat) (hl : rows.length ≤ line1)
    (n : Nat) :
    ∀ (this : Nat) (w : Int), 0 ≤ w → this ≤ rows.length → rows.length - this ≤ n →
      columnBlock b j n this line1 w
        = (max w (((rows.drop this).map
              (fun r => (runeCount (r.getD j []) : Int) + 2)).foldr max 0), rows.length) := by
  induction n with
  | zero =>
    intro this w hw h1 h2
    have : this = rows.length := by omega
    subst this
    simp [columnBlock, hw]
  | succ m ih =>
    intro this w hw h1 h2
    unfold columnBlock
    by_cases hthis : this = rows.length
    · subst hthis
      simp only [h.lastLine, List.length_nil]
      simp [hw]
    · have hlt : this < rows.length := by omega
      have hlt1 : this < line1 := by omega
      have hlen := h.lineLength this hlt
      have hns : ¬ j + 1 ≥ (b.lines.getD this []).length := by omega
      simp only [hlt1, if_true, hns, if_false]
      have hrl := h.rowLength this hlt
      have hwid : ((b.lines.getD this []).getD j {}).width
          = (runeCount ((rows.getD this []).getD j []) : Int) := by
        rw [h.line this hlt]
        exact cellsOf_getD_width _ j (by omega)
      rw [hwid, h.pad]
      rw [ih (this + 1) _ (by split_ifs <;> omega) (by omega) (by omega)]
      have hd : rows.drop this = rows.getD this [] :: rows.drop (this + 1) := by
        rw [List.drop_eq_getElem_cons hlt, List.getD_eq_getElem?_getD,
          List.getElem?_eq_getElem hlt]
        rfl
      rw [hd]
      simp only [List.map_cons, List.foldr_cons, Prod.mk.injEq, and_true]
      rw [← max_assoc]
      split_ifs with hgt
      · push_cast at hgt ⊢
        rw [max_eq_right (le_of_lt hgt)]
      · push_cast at hgt ⊢
        rw [max_eq_left (not_lt.mp hgt)]

theorem formatLoop_skip (nested : Writer Bytes → Nat → Nat → Nat → Run Bytes Nat) (column : Nat)
    (fuel : Nat) :
    ∀ (b : Writer Bytes) (pos line0 this line1 : Nat), line1 + 1 ≤ this + fuel → 1 ≤ fuel →
      (∀ i, this ≤ i → i < line1 → column + 1 ≥ (b.lines.getD i []).length) →
      formatLoop nested column fuel b pos line0 this line1 = writeLines b pos line0 line1 := by
  induction fuel with
  | zero => intro b pos line0 this line1 _ h; omega
  | succ f ih =>
    intro b pos line0 this line1 hf _ hs
    unfold formatLoop
    by_cases hthis : this < line1
    · simp only [hthis, if_true, hs this (le_refl _) hthis]
      exact ih b pos line0 (this + 1) line1 (by omega) (by omega)
        (fun i hi1 hi2 => hs i (by omega) hi2)
    · simp only [hthis, if_false]

end tabwriter

namespace tabwriter

theorem cellsOut_cellsOf (b : Writer Bytes) (hp : b.padchar = SP) (r : List Bytes) :
    ∀ (j pos : Nat) (rest : Bytes), b.buf.drop pos = r.flatten ++ rest →
      cellsOut b (cellsOf r) j pos = renderCells b.widths j r
        ∧ cellsSize (cellsOf r) = r.flatten.length := by
  induction r with
  | nil => intro j pos rest _; simp [cellsOf, cellsOut, renderCells, cellsSize]
  | cons t ts ih =>
    intro j pos rest hb
    rw [List.flatten_cons, List.append_assoc] at hb
    have htake : (b.buf.drop pos).take t.length = t := by
      rw [hb, List.take_left']; rfl
    have hdrop : b.buf.drop (pos + t.length) = ts.flatten ++ rest := by
      rw [← List.drop_drop, hb, List.drop_left']; rfl
    obtain ⟨i1, i2⟩ := ih (j + 1) (pos + t.length) rest hdrop
    cases ts with
    | nil =>
      simp only [cellsOf, cellsOut, renderCells, cellOf, htake, hp, cellsSize]
      simp
    | cons u us =>
      refine ⟨?_, ?_⟩
      · show cellsOut b (cellOf true t :: cellsOf (u :: us)) j pos = _
        rw [cellsOut, renderCells]
        have e : (cellOf true t).size = t.length := rfl
        have e2 : (cellOf true t).width = (runeCount t : Int) := rfl
        rw [e, e2, i1, htake, hp]
      · rw [cellsOf, cellsSize_cons, i2]
        simp [cellOf]

theorem linesOut_table {b : Writer Bytes} {rows : List (List Bytes)} {K : Nat}
    (h : IsTable b rows K) (rs : List (List Bytes)) :
    ∀ (i pos : Nat), rows.drop i = rs → b.buf.drop pos = (rs.map List.flatten).flatten →
      linesOut b rs.length i pos = renderTable b.widths rs
        ∧ linesEnd b rs.length i pos = pos + ((rs.map List.flatten).flatten).length := by
  induction rs with
  | nil => intro i pos _ _; simp [linesOut, linesEnd, renderTable]
  | cons r rs ih =>
    intro i pos hd hb
    have hi : i < rows.length := by
      by_contra hcon
      rw [List.drop_eq_nil_of_le (by omega)] at hd
      exact absurd hd (by simp)
    have hr : rows.getD i [] = r := by
      rw [List.drop_eq_getElem_cons hi] at hd
      simp only [List.cons.injEq] at hd
      simp [List.getD_eq_getElem?_getD, List.getElem?_eq_getElem hi, hd.1]
    have hd2 : rows.drop (i + 1) = rs := by
      rw [List.drop_eq_getElem_cons hi] at hd
      simp only [List.cons.injEq] at hd
      exact hd.2
    simp only [List.map_cons, List.flatten_cons] at hb
    obtain ⟨c1, c2⟩ := cellsOut_cellsOf b h.padchar r 0 pos _ hb
    have hb2 : b.buf.drop (pos + cellsSize (cellsOf r)) = (rs.map List.flatten).flatten := by
      rw [← List.drop_drop, hb, c2, List.drop_left']; rfl
    obtain ⟨j1, j2⟩ := ih (i + 1) (pos + cellsSize (cellsOf r)) hd2 hb2
    have hne : ¬ i + 1 = b.lines.length := by rw [h.linesLength]; omega
    simp only [List.length_cons, linesOut, linesEnd, h.line i hi, hr, hne, if_false, c1, j1, j2]
    refine ⟨by simp [renderTable], ?_⟩
    rw [c2]
    simp only [List.map_cons, List.flatten_cons, List.length_append]
    omega

theorem colWidth_nonneg (rows : List (List Bytes)) (j : Nat) : 0 ≤ colWidth rows j := by
  unfold colWidth
  induction rows with
  | nil => simp
  | cons r rs ih => simp only [List.map_cons, List.foldr_cons]; exact le_max_of_le_right ih

theorem columnWidths_take_succ (K : Nat) (rows : List (List Bytes)) (j : Nat) (hj : j + 1 < K) :
    (columnWidths K rows).take j ++ [colWidth rows j] = (columnWidths K rows).take (j + 1) := by
  unfold columnWidths
  rw [← List.map_take, ← List.map_take, List.take_range, List.take_range,
    Nat.min_eq_left (by omega), Nat.min_eq_left (by omega), List.range_succ, List.map_append]
  rfl

theorem columnWidths_length (K : Nat) (rows : List (List Bytes)) :
    (columnWidths K rows).length = K - 1 := by
  simp [columnWidths]

end tabwriter

theorem le_foldr_max (l : List Int) (x : Int) (hx : x ∈ l) : x ≤ l.foldr max 0 := by
  induction l with
  | nil => simp at hx
  | cons y ys ih =>
    simp only [List.foldr_cons]
    rcases List.mem_cons.mp hx with h | h
    · rw [h]; exact le_max_left _ _
    · exact le_trans (ih h) (le_max_right _ _)

theorem columnWidths_getD (K : Nat) (rows : List (List Bytes)) (j : Nat) (hj : j + 1 < K) :
    (columnWidths K rows).getD j 0 = colWidth rows j := by
  unfold columnWidths
  rw [List.getD_eq_getElem?_getD, List.getElem?_map, List.getElem?_range (by omega)]
  rfl

/-- Every cell of a column is at least two runes narrower than the column. -/
theorem padding_ge_two (K : Nat) (rows : List (List Bytes)) (r : List Bytes) (hr : r ∈ rows)
    (j : Nat) (hj : j + 1 < K) :
    (runeCount (r.getD j []) : Int) + 2 ≤ (columnWidths K rows).getD j 0 := by
  rw [columnWidths_getD K rows j hj]
  unfold colWidth
  apply le_foldr_max
  exact List.mem_map.mpr ⟨r, hr, rfl⟩

namespace tabwriter

theorem cellsFit_of_getD (ws : List Int) (cells : List cell) :
    ∀ j, (∀ p, p < cells.length → j + p < ws.length →
        (cells.getD p {}).width ≤ ws.getD (j + p) 0) →
      cellsFit ws cells j := by
  induction cells with
  | nil => intro j _; trivial
  | cons c cs ih =>
    intro j h
    refine ⟨fun hj => by simpa using h 0 (by simp) (by simpa using hj),
      ih (j + 1) (fun p hp hjp => ?_)⟩
    have := h (p + 1) (by simp only [List.length_cons]; omega) (by omega)
    have e : j + (p + 1) = j + 1 + p := by omega
    rw [e] at this
    simpa using this

theorem writeLines_empty (b : Writer Bytes) (hw : Recording b) (pos line : Nat) :
    writeLines b pos line line = .ok pos b := by
  rw [writeLines_rec b hw pos line line (le_refl _) (fun k h1 h2 => by omega)]
  simp [linesOut, linesEnd, emit_nil]

theorem writeLines_lastLine {b : Writer Bytes} {rows : List (List Bytes)} {K : Nat}
    (h : IsTable b rows K) (pos : Nat) :
    writeLines b pos rows.length (rows.length + 1) = .ok pos b := by
  rw [writeLines_rec b h.recording pos _ _ (by omega) (fun k h1 h2 => by
    have e : k = rows.length := by omega
    rw [e, h.lastLine]
    trivial)]
  have e : rows.length + 1 - rows.length = 1 := by omega
  rw [e]
  have hl : b.lines.getD rows.length [] = [] := h.lastLine
  have hlen : rows.length + 1 = b.lines.length := h.linesLength.symm
  simp only [linesOut, linesEnd, hl, hlen, if_true, h.cell, cellsOut, cellsSize, List.map_nil,
    List.sum_nil, List.take_zero, List.append_nil, Nat.add_zero, emit_nil]

/-- The loop of `format` on a table at a column that every row has: the block is the whole
table, so the loop is the nested call on all rows with the width of the column pushed. -/
theorem formatLoop_block {b : Writer Bytes} {rows : List (List Bytes)} {K : Nat}
    (h : IsTable b rows K) (hL : 1 ≤ rows.length) (j : Nat) (hj : j + 1 < K)
    (nested : Writer Bytes → Nat → Nat → Nat → Run Bytes Nat) (pos p2 : Nat) (X : Bytes)
    (hn : nested { b with widths := b.widths ++ [colWidth rows j] } pos 0 rows.length
        = .ok p2 (emit { b with widths := b.widths ++ [colWidth rows j] } X))
    (line1 : Nat) (h1 : line1 = rows.length ∨ line1 = rows.length + 1) (fuel : Nat) :
    formatLoop nested j (fuel + 2) b pos 0 0 line1 = .ok p2 (emit b X) := by
  have hlt : 0 < line1 := by omega
  have hns : ¬ j + 1 ≥ (b.lines.getD 0 []).length := by
    rw [h.lineLength 0 (by omega)]; omega
  rw [formatLoop]
  simp only [hlt, if_true, hns, if_false]
  rw [writeLines_empty b h.recording]
  simp only [Run.andThen]
  have hblk : columnBlock b j (line1 - 0) 0 line1 b.minwidth = (colWidth rows j, rows.length) := by
    rw [columnBlock_table h j hj line1 (by omega) (line1 - 0) 0 b.minwidth
      (by rw [h.minw]; exact le_refl _) (Nat.zero_le _) (by omega)]
    rw [h.minw]
    simp only [List.drop_zero, Nat.cast_zero, Prod.mk.injEq, and_true]
    exact max_eq_right (colWidth_nonneg rows j)
  rw [hblk]
  simp only
  rw [hn]
  simp only [Run.andThen]
  have hpop : { emit { b with widths := b.widths ++ [colWidth rows j] } X with
      widths := (emit { b with widths := b.widths ++ [colWidth rows j] } X).widths.dropLast }
      = emit b X := by
    simp [emit]
  rw [hpop, formatLoop]
  have hge : ¬ rows.length + 1 < line1 := by omega
  simp only [hge, if_false]
  have hT : IsTable (emit b X) rows K := h.of_same rfl rfl rfl rfl rfl rfl rfl
  rcases h1 with h1 | h1
  · rw [h1, writeLines_empty _ hT.recording]
  · rw [h1, writeLines_lastLine hT]

theorem widths_eta (b : Writer Bytes) (ws : List Int) (h : b.widths = ws) :
    { b with widths := ws } = b := by
  cases b
  simp_all

/-- On a table `format` writes the rows with every column padded to its width. -/
theorem format_table {rows : List (List Bytes)} {K : Nat} (hL : 1 ≤ rows.length) (m : Nat) :
    ∀ (b : Writer Bytes) (j : Nat), IsTable b rows K → j + m + 1 = K →
      b.widths = (columnWidths K rows).take j →
      ∀ (d pos : Nat), m ≤ d →
        format d b pos 0 rows.length
          = .ok (linesEnd b rows.length 0 pos)
              (emit b (linesOut { b with widths := columnWidths K rows } rows.length 0 pos)) := by
  induction m with
  | zero =>
    intro b j h hj hw d pos _
    have hlen : b.widths.length = K - 1 := by
      rw [hw, List.length_take, columnWidths_length]; omega
    have hw2 : b.widths = columnWidths K rows := by
      rw [hw, List.take_of_length_le (by rw [columnWidths_length]; omega)]
    rw [widths_eta b _ hw2]
    have hfit : linesFit b 0 (rows.length - 0) := by
      intro k _ hk
      have hk2 : k < rows.length := by omega
      rw [h.line k hk2, hw2]
      apply cellsFit_of_getD
      intro p hp hjp
      rw [cellsOf_length] at hp
      rw [cellsOf_getD_width _ p hp, Nat.zero_add]
      rw [columnWidths_length] at hjp
      have hmem : rows.getD k [] ∈ rows := by
        rw [List.getD_eq_getElem?_getD, List.getElem?_eq_getElem hk2]
        exact List.getElem_mem hk2
      have := padding_ge_two K rows _ hmem p (by omega)
      omega
    have hwl := writeLines_rec b h.recording pos 0 rows.length (Nat.zero_le _) hfit
    rw [Nat.sub_zero] at hwl
    cases d with
    | zero => rw [format, hwl]
    | succ d =>
      rw [format, formatLoop_skip _ _ _ b pos 0 0 rows.length (by omega) (by omega), hwl]
      intro i _ hi
      rw [h.lineLength i hi, hlen]
      omega
  | succ m ih =>
    intro b j h hj hw d pos hd
    obtain ⟨d, rfl⟩ : ∃ e, d = e + 1 := ⟨d - 1, by omega⟩
    have hlen : b.widths.length = j := by
      rw [hw, List.length_take, columnWidths_length]; omega
    have hT : IsTable { b with widths := b.widths ++ [colWidth rows j] } rows K :=
      h.of_same rfl rfl rfl rfl rfl rfl rfl
    have hnest := ih { b with widths := b.widths ++ [colWidth rows j] } (j + 1) hT (by omega)
      (by show b.widths ++ [colWidth rows j] = _
          rw [hw, columnWidths_take_succ K rows j (by omega)]) d pos (by omega)
    rw [linesEnd_congr { b with widths := b.widths ++ [colWidth rows j] } b rfl rfl] at hnest
    rw [format, hlen]
    have e : rows.length - 0 + 1 = (rows.length - 1) + 2 := by omega
    rw [e]
    exact formatLoop_block h hL j (by omega) (format d) pos _ _ hnest rows.length (Or.inl rfl) _

end tabwriter

namespace tabwriter

theorem maxCells_table (rows : List (List Bytes)) (K : Nat) (hne : rows ≠ [])
    (hlen : ∀ r ∈ rows, r.length = K) :
    maxCells (rows.map cellsOf ++ [[]]) = K := by
  unfold maxCells
  induction rows with
  | nil => exact absurd rfl hne
  | cons r rs ih =>
    have hr := hlen r (by simp)
    cases rs with
    | nil => simp [cellsOf_length, hr]
    | cons q qs =>
      have := ih (by simp) (fun x hx => hlen x (by simp [hx]))
      simp only [List.map_cons, List.cons_append, List.foldr_cons] at this ⊢
      rw [this, cellsOf_length, hr]
      simp

theorem IsTable_rowsState (out : GoWriter Bytes) (rows : List (List Bytes)) (K : Nat)
    (ho : out.write = fun s p => (s ++ p, (p.length : Int), none))
    (hlen : ∀ r ∈ rows, r.length = K) : IsTable (rowsState out rows []) rows K :=
  ⟨by simp [rowsState], by simp [rowsState], rfl, rfl, rfl, rfl, ho, hlen⟩

/-- Flushing a table of at least one row and at least two cells per row delivers the rows
with every column padded to its width, and resets the writer. -/
theorem flushNoDefers_table (out : GoWriter Bytes) (rows : List (List Bytes)) (K : Nat)
    (ho : out.write = fun s p => (s ++ p, (p.length : Int), none))
    (hlen : ∀ r ∈ rows, r.length = K) (hK : 2 ≤ K) (hne : rows ≠ []) :
    flushNoDefers (rowsState out rows [])
      = .ok () (reset (emit (rowsState out rows [])
          (renderTable (columnWidths K rows) rows))) := by
  have hT := IsTable_rowsState out rows K ho hlen
  have hL : 1 ≤ rows.length := List.length_pos.mpr hne
  unfold flushNoDefers
  have hc : ¬ (rowsState out rows []).cell.size > 0 := by simp [rowsState]
  simp only [hc, if_false]
  rw [hT.lines, maxCells_table rows K hne hlen]
  obtain ⟨K2, rfl⟩ : ∃ e, K = e + 2 := ⟨K - 2, by omega⟩
  have hT1 : IsTable { rowsState out rows [] with
      widths := (rowsState out rows []).widths ++ [colWidth rows 0] } rows (K2 + 2) :=
    hT.of_same rfl rfl rfl rfl rfl rfl rfl
  have hnest := format_table hL K2 _ 1 hT1 (by omega)
    (by show [] ++ [colWidth rows 0] = _
        rw [← columnWidths_take_succ (K2 + 2) rows 0 (by omega)]
        simp) (K2 + 1) 0 (by omega)
  have hT2 : IsTable { rowsState out rows [] with widths := columnWidths (K2 + 2) rows } rows
      (K2 + 2) := hT.of_same rfl rfl rfl rfl rfl rfl rfl
  have hX := (linesOut_table hT2 rows 0 0 rfl (by simp [rowsState])).1
  have hX2 : linesOut { { rowsState out rows [] with
      widths := (rowsState out rows []).widths ++ [colWidth rows 0] } with
      widths := columnWidths (K2 + 2) rows } rows.length 0 0
      = renderTable (columnWidths (K2 + 2) rows) rows := hX
  rw [hX2] at hnest
  rw [format]
  have e : (List.map cellsOf rows ++ [[]]).length - 0 + 1 = rows.length + 2 := by simp
  have e2 : (List.map cellsOf rows ++ [[]]).length = rows.length + 1 := by simp
  rw [e, e2]
  have hw0 : (rowsState out rows []).widths.length = 0 := rfl
  rw [hw0, formatLoop_block hT hL 0 (by omega) (format (K2 + 1)) 0 _ _ hnest (rows.length + 1)
    (Or.inr rfl) rows.length]
  rfl

end tabwriter

theorem Aligned.plain_eq {src out : Bytes} (h : Aligned src out)
    (hp : ∀ c ∈ src, c ≠ HT ∧ c ≠ VT ∧ c ≠ FF) : out = src := by
  induction h with
  | done => rfl
  | keep c _ ih => rw [ih (fun x hx => hp x (by simp [hx]))]
  | pad c k hc _ _ =>
    have := hp c (by simp)
    rcases hc with hc | hc
    · exact absurd hc this.1
    · exact absurd hc this.2.1
  | feed _ _ => exact absurd rfl (hp FF (by simp)).2.2

theorem rowCells_length (n : Nat) (r : List Bytes) : (rowCells n r).length = r.length := by
  cases r <;> rfl

theorem NewPrefixWriter_rowsState (out : GoWriter Bytes) :
    NewPrefixWriter out = prefixWriter.mk (asWriter (rowsState out [] [])) := by
  unfold NewPrefixWriter
  rw [NewWriter_rowsState]

/-- The table case with at least two cells per row and at least one row. -/
theorem table_flush_wide (lib : FmtLib) (n K : Nat) (hK : 2 ≤ K) (rows : List (List Bytes))
    (hne : rows ≠ []) (hrows : ∀ r ∈ rows, r.length = K ∧ ∀ c ∈ r, plain c) (s0 : Bytes) :
    ((NewPrefixWriter (memSink s0)).calls lib (rows.map (Call.WriteColsLn (n : Int)))).Flush.2 = none
    ∧ ((NewPrefixWriter (memSink s0)).calls lib
          (rows.map (Call.WriteColsLn (n : Int)))).Flush.1.out.st.output.st
        = s0 ++ renderTable (columnWidths K (rows.map (rowCells n))) (rows.map (rowCells n)) := by
  obtain ⟨K2, rfl⟩ : ∃ e, K = e + 2 := ⟨K - 2, by omega⟩
  rw [NewPrefixWriter_rowsState, calls_rowsState lib (memSink s0) n K2 rows [] hrows,
    List.nil_append]
  have hfl := tabwriter.flushNoDefers_table (memSink s0) (rows.map (rowCells n)) (K2 + 2) rfl
    (by
      intro r hr
      obtain ⟨q, hq, rfl⟩ := List.mem_map.mp hr
      rw [rowCells_length]
      exact (hrows q hq).1)
    (by omega) (by simpa using hne)
  rw [Flush_of_flusher _ tabwriter.Flush rfl]
  show (Option.map FlushError.fromOut
        (tabwriter.Flush (rowsState (memSink s0) (rows.map (rowCells n)) [])).2 = none)
    ∧ (tabwriter.Flush (rowsState (memSink s0) (rows.map (rowCells n)) [])).1.output.st = _
  unfold tabwriter.Flush
  rw [hfl]
  exact ⟨rfl, rfl⟩

theorem written_rows (lib : FmtLib) (n : Nat) (rows : List (List Bytes)) :
    written lib (rows.map (Call.WriteColsLn (n : Int)))
      = (rows.map (fun r => List.replicate (2 * n) SP ++ stringsJoin r [HT] ++ [LF])).flatten := by
  induction rows with
  | nil => rfl
  | cons r rs ih =>
    rw [List.map_cons, written_cons, ih, written_WriteColsLn, Int.toNat_ofNat]
    rfl

/-- The table case with one cell per row: every line is delivered as written. -/
theorem written_rows_single (lib : FmtLib) (n : Nat) (rows : List (List Bytes))
    (hrows : ∀ r ∈ rows, r.length = 1 ∧ ∀ c ∈ r, plain c) (ws : List Int) (hws : ws = []) :
    written lib (rows.map (Call.WriteColsLn (n : Int)))
        = renderTable ws (rows.map (rowCells n))
      ∧ ∀ c ∈ written lib (rows.map (Call.WriteColsLn (n : Int))), c ≠ HT ∧ c ≠ VT ∧ c ≠ FF := by
  subst hws
  rw [written_rows]
  induction rows with
  | nil => exact ⟨rfl, by simp⟩
  | cons r rs ih =>
    obtain ⟨i1, i2⟩ := ih (fun x hx => hrows x (by simp [hx]))
    obtain ⟨hl, hp⟩ := hrows r (by simp)
    match r, hl, hp with
    | [c], _, hp =>
      have hc : plain c := hp c (by simp)
      have e : List.replicate (2 * n) SP ++ stringsJoin [c] [HT] ++ [LF]
          = renderCells [] 0 (rowCells n [c]) ++ [LF] := by
        simp [stringsJoin, List.intercalate, rowCells, renderCells]
      refine ⟨?_, ?_⟩
      · simp only [List.map_cons, List.flatten_cons, e, i1, renderTable]
      · intro x hx
        simp only [List.map_cons, List.flatten_cons, List.mem_append] at hx
        rcases hx with hx | hx
        · simp only [stringsJoin, List.intercalate, List.intersperse, List.flatten_cons,
            List.flatten_nil, List.append_nil, List.mem_append, List.mem_singleton] at hx
          rcases hx with (hx | hx) | hx
          · have := plain_replicate_sp (2 * n) x hx
            exact ⟨this.1, this.2.1, this.2.2.2.1⟩
          · have := hc x hx
            exact ⟨this.1, this.2.1, this.2.2.2.1⟩
          · subst hx; decide
        · exact i2 x hx

theorem table_flush (lib : FmtLib) (n K : Nat) (hK : 1 ≤ K) (rows : List (List Bytes))
    (hrows : ∀ r ∈ rows, r.length = K ∧ ∀ c ∈ r, plain c) (s0 : Bytes) :
    ((NewPrefixWriter (memSink s0)).calls lib (rows.map (Call.WriteColsLn (n : Int)))).Flush.2 = none
    ∧ ((NewPrefixWriter (memSink s0)).calls lib
          (rows.map (Call.WriteColsLn (n : Int)))).Flush.1.out.st.output.st
        = s0 ++ renderTable (columnWidths K (rows.map (rowCells n))) (rows.map (rowCells n)) := by
  by_cases hwide : 2 ≤ K ∧ rows ≠ []
  · exact table_flush_wide lib n K hwide.1 rows hwide.2 hrows s0
  · obtain ⟨f1, ⟨o, f2, f3⟩⟩ :=
      Flush_calls_sink lib (rows.map (Call.WriteColsLn (n : Int))) s0
    refine ⟨f1, ?_⟩
    rw [f2]
    congr 1
    by_cases hr : rows = []
    · subst hr
      exact Aligned.nil_out f3
    · have hK1 : K = 1 := by
        by_contra hcon
        exact hwide ⟨by omega, hr⟩
      subst hK1
      obtain ⟨w1, w2⟩ := written_rows_single lib n rows hrows
        (columnWidths 1 (rows.map (rowCells n))) (by simp [columnWidths])
      rw [← w1]
      exact Aligned.plain_eq f3 w2

theorem runeCountLoop_fuel (f1 : Nat) :
    ∀ (f2 : Nat) (p : Bytes), p.length ≤ f1 → p.length ≤ f2 →
      runeCountLoop f1 p = runeCountLoop f2 p := by
  induction f1 with
  | zero =>
    intro f2 p h1 _
    have : p = [] := List.length_eq_zero.mp (by omega)
    subst this
    cases f2 <;> rfl
  | succ a ih =>
    intro f2 p h1 h2
    cases p with
    | nil => cases f2 <;> rfl
    | cons c rest =>
      obtain ⟨b, rfl⟩ : ∃ e, f2 = e + 1 := ⟨f2 - 1, by simp at h2; omega⟩
      simp only [runeCountLoop]
      simp only [List.length_cons] at h1 h2
      rw [ih b _ (by rw [List.length_drop]; omega) (by rw [List.length_drop]; omega)]

theorem runeCount_cons (c : Nat) (rest : Bytes) :
    runeCount (c :: rest) = 1 + runeCount (rest.drop (runeLen c rest - 1)) := by
  unfold runeCount
  simp only [List.length_cons, runeCountLoop]
  rw [runeCountLoop_fuel _ (rest.drop (runeLen c rest - 1)).length _
    (by rw [List.length_drop]; omega) (le_refl _)]

theorem runeCount_nil : runeCount [] = 0 := rfl

theorem runeCount_cons_ascii (c : Nat) (hc : c < 0x80) (rest : Bytes) :
    runeCount (c :: rest) = 1 + runeCount rest := by
  rw [runeCount_cons]
  have : runeLen c rest = 1 := by simp [runeLen, hc]
  rw [this]
  rfl

theorem utf8First_spec (x size lo hi : Nat) (h : utf8First x = some (size, lo, hi)) :
    (size = 2 ∨ size = 3 ∨ size = 4) ∧ 0x80 ≤ lo := by
  unfold utf8First at h
  split_ifs at h <;> simp at h <;> omega

theorem runeLen_le (x : Nat) (a : Bytes) : 1 ≤ runeLen x a ∧ runeLen x a ≤ a.length + 1 := by
  cases hf : utf8First x with
  | none =>
    unfold runeLen
    rw [hf]
    split_ifs <;> simp
  | some v =>
    obtain ⟨size, lo, hi⟩ := v
    have hs := (utf8First_spec x size lo hi hf).1
    rcases a with _ | ⟨y, _ | ⟨z, _ | ⟨w, r⟩⟩⟩ <;>
    · unfold runeLen
      rw [hf]
      simp only [List.length_cons, List.length_nil]
      split_ifs <;> omega

theorem runeLen_append_ascii (x c : Nat) (hc : c < 0x80) (a rest : Bytes) :
    runeLen x (a ++ c :: rest) = runeLen x a := by
  cases hf : utf8First x with
  | none =>
    unfold runeLen
    rw [hf]
  | some v =>
    obtain ⟨size, lo, hi⟩ := v
    obtain ⟨hs, hlo⟩ := utf8First_spec x size lo hi hf
    have hclo : c < lo := by omega
    rcases a with _ | ⟨y, _ | ⟨z, _ | ⟨w, r⟩⟩⟩ <;>
    · unfold runeLen
      rw [hf]
      simp only [List.cons_append, List.nil_append, List.length_cons, List.length_nil,
        List.length_append]
      split_ifs <;> omega

theorem runeCount_append_ascii (c : Nat) (hc : c < 0x80) (rest : Bytes) (n : Nat) :
    ∀ (a : Bytes), a.length ≤ n →
      runeCount (a ++ c :: rest) = runeCount a + runeCount (c :: rest) := by
  induction n with
  | zero =>
    intro a ha
    have : a = [] := List.length_eq_zero.mp (by omega)
    subst this
    simp [runeCount_nil]
  | succ m ih =>
    intro a ha
    cases a with
    | nil => simp [runeCount_nil]
    | cons x a2 =>
      rw [List.cons_append, runeCount_cons, runeCount_cons x a2, runeLen_append_ascii x c hc]
      have hle := runeLen_le x a2
      rw [List.drop_append_of_le_length (by omega)]
      rw [ih _ (by rw [List.length_drop]; simp only [List.length_cons] at ha; omega)]
      omega

theorem runeCount_replicate_sp (k : Nat) (rest : Bytes) :
    runeCount (List.replicate k SP ++ rest) = k + runeCount rest := by
  induction k with
  | zero => simp
  | succ m ih =>
    rw [List.replicate_succ, List.cons_append, runeCount_cons_ascii SP (by decide), ih]
    omega

theorem renderCells_append (ws : List Int) (xs : List Bytes) :
    ∀ (i : Nat) (ys : List Bytes),
      renderCells ws i (xs ++ ys) = renderCells ws i xs ++ renderCells ws (i + xs.length) ys := by
  induction xs with
  | nil => intro i ys; simp [renderCells]
  | cons x xs ih =>
    intro i ys
    have e : i + 1 + xs.length = i + (xs.length + 1) := by omega
    rw [List.cons_append, renderCells, renderCells, ih, List.length_cons, e]
    simp only [List.append_assoc]

theorem renderCells_split (ws : List Int) (r : List Bytes) (j : Nat) (hj : j ≤ r.length) :
    renderCells ws 0 r = renderBefore ws j r ++ renderCells ws j (r.drop j) := by
  have h := renderCells_append ws (r.take j) 0 (r.drop j)
  rw [List.take_append_drop, List.length_take, Nat.min_eq_left hj, Nat.zero_add] at h
  exact h

/-- Width in runes of cells laid out with their padding: the sum of the column widths. -/
theorem runeCount_renderCells (ws : List Int) (cs : List Bytes) :
    ∀ (i : Nat) (tail : Bytes), i + cs.length ≤ ws.length →
      (∀ p, p < cs.length → (runeCount (cs.getD p []) : Int) + 1 ≤ ws.getD (i + p) 0) →
      (runeCount (renderCells ws i cs ++ tail) : Int)
        = ((ws.drop i).take cs.length).sum + (runeCount tail : Int) := by
  induction cs with
  | nil => intro i tail _ _; simp [renderCells]
  | cons t ts ih =>
    intro i tail hlen hw
    simp only [List.length_cons] at hlen
    have hi : i < ws.length := by omega
    have hw0 := hw 0 (by simp)
    simp only [List.getD_cons_zero, Nat.add_zero] at hw0
    have ih2 := ih (i + 1) tail (by omega) (fun p hp => by
      have := hw (p + 1) (by simp only [List.length_cons]; omega)
      simp only [List.getD_cons_succ] at this
      rw [show i + 1 + p = i + (p + 1) by omega]
      exact this)
    obtain ⟨k, hk⟩ : ∃ k, (ws.getD i 0 - (runeCount t : Int)).toNat = k + 1 :=
      ⟨(ws.getD i 0 - (runeCount t : Int)).toNat - 1, by omega⟩
    have hdrop : ws.drop i = ws.getD i 0 :: ws.drop (i + 1) := by
      rw [List.drop_eq_getElem_cons hi, List.getD_eq_getElem?_getD, List.getElem?_eq_getElem hi]
      rfl
    simp only [renderCells, hi, if_true, List.append_assoc, List.length_cons]
    rw [hk, List.replicate_succ, List.cons_append,
      runeCount_append_ascii SP (by decide) _ t.length t (le_refl _),
      ← List.cons_append, ← List.replicate_succ, runeCount_replicate_sp]
    rw [hdrop, List.take_succ_cons, List.sum_cons]
    push_cast
    rw [ih2]
    omega

/-- C6, counterexample. Three rows at level 1, the middle one a cell shorter: the third cell
of the first row starts at offset 13 of its line and the third cell of the last row at
offset 8. -/
theorem columns_misaligned_across_short_row :
    ((NewPrefixWriter (memSink [])).calls sampleLib
        [Call.WriteColsLn 1 [ascii "a", ascii "bbbbbb", ascii "c"],
         Call.WriteColsLn 1 [ascii "d", ascii "e"],
         Call.WriteColsLn 1 [ascii "f", ascii "g", ascii "h"]]).Flush.1.out.st.output.st
      = ascii "  a  bbbbbb  " ++ ascii "c\n" ++ ascii "  d  e\n" ++ ascii "  f  g  " ++ ascii "h\n"
    ∧ (ascii "  a  bbbbbb  ").length = 13 ∧ (ascii "  f  g  ").length = 8 := by
  decide

/-- C6, amended. Rows that all have the same number `K ≥ 1` of cells, the cells free of tab,
vertical tab, line feed, form feed and `Escape` bytes, written with `WriteColsLn` at one
level on a fresh writer over a recording sink: `Flush` succeeds and the sink receives one
line per row, each cell but the last followed by spaces up to the width of its column
(largest cell width in runes plus 2, the indentation counting as part of the first cell).
In every line the text before cell `j` is `renderBefore` and counts as many runes as the
sum of the widths of the columns before `j`, the same for all rows; and each cell is
followed by at least 2 padding spaces. -/
theorem equal_rows_columns_align (lib : FmtLib) (n K : Nat) (hK : 1 ≤ K)
    (rows : List (List Bytes)) (hrows : ∀ r ∈ rows, r.length = K ∧ ∀ c ∈ r, plain c)
    (s0 : Bytes) :
    ((NewPrefixWriter (memSink s0)).calls lib (rows.map (Call.WriteColsLn (n : Int)))).Flush.2 = none
    ∧ ((NewPrefixWriter (memSink s0)).calls lib
          (rows.map (Call.WriteColsLn (n : Int)))).Flush.1.out.st.output.st
        = s0 ++ renderTable (columnWidths K (rows.map (rowCells n))) (rows.map (rowCells n))
    ∧ (∀ r ∈ rows.map (rowCells n), ∀ j, j < K →
        renderCells (columnWidths K (rows.map (rowCells n))) 0 r
            = renderBefore (columnWidths K (rows.map (rowCells n))) j r
              ++ renderCells (columnWidths K (rows.map (rowCells n))) j (r.drop j)
          ∧ (runeCount (renderBefore (columnWidths K (rows.map (rowCells n))) j r) : Int)
            = ((columnWidths K (rows.map (rowCells n))).take j).sum)
    ∧ (∀ r ∈ rows.map (rowCells n), ∀ j, j + 1 < K →
        (runeCount (r.getD j []) : Int) + 2
          ≤ (columnWidths K (rows.map (rowCells n))).getD j 0) := by
  obtain ⟨h1, h2⟩ := table_flush lib n K hK rows hrows s0
  refine ⟨h1, h2, ?_, fun r hr j hj => padding_ge_two K _ r hr j hj⟩
  intro r hr j hj
  have hlen : r.length = K := by
    obtain ⟨q, hq, rfl⟩ := List.mem_map.mp hr
    rw [rowCells_length]
    exact (hrows q hq).1
  refine ⟨renderCells_split _ r j (by omega), ?_⟩
  have htl : (r.take j).length = j := by rw [List.length_take]; omega
  have h := runeCount_renderCells (columnWidths K (rows.map (rowCells n))) (r.take j) 0 []
    (by rw [htl, columnWidths_length]; omega)
    (fun p hp => by
      rw [htl] at hp
      have := padding_ge_two K _ r hr p (by omega)
      rw [Nat.zero_add, List.getD_eq_getElem?_getD, List.getElem?_take_of_lt hp,
        ← List.getD_eq_getElem?_getD]
      omega)
  rw [List.append_nil, htl, List.drop_zero, runeCount_nil] at h
  simpa [renderBefore] using h

/-- C6, witness: two rows of two cells at level 1. -/
theorem equal_rows_columns_align_witness :
    (1 ≤ 2)
    ∧ (∀ r ∈ [[ascii "a", ascii "bb"], [ascii "ccc", ascii "d"]],
        r.length = 2 ∧ ∀ c ∈ r, plain c)
    ∧ ((NewPrefixWriter (memSink [])).calls sampleLib
          ([[ascii "a", ascii "bb"], [ascii "ccc", ascii "d"]].map
            (Call.WriteColsLn ((1 : Nat) : Int)))).Flush.1.out.st.output.st
        = ascii "  a    bb\n  ccc  d\n" :=
  ⟨by decide, by simp [plain, ascii, tabwriter.Escape],
   by
    rw [(equal_rows_columns_align sampleLib 1 2 (by decide)
      [[ascii "a", ascii "bb"], [ascii "ccc", ascii "d"]]
      (by simp [plain, ascii, tabwriter.Escape]) []).2.1]
    decide⟩

/-- C16: at a level `n ≤ 0`, negative levels included, `Write` and `WriteCols`
add no indentation: they do what they do at level 0, which hands the formatted
text, respectively the cells joined by tabs, to the underlying writer. The
loop that builds the prefix ends for every integer level: it makes
`max(level, 0)` rounds, and a larger bound on its rounds changes nothing. -/
theorem nonpositive_level_adds_no_indent (lib : FmtLib) {σ : Type} (pw : prefixWriter σ)
    (level : Int) (hlevel : level ≤ 0) (format : Bytes) (a : List GoValue) (cols : List Bytes) :
    pw.Write lib level format a = pw.Write lib 0 format a
    ∧ (pw.Write lib level format a).out = (pw.out.Write (Sprintf lib format a)).1
    ∧ pw.WriteCols lib level cols = pw.WriteCols lib 0 cols
    ∧ (pw.WriteCols lib level cols).out = (pw.out.Write (stringsJoin cols [HT])).1
    ∧ prefixLoop level level.toNat 0 [] = []
    ∧ ∀ (l : Int) (fuel : Nat), l.toNat ≤ fuel →
        prefixLoop l fuel 0 [] = List.replicate (2 * l.toNat) SP := by
  have h0 : level.toNat = 0 := by omega
  have hW : ∀ (f : Bytes) (x : List GoValue),
      (pw.Write lib level f x).out = (pw.out.Write (Sprintf lib f x)).1 := by
    intro f x
    rw [Write_eq, h0]
    rfl
  have hW0 : ∀ (f : Bytes) (x : List GoValue),
      (pw.Write lib 0 f x).out = (pw.out.Write (Sprintf lib f x)).1 := by
    intro f x
    rw [Write_eq]
    rfl
  have hC : (pw.WriteCols lib level cols).out = (pw.out.Write (stringsJoin cols [HT])).1 := by
    rw [WriteCols_eq, h0]
    rfl
  have hC0 : (pw.WriteCols lib 0 cols).out = (pw.out.Write (stringsJoin cols [HT])).1 := by
    rw [WriteCols_eq]
    rfl
  refine ⟨prefixWriter_ext _ _ (by rw [hW, hW0]), hW format a,
    prefixWriter_ext _ _ (by rw [hC, hC0]), hC, ?_, ?_⟩
  · rw [h0]; rfl
  · intro l fuel hf
    have := prefixLoop_eq l fuel 0 [] (le_refl _) (by simpa using hf)
    simpa using this

theorem nonpositive_level_adds_no_indent_witness :
    (-3 : Int) ≤ 0
    ∧ (prefixWriter.mk (memSink [])).Write sampleLib (-3) (ascii "x") []
        = (prefixWriter.mk (memSink [])).Write sampleLib 0 (ascii "x") []
    ∧ ((prefixWriter.mk (memSink [])).WriteCols sampleLib (-3) [ascii "a", ascii "b"]).out.st
        = ascii "a\tb" :=
  have h := nonpositive_level_adds_no_indent sampleLib (prefixWriter.mk (memSink [])) (-3)
    (by decide) (ascii "x") [] [ascii "a", ascii "b"]
  ⟨by decide, h.1, by rw [h.2.2.2.1]; decide⟩

open binding

theorem Sprintf_resource (lib : FmtLib) (kind apiVersion : Bytes) :
    Sprintf lib (ascii "%s (%s)") [GoValue.string kind, GoValue.string apiVersion]
      = kind ++ ascii " (" ++ apiVersion ++ ascii ")" := by
  have e : ascii "%s (%s)" = PERCENT :: 115 :: SP :: 40 :: PERCENT :: 115 :: [41] := by decide
  rw [e]
  unfold Sprintf
  simp only [List.length_cons, List.length_nil, List.length_singleton]
  rw [doPrintfLoop_percent_s lib [GoValue.string kind, GoValue.string apiVersion] _ _ 0 false
      kind rfl,
    doPrintfLoop_literal lib _ _ SP (by decide), doPrintfLoop_literal lib _ _ 40 (by decide),
    doPrintfLoop_percent_s lib [GoValue.string kind, GoValue.string apiVersion] _ _ 1 false
      apiVersion rfl,
    doPrintfLoop_literal lib _ _ 41 (by decide)]
  have e2 : ascii " (" = [SP, 40] := by decide
  have e3 : ascii ")" = [41] := by decide
  rw [e2, e3]
  simp [doPrintfLoop, extraArgs]

namespace binding

theorem foldl_WriteAttribute (w : Receiver) (value : Bytes → Bytes) (keys : List Bytes) :
    ∀ t : List AttributeCall,
      keys.foldl (fun t k => (WriteAttribute t w k (value k)).2) t
        = t ++ keys.map (fun k => { receiver := w, attr := k, value := value k }) := by
  induction keys with
  | nil => intro t; simp
  | cons k ks ih =>
    intro t
    simp only [List.foldl_cons, List.map_cons]
    rw [ih]
    simp [WriteAttribute]

theorem mapIndex_of_mem (m : List (Bytes × Bytes)) (hnd : (m.map Prod.fst).Nodup) (k v : Bytes)
    (h : (k, v) ∈ m) : mapIndex m k = v := by
  induction m with
  | nil => simp at h
  | cons e es ih =>
    rw [List.map_cons, List.nodup_cons] at hnd
    rcases List.mem_cons.mp h with h1 | h1
    · subst h1
      simp [mapIndex, List.find?]
    · have hne : e.1 ≠ k := by
        intro he
        apply hnd.1
        rw [he]
        exact List.mem_map.mpr ⟨(k, v), h1, rfl⟩
      have := ih hnd.2 h1
      unfold mapIndex at this ⊢
      rw [List.find?_cons_of_neg _ (by simpa using hne)]
      exact this

theorem sortStrings_spec (l : List Bytes) (hnd : l.Nodup) :
    (sortStrings l).Perm l ∧ (sortStrings l).Sorted (· < ·) := by
  have hp : (sortStrings l).Perm l := List.perm_insertionSort _ l
  refine ⟨hp, ?_⟩
  have hs : (sortStrings l).Sorted (· ≤ ·) := List.sorted_insertionSort _ l
  exact hs.lt_of_le (hp.nodup_iff.mpr hnd)

end binding

/-- C14: `writeSink` does not complete for every destination. When the
destination has no reference (`Ref` is nil), with or without a URI, it makes
the call for "Sink" and then panics on reading `sink.Ref.Name`, so that no
"URI" attribute is written. When the destination has a reference it returns
after the calls for "Sink", "Name", "Namespace", "Resource" (the kind, then
the API version in parentheses) and, exactly when the URI is present, "URI". -/
theorem writeSink_panics_without_reference (lib : FmtLib) (uri : Option Bytes)
    (ref : KReference) :
    writeSink lib { Ref := none, URI := uri }
      = ([{ receiver := Receiver.dw, attr := ascii "Sink", value := [] }],
          Ending.nilDereference)
    ∧ writeSink lib { Ref := some ref, URI := uri }
      = ([{ receiver := Receiver.dw, attr := ascii "Sink", value := [] },
          { receiver := Receiver.result 0, attr := ascii "Name", value := ref.Name },
          { receiver := Receiver.result 0, attr := ascii "Namespace", value := ref.Namespace },
          { receiver := Receiver.result 0, attr := ascii "Resource",
            value := ref.Kind ++ ascii " (" ++ ref.APIVersion ++ ascii ")" }]
          ++ (match uri with
              | some u => [{ receiver := Receiver.result 0, attr := ascii "URI", value := u }]
              | none => []),
          Ending.returned) := by
  refine ⟨rfl, ?_⟩
  cases uri with
  | none => simp [writeSink, WriteAttribute, Sprintf_resource]
  | some u => simp [writeSink, WriteAttribute, Sprintf_resource]

/-- C12: for a subject whose selector has a non-empty `MatchLabels` map,
`writeSubject` makes the call for "Selector" and then, on the writer that call
returned, one call per key of the map: the keys are a permutation of the keys
of the map (each exactly once), in strictly ascending lexicographic order,
each with the value the map holds for it. With a nil selector the run ends
before any call for "Selector". -/
theorem writeSubject_selector_keys_sorted (binding : SinkBinding) :
    (∀ selector : LabelSelector, binding.Spec.Subject.Selector = some selector →
      selector.MatchLabels ≠ [] → (selector.MatchLabels.map Prod.fst).Nodup →
      ∃ keys : List Bytes,
        writeSubject binding
          = subjectHead binding.Spec.Subject
            ++ [{ receiver := Receiver.result 0, attr := ascii "Selector", value := [] }]
            ++ keys.map (fun k =>
                { receiver := Receiver.result (subjectHead binding.Spec.Subject).length,
                  attr := k, value := mapIndex selector.MatchLabels k })
        ∧ keys.Perm (selector.MatchLabels.map Prod.fst)
        ∧ keys.Sorted (· < ·)
        ∧ ∀ k v, (k, v) ∈ selector.MatchLabels → mapIndex selector.MatchLabels k = v)
    ∧ (binding.Spec.Subject.Selector = none →
        writeSubject binding = subjectHead binding.Spec.Subject) := by
  constructor
  · intro selector hsel hne hnd
    obtain ⟨hp, hs⟩ := sortStrings_spec _ hnd
    refine ⟨sortStrings (selector.MatchLabels.map Prod.fst), ?_, hp, hs,
      mapIndex_of_mem _ hnd⟩
    have hlen : selector.MatchLabels.length > 0 := List.length_pos.mpr hne
    unfold writeSubject
    simp only [hsel, hlen, if_true]
    rw [foldl_WriteAttribute]
    by_cases hn : binding.Spec.Subject.Name = []
    · simp [subjectHead, WriteAttribute, hn]
    · simp [subjectHead, WriteAttribute, hn]
  · intro hsel
    unfold writeSubject
    simp only [hsel]
    by_cases hn : binding.Spec.Subject.Name = []
    · simp [subjectHead, WriteAttribute, hn]
    · simp [subjectHead, WriteAttribute, hn]

theorem writeSubject_selector_keys_sorted_witness :
    writeSubject
      { Spec := { Subject := { APIVersion := ascii "apps/v1", Kind := ascii "Deployment",
                               Namespace := [], Name := [],
                               Selector := some { MatchLabels :=
                                 [(ascii "tier", ascii "backend"), (ascii "app", ascii "foo")] } },
                  Sink := { Ref := none, URI := none } } }
      = [{ receiver := Receiver.dw, attr := ascii "Subject", value := [] },
         { receiver := Receiver.result 0, attr := ascii "Kind", value := ascii "Deployment" },
         { receiver := Receiver.result 0, attr := ascii "APIVersion", value := ascii "apps/v1" },
         { receiver := Receiver.result 0, attr := ascii "Selector", value := [] },
         { receiver := Receiver.result 3, attr := ascii "app", value := ascii "foo" },
         { receiver := Receiver.result 3, attr := ascii "tier", value := ascii "backend" }] := by
  obtain ⟨keys, hw, hp, hs, _⟩ := (writeSubject_selector_keys_sorted
    { Spec := { Subject := { APIVersion := ascii "apps/v1", Kind := ascii "Deployment",
                             Namespace := [], Name := [],
                             Selector := some { MatchLabels :=
                               [(ascii "tier", ascii "backend"), (ascii "app", ascii "foo")] } },
                Sink := { Ref := none, URI := none } } }).1
    { MatchLabels := [(ascii "tier", ascii "backend"), (ascii "app", ascii "foo")] }
    rfl (by decide) (by decide)
  decide

namespace tabwriter

theorem Sound.of_setSink {σ α : Type} {r : Run σ α} {b : Writer σ} {st : σ}
    (h : Sound r (setSink b st)) : Sound r b := by
  cases r with
  | ok v b2 => obtain ⟨s, hs⟩ := h; exact ⟨s, hs⟩
  | panicked e b2 => obtain ⟨s, ws, hs⟩ := h; exact ⟨s, ws, hs⟩
  | crashed b2 => exact h

theorem Sound.bind {σ α β : Type} {r : Run σ α} {b : Writer σ} (h : Sound r b)
    {k : α → Writer σ → Run σ β}
    (hk : ∀ v st, Sound (k v (setSink b st)) (setSink b st)) : Sound (r.andThen k) b := by
  cases r with
  | ok v b2 =>
    obtain ⟨s, rfl⟩ := h
    exact Sound.of_setSink (hk v s)
  | panicked e b2 => exact h
  | crashed b2 => exact h

theorem Sound.ok_self {σ α : Type} (v : α) (b : Writer σ) : Sound (Run.ok v b) b :=
  ⟨b.output.st, rfl⟩

theorem write0_sound {σ : Type} (b : Writer σ) (buf : Bytes) : Sound (write0 b buf) b := by
  unfold write0
  simp only
  split
  · exact ⟨_, b.widths, rfl⟩
  · exact ⟨_, rfl⟩

theorem writeNLoop_sound {σ : Type} (src : Bytes) (fuel : Nat) :
    ∀ (b : Writer σ) (n : Nat), Sound (writeNLoop src fuel b n) b := by
  induction fuel with
  | zero => intro b n; exact write0_sound b _
  | succ f ih =>
    intro b n
    unfold writeNLoop
    split_ifs
    · exact (write0_sound b src).bind (fun _ st => ih _ _)
    · exact write0_sound b _

theorem writePadding_sound {σ : Type} (b : Writer σ) (textw cellw : Int) (h : textw ≤ cellw) :
    Sound (writePadding b textw cellw) b := by
  unfold writePadding writeN
  rw [if_neg (by omega)]
  exact writeNLoop_sound _ _ b _

theorem writeCells_sound {σ : Type} (cells : List cell) :
    ∀ (b : Writer σ) (j pos : Nat), cellsFit b.widths cells j →
      Sound (writeCells cells b j pos) b := by
  induction cells with
  | nil => intro b j pos _; exact Sound.ok_self _ _
  | cons c cs ih =>
    intro b j pos hf
    obtain ⟨hf1, hf2⟩ := hf
    unfold writeCells
    split_ifs with hsz hj
    · exact (writePadding_sound b _ _ (hf1 hj)).bind (fun _ st => ih _ _ _ hf2)
    · exact ih _ _ _ hf2
    · refine (write0_sound b _).bind (fun _ st => ?_)
      by_cases hj : j < b.widths.length
      · have hj2 : j < (setSink b st).widths.length := hj
        rw [if_pos hj2]
        exact (writePadding_sound _ _ _ (hf1 hj)).bind (fun _ st2 => ih _ _ _ hf2)
      · have hj2 : ¬ j < (setSink b st).widths.length := hj
        rw [if_neg hj2]
        exact ih _ _ _ hf2

theorem writeLinesLoop_sound {σ : Type} (n : Nat) :
    ∀ (b : Writer σ) (i line1 pos : Nat),
      (∀ k, i ≤ k → k < line1 → cellsFit b.widths (b.lines.getD k []) 0) →
      Sound (writeLinesLoop n b i line1 pos) b := by
  induction n with
  | zero => intro b i line1 pos _; exact Sound.ok_self _ _
  | succ m ih =>
    intro b i line1 pos hf
    unfold writeLinesLoop
    split_ifs with hi
    · refine (writeCells_sound _ b 0 pos (hf i (le_refl _) hi)).bind (fun pos1 st => ?_)
      have hnext : ∀ st2, ∀ k, i + 1 ≤ k → k < line1 →
          cellsFit (setSink (setSink b st) st2).widths
            ((setSink (setSink b st) st2).lines.getD k []) 0 :=
        fun st2 k h1 h2 => hf k (by omega) h2
      split_ifs
      · exact (write0_sound _ _).bind (fun _ st2 => ih _ _ _ _ (hnext st2))
      · exact (write0_sound _ _).bind (fun _ st2 => ih _ _ _ _ (hnext st2))
    · exact Sound.ok_self _ _

theorem writeLines_sound {σ : Type} (b : Writer σ) (pos line0 line1 : Nat)
    (hf : ∀ k, line0 ≤ k → k < line1 → cellsFit b.widths (b.lines.getD k []) 0) :
    Sound (writeLines b pos line0 line1) b :=
  writeLinesLoop_sound _ b line0 line1 pos hf

theorem formatLoop_sound {σ : Type} (nested : Writer σ → Nat → Nat → Nat → Run σ Nat)
    (column : Nat)
    (hnested : ∀ (b : Writer σ) (pos l0 l1 : Nat), b.widths.length = column + 1 →
      (∀ k, l0 ≤ k → k < l1 → cellsFit b.widths (b.lines.getD k []) 0) →
      Sound (nested b pos l0 l1) b)
    (fuel : Nat) :
    ∀ (b : Writer σ) (pos line0 this line1 : Nat), b.widths.length = column → line0 ≤ this →
      (∀ k, line0 ≤ k → k < line1 → cellsFit b.widths (b.lines.getD k []) 0) →
      Sound (formatLoop nested column fuel b pos line0 this line1) b := by
  induction fuel with
  | zero => intro b pos line0 this line1 _ _ _; exact Sound.ok_self _ _
  | succ f ih =>
    intro b pos line0 this line1 hcol h0 HF
    unfold formatLoop
    split_ifs with hthis hskip
    · exact ih b pos line0 (this + 1) line1 hcol (by omega) HF
    · refine (writeLines_sound b pos line0 this (fun k h1 h2 => HF k h1 (by omega))).bind
        (fun pos1 st => ?_)
      simp only
      have hblk := columnBlock_spec (setSink b st) column (line1 - this) this line1
        (setSink b st).minwidth
      have hbw := (columnBlock_width (setSink b st) column (line1 - this) this line1
        (setSink b st).minwidth).2
      generalize columnBlock (setSink b st) column (line1 - this) this line1
        (setSink b st).minwidth = blk at hblk hbw ⊢
      obtain ⟨hb1, hb2, _⟩ := hblk
      have hb2 := hb2 (by omega)
      have hbw2 : ∀ k, this ≤ k → k < blk.2 →
          ((b.lines.getD k []).getD column {}).width + (b.padding : Int) ≤ blk.1 := hbw
      have hn := hnested { setSink b st with widths := (setSink b st).widths ++ [blk.1] }
        pos1 this blk.2 (by show (b.widths ++ [blk.1]).length = _; simp [hcol])
        (fun k hk1 hk2 => cellsFit_push b.widths blk.1 (b.lines.getD k []) 0
          (HF k (by omega) (by omega))
          (fun p _ hjp => by
            have e : p = column := by omega
            have := hbw2 k hk1 hk2
            rw [e]
            omega))
      cases hres : nested { setSink b st with widths := (setSink b st).widths ++ [blk.1] }
          pos1 this blk.2 with
      | ok pos2 b2 =>
        rw [hres] at hn
        obtain ⟨st2, rfl⟩ := hn
        simp only [Run.andThen]
        have e : ({ setSink { setSink b st with widths := (setSink b st).widths ++ [blk.1] } st2
            with widths := (setSink { setSink b st with
              widths := (setSink b st).widths ++ [blk.1] } st2).widths.dropLast } : Writer σ)
            = setSink (setSink b st) st2 := by
          simp [setSink]
        rw [e]
        exact ih _ _ _ _ _ hcol (by omega) (fun k h1 h2 => HF k (by omega) h2)
      | panicked e b2 =>
        rw [hres] at hn
        obtain ⟨st2, ws, rfl⟩ := hn
        exact ⟨st2, ws, rfl⟩
      | crashed b2 =>
        rw [hres] at hn
        exact hn.elim
    · exact writeLines_sound b pos line0 line1 HF

theorem format_sound {σ : Type} (depth : Nat) :
    ∀ (b : Writer σ) (pos line0 line1 : Nat),
      (∀ k, line0 ≤ k → k < line1 → cellsFit b.widths (b.lines.getD k []) 0) →
      Sound (format depth b pos line0 line1) b := by
  induction depth with
  | zero => intro b pos line0 line1 HF; exact writeLines_sound b pos line0 line1 HF
  | succ d ih =>
    intro b pos line0 line1 HF
    unfold format
    exact formatLoop_sound (format d) b.widths.length
      (fun b2 pos2 l0 l1 _ hF2 => ih b2 pos2 l0 l1 hF2)
      _ b pos line0 line0 line1 rfl (le_refl _) HF

end tabwriter

namespace tabwriter

theorem Cfg.same {σ : Type} (b : Writer σ) : Cfg b b := ⟨rfl, rfl, rfl, rfl, rfl, rfl, rfl⟩

theorem Cfg.trans {σ : Type} {a b c : Writer σ} (h1 : Cfg a b) (h2 : Cfg b c) : Cfg a c := by
  obtain ⟨a1, a2, a3, a4, a5, a6, a7⟩ := h1
  obtain ⟨b1, b2, b3, b4, b5, b6, b7⟩ := h2
  exact ⟨b1.trans a1, b2.trans a2, b3.trans a3, b4.trans a4, b5.trans a5, b6.trans a6,
    b7.trans a7⟩

theorem Cfg.of_endEscape {σ : Type} (b : Writer σ) :
    Cfg b (endEscape b) ∧ (endEscape b).widths = b.widths := by
  unfold tabwriter.endEscape
  split_ifs <;> exact ⟨⟨rfl, rfl, rfl, rfl, rfl, rfl, rfl⟩, rfl⟩

theorem reset_congr {σ : Type} (b b2 : Writer σ) (h : Cfg b b2) :
    reset b2 = reset (setSink b b2.output.st) := by
  obtain ⟨h1, h2, h3, h4, h5, h6, h7⟩ := h
  obtain ⟨o2, m2, t2, p2, c2, _, _, _, _, _, _, cr2⟩ := b2
  obtain ⟨s2, w2, f2⟩ := o2
  simp only at h1 h2 h3 h4 h5 h6 h7
  subst h1 h2 h3 h4 h5 h6 h7
  rfl

theorem flushNoDefers_sound {σ : Type} (b : Writer σ) (hw : b.widths = []) :
    match flushNoDefers b with
    | .ok _ b2 => ∃ st, b2 = reset (setSink b st)
    | .panicked _ b2 => Cfg b b2
    | .crashed _ => False := by
  have key : ∀ b1 : Writer σ, b1.widths = [] → Cfg b b1 →
      (∀ st, reset (setSink b1 st) = reset (setSink b st)) →
      match (format (maxCells b1.lines) b1 0 0 b1.lines.length).andThen
          (fun _ b2 => Run.ok () (reset b2)) with
      | .ok _ b2 => ∃ st, b2 = reset (setSink b st)
      | .panicked _ b2 => Cfg b b2
      | .crashed _ => False := by
    intro b1 hw1 hc1 hr1
    have hs := format_sound (maxCells b1.lines) b1 0 0 b1.lines.length
      (fun k _ _ => by rw [hw1]; exact cellsFit_nil _ _)
    cases hres : format (maxCells b1.lines) b1 0 0 b1.lines.length with
    | ok v b2 =>
      rw [hres] at hs
      obtain ⟨st, rfl⟩ := hs
      exact ⟨st, hr1 st⟩
    | panicked e b2 =>
      rw [hres] at hs
      obtain ⟨st, ws, rfl⟩ := hs
      exact hc1
    | crashed b2 =>
      rw [hres] at hs
      exact hs.elim
  have e : flushNoDefers b
      = (fun b1 : Writer σ => (format (maxCells b1.lines) b1 0 0 b1.lines.length).andThen
          (fun _ b2 => Run.ok () (reset b2)))
        (if b.cell.size > 0 then
          (terminateCell (if b.endChar ≠ 0 then endEscape b else b) false).1 else b) := rfl
  rw [e]
  by_cases hsz : b.cell.size > 0
  · rw [if_pos hsz]
    by_cases he : b.endChar ≠ 0
    · rw [if_pos he]
      have h2 := Cfg.of_endEscape b
      refine key _ (by show (endEscape b).widths = []; rw [h2.2, hw]) h2.1 (fun st => ?_)
      unfold tabwriter.endEscape
      split_ifs <;> rfl
    · rw [if_neg he]
      exact key _ hw (Cfg.same b) (fun st => rfl)
  · rw [if_neg hsz]
    exact key b hw (Cfg.same b) (fun st => rfl)

theorem Flush_sound {σ : Type} (b : Writer σ) (hw : b.widths = []) :
    ∃ st, (Flush b).1 = reset (setSink b st) := by
  have hs := flushNoDefers_sound b hw
  unfold Flush
  cases hres : flushNoDefers b with
  | ok v b2 =>
    rw [hres] at hs
    exact hs
  | panicked e b2 =>
    rw [hres] at hs
    exact ⟨b2.output.st, reset_congr b b2 hs⟩
  | crashed b2 =>
    rw [hres] at hs
    exact hs.elim

theorem writeLoop_sound {σ : Type} (text : Bytes) :
    ∀ (b : Writer σ) (pending : Bytes) (i : Nat), b.widths = [] →
      Cfg b (writeLoop text b pending i).1
      ∧ ((writeLoop text b pending i).2.2 = none → (writeLoop text b pending i).1.widths = []) := by
  induction text with
  | nil => intro b pending i hw; exact ⟨Cfg.same b, fun _ => hw⟩
  | cons ch rest ih =>
    intro b pending i hw
    have go : ∀ (b2 : Writer σ) (p2 : Bytes) (i2 : Nat), b2.widths = [] → Cfg b b2 →
        Cfg b (writeLoop rest b2 p2 i2).1
        ∧ ((writeLoop rest b2 p2 i2).2.2 = none → (writeLoop rest b2 p2 i2).1.widths = []) :=
      fun b2 p2 i2 h1 h2 => ⟨h2.trans (ih b2 p2 i2 h1).1, (ih b2 p2 i2 h1).2⟩
    unfold writeLoop
    by_cases h0 : b.endChar = 0
    · simp only [h0, if_true]
      by_cases hterm : ch = HT ∨ ch = VT ∨ ch = LF ∨ ch = FF
      · simp only [hterm, if_true]
        by_cases hline : ch = LF ∨ ch = FF
        · simp only [hline, if_true]
          split_ifs
          · have hs := flushNoDefers_sound
              (addLine (terminateCell (updateWidth (append b pending)) (ch == HT)).1) hw
            cases hres : flushNoDefers
                (addLine (terminateCell (updateWidth (append b pending)) (ch == HT)).1) with
            | ok v b2 =>
              rw [hres] at hs
              obtain ⟨st, rfl⟩ := hs
              exact go _ _ _ rfl (Cfg.same b)
            | panicked e b2 =>
              rw [hres] at hs
              exact ⟨hs, fun h => by simp at h⟩
            | crashed b2 =>
              rw [hres] at hs
              exact hs.elim
          · exact go _ _ _ hw (Cfg.same b)
        · simp only [hline, if_false]
          exact go _ _ _ hw (Cfg.same b)
      · simp only [hterm, if_false]
        split_ifs
        · exact go _ _ _ hw (Cfg.same b)
        · exact go _ _ _ hw (Cfg.same b)
    · simp only [h0, if_false]
      split_ifs
      · have h2 := Cfg.of_endEscape (append b (pending ++ [ch]))
        exact go _ _ _ (by rw [h2.2]; exact hw) h2.1
      · exact go _ _ _ hw (Cfg.same b)

theorem Write_sound {σ : Type} (b : Writer σ) (hw : b.widths = []) (text : Bytes) :
    Cfg b (Write b text).1 ∧ ((Write b text).2.2 = none → (Write b text).1.widths = []) :=
  writeLoop_sound text b [] 0 hw

end tabwriter

theorem Clean_new {σ : Type} (sink : GoWriter σ) : Clean (NewPrefixWriter sink) :=
  ⟨rfl, rfl, rfl, rfl⟩

theorem Clean_Write {σ : Type} (pw : prefixWriter (Writer σ)) (h : Clean pw) (text : Bytes) :
    (pw.out.Write text).1.st.crashed = false
    ∧ (pw.out.Write text).1.write = tabwriter.Write
    ∧ (pw.out.Write text).1.flush = some tabwriter.Flush
    ∧ ((pw.out.Write text).2.2 = none → Clean ⟨(pw.out.Write text).1⟩) := by
  obtain ⟨h1, h2, h3, h4⟩ := h
  have hs := Write_sound pw.out.st h3 text
  have e1 : (pw.out.Write text).1.st = (tabwriter.Write pw.out.st text).1 := by
    show (pw.out.write pw.out.st text).1 = _
    rw [h1]
  have e2 : (pw.out.Write text).2.2 = (tabwriter.Write pw.out.st text).2.2 := by
    show (pw.out.write pw.out.st text).2.2 = _
    rw [h1]
  have hc : (pw.out.Write text).1.st.crashed = false := by
    rw [e1, hs.1.2.2.2.2.1, h4]
  refine ⟨hc, h1, h2, fun he => ⟨h1, h2, ?_, hc⟩⟩
  show (pw.out.Write text).1.st.widths = []
  rw [e1]
  exact hs.2 (by rw [← e2]; exact he)

theorem Clean_Flush {σ : Type} (pw : prefixWriter (Writer σ)) (h : Clean pw) :
    Clean pw.Flush.1 ∧ pw.Flush.2 = (tabwriter.Flush pw.out.st).2.map FlushError.fromOut := by
  obtain ⟨h1, h2, h3, h4⟩ := h
  rw [Flush_of_flusher pw _ h2]
  obtain ⟨st, hst⟩ := Flush_sound pw.out.st h3
  refine ⟨⟨h1, h2, ?_, ?_⟩, rfl⟩
  · show (tabwriter.Flush pw.out.st).1.widths = []
    rw [hst]; rfl
  · show (tabwriter.Flush pw.out.st).1.crashed = false
    rw [hst]; exact h4

/-- C15: the four writing methods return the writer alone: what the
underlying `Write` reports, an error of the sink included, is dropped, and
`Flush` hands on the error of the underlying `Flush`. On a writer that holds
no column widths of an interrupted flush (a writer as `NewPrefixWriter` makes
it and as `Flush` leaves it) `Write`, `WriteLine` and `WriteCols` raise no
panic, whatever the sink does; `WriteColsLn` raises none when its `WriteCols`
part met no error of the sink; `Flush` raises none and leaves such a writer;
and every underlying `Write` that reports no error leaves such a writer. -/
theorem writes_drop_errors_and_clean_writer_raises_none (lib : FmtLib) {σ : Type}
    (sink : GoWriter σ) (pw : prefixWriter (Writer σ)) (hclean : Clean pw)
    (level : Int) (format : Bytes) (a : List GoValue) (cols : List Bytes) :
    Clean (NewPrefixWriter sink)
    ∧ (pw.Write lib level format a).out
        = (pw.out.Write (List.replicate (2 * level.toNat) SP ++ Sprintf lib format a)).1
    ∧ (pw.WriteLine lib a).out = (pw.out.Write (doPrintln lib a)).1
    ∧ (pw.WriteCols lib level cols).out
        = (pw.out.Write (List.replicate (2 * level.toNat) SP ++ stringsJoin cols [HT])).1
    ∧ (pw.WriteColsLn lib level cols).out = ((pw.WriteCols lib level cols).out.Write [LF]).1
    ∧ (pw.Write lib level format a).out.st.crashed = false
    ∧ (pw.WriteLine lib a).out.st.crashed = false
    ∧ (pw.WriteCols lib level cols).out.st.crashed = false
    ∧ ((pw.out.Write (List.replicate (2 * level.toNat) SP ++ stringsJoin cols [HT])).2.2 = none →
        (pw.WriteColsLn lib level cols).out.st.crashed = false)
    ∧ (∀ text : Bytes, (pw.out.Write text).2.2 = none → Clean ⟨(pw.out.Write text).1⟩)
    ∧ Clean pw.Flush.1
    ∧ pw.Flush.2 = (tabwriter.Flush pw.out.st).2.map FlushError.fromOut := by
  have hW := Write_eq lib pw level format a
  have hC := WriteCols_eq lib pw level cols
  have hL : (pw.WriteLine lib a).out = (pw.out.Write (doPrintln lib a)).1 := rfl
  have hCL := WriteColsLn_eq lib pw level cols
  refine ⟨Clean_new sink, hW, hL, hC, hCL, ?_, ?_, ?_, ?_,
    fun text => (Clean_Write pw hclean text).2.2.2, (Clean_Flush pw hclean).1,
    (Clean_Flush pw hclean).2⟩
  · rw [hW]; exact (Clean_Write pw hclean _).1
  · rw [hL]; exact (Clean_Write pw hclean _).1
  · rw [hC]; exact (Clean_Write pw hclean _).1
  · intro he
    have hc2 := (Clean_Write pw hclean _).2.2.2 he
    rw [hCL, hC]
    exact (Clean_Write _ hc2 [LF]).1

theorem writes_drop_errors_and_clean_writer_raises_none_witness :
    Clean (NewPrefixWriter failingSink)
    ∧ ((NewPrefixWriter failingSink).out.Write [LF]).2.2 = some (GoError.sink 1)
    ∧ ((NewPrefixWriter failingSink).WriteLine sampleLib []).out.st.crashed = false
    ∧ (((NewPrefixWriter failingSink).Write sampleLib 0 (ascii "x") []).Flush).2
        = some (FlushError.fromOut (GoError.sink 1)) :=
  have h := writes_drop_errors_and_clean_writer_raises_none sampleLib failingSink
    (NewPrefixWriter failingSink) ⟨rfl, rfl, rfl, rfl⟩ 0 (ascii "x") [] []
  ⟨h.1, by decide, h.2.2.2.2.2.2.1, by decide⟩

/-- C15, the claim as stated fails: over a sink whose first write fails and
whose later writes succeed, the blank line after a row of two cells makes the
tabwriter flush, the flush is interrupted by the error of the sink, which is
dropped, and the next row written raises a panic in `WriteColsLn`: the column
width left over from the interrupted flush is smaller than the new cell. -/
theorem write_after_failed_sink_write_panics :
    ((NewPrefixWriter flakySink).calls sampleLib
        [Call.WriteColsLn 0 [ascii "aaaaaaaaaa", ascii "b"], Call.WriteLine []]).out.st.crashed
      = false
    ∧ ((NewPrefixWriter flakySink).calls sampleLib
        [Call.WriteColsLn 0 [ascii "aaaaaaaaaa", ascii "b"], Call.WriteLine [],
         Call.WriteColsLn 0 [ascii "ccccccccccccccccc"]]).out.st.crashed = true := by
  decide

namespace tabwriter

theorem holdsBack_append (x : Bytes) :
    ∀ (h : Bool) (y : Bytes),
      holdsBack h (x ++ y) = (holdsBack h x).bind (fun h1 => holdsBack h1 y) := by
  induction x with
  | nil => intro h y; rfl
  | cons c cs ih =>
    intro h y
    simp only [List.cons_append, holdsBack]
    split_ifs <;> first | rfl | exact ih _ _

theorem writeLoop_holdsBack {σ : Type} (text : Bytes) :
    ∀ (b : Writer σ) (pending : Bytes) (i : Nat) (h h2 : Bool), b.endChar = 0 →
      (b.lines.getLastD [] ≠ [] ↔ h = true) → holdsBack h text = some h2 →
      (writeLoop text b pending i).1.output = b.output
      ∧ (writeLoop text b pending i).1.endChar = 0
      ∧ ((writeLoop text b pending i).1.lines.getLastD [] ≠ [] ↔ h2 = true)
      ∧ (writeLoop text b pending i).2.2 = none := by
  induction text with
  | nil =>
    intro b pending i h h2 he hl hh
    simp only [holdsBack, Option.some.injEq] at hh
    subst hh
    exact ⟨rfl, he, hl, rfl⟩
  | cons ch rest ih =>
    intro b pending i h h2 he hl hh
    unfold writeLoop
    simp only [he, if_true]
    unfold holdsBack at hh
    by_cases htab : ch = HT ∨ ch = VT
    · rw [if_pos htab] at hh
      have hterm : ch = HT ∨ ch = VT ∨ ch = LF ∨ ch = FF := by
        rcases htab with h1 | h1
        · exact Or.inl h1
        · exact Or.inr (Or.inl h1)
      have hnl : ¬ (ch = LF ∨ ch = FF) := by
        rcases htab with h1 | h1 <;> rw [h1] <;> decide
      rw [if_pos hterm, if_neg hnl]
      refine ih _ _ _ true h2 he ?_ hh
      have e : (terminateCell (updateWidth (append b pending)) (ch == HT)).1.lines
          = b.lines.dropLast ++ [b.lines.getLastD []
              ++ [{ (updateWidth (append b pending)).cell with htab := (ch == HT) }]] := rfl
      rw [e, getLastD_snoc]
      simp
    · rw [if_neg htab] at hh
      by_cases hlf : ch = LF
      · rw [if_pos hlf] at hh
        cases h with
        | false => simp at hh
        | true =>
          simp only [if_true] at hh
          have hterm : ch = HT ∨ ch = VT ∨ ch = LF ∨ ch = FF := Or.inr (Or.inr (Or.inl hlf))
          have hline : ch = LF ∨ ch = FF := Or.inl hlf
          have hne : b.lines.getLastD [] ≠ [] := hl.mpr rfl
          have hnf : ¬ (ch = FF ∨
              (terminateCell (updateWidth (append b pending)) (ch == HT)).2 = 1) := by
            intro hc
            rcases hc with hc | hc
            · rw [hlf] at hc; exact absurd hc (by decide)
            · simp only [terminateCell, List.length_append, List.length_singleton] at hc
              have : (b.lines.getLastD []).length = 0 := by
                have e : (updateWidth (append b pending)).lines = b.lines := rfl
                rw [e] at hc
                omega
              exact hne (List.length_eq_zero.mp this)
          rw [if_pos hterm, if_pos hline, if_neg hnf]
          refine ih _ _ _ false h2 he ?_ hh
          have e : (addLine (terminateCell (updateWidth (append b pending)) (ch == HT)).1).lines
              = (terminateCell (updateWidth (append b pending)) (ch == HT)).1.lines ++ [[]] :=
            rfl
          rw [e, getLastD_snoc]
          simp
      · rw [if_neg hlf] at hh
        by_cases hff : ch = FF ∨ ch = Escape
        · rw [if_pos hff] at hh
          simp at hh
        · rw [if_neg hff] at hh
          have hterm : ¬ (ch = HT ∨ ch = VT ∨ ch = LF ∨ ch = FF) := by
            intro hc
            rcases hc with hc | hc | hc | hc
            · exact htab (Or.inl hc)
            · exact htab (Or.inr hc)
            · exact hlf hc
            · exact hff (Or.inl hc)
          have hesc : ¬ ch = Escape := fun hc => hff (Or.inr hc)
          rw [if_neg hterm, if_neg hesc]
          exact ih _ _ _ h h2 he hl hh

theorem Flush_fresh {σ : Type} (b : Writer σ) :
    (Flush b).1.endChar = 0 ∧ (Flush b).1.lines = [[]] := by
  unfold Flush flushNoDefers
  simp only
  cases format (maxCells _) _ 0 0 _ <;> exact ⟨rfl, rfl⟩

end tabwriter

theorem Write_holdsBack {σ : Type} (pw q : prefixWriter (Writer σ)) (text : Bytes)
    (hq : q.out = (pw.out.Write text).1) (hw : pw.out.write = tabwriter.Write) (h h2 : Bool)
    (he : pw.out.st.endChar = 0) (hl : pw.out.st.lines.getLastD [] ≠ [] ↔ h = true)
    (hh : holdsBack h text = some h2) :
    q.out.write = tabwriter.Write ∧ q.out.st.output = pw.out.st.output
    ∧ q.out.st.endChar = 0 ∧ (q.out.st.lines.getLastD [] ≠ [] ↔ h2 = true) := by
  have e : q.out.st = (tabwriter.Write pw.out.st text).1 := by
    rw [hq]
    show (pw.out.write pw.out.st text).1 = _
    rw [hw]
  have hs := writeLoop_holdsBack text pw.out.st [] 0 h h2 he hl hh
  refine ⟨by rw [hq]; exact hw, ?_, ?_, ?_⟩
  · rw [e]; exact hs.1
  · rw [e]; exact hs.2.1
  · rw [e]; exact hs.2.2.1

theorem call_holdsBack (lib : FmtLib) {σ : Type} (pw : prefixWriter (Writer σ)) (c : Call)
    (hc : c ≠ Call.Flush) (hw : pw.out.write = tabwriter.Write) (h h2 : Bool)
    (he : pw.out.st.endChar = 0) (hl : pw.out.st.lines.getLastD [] ≠ [] ↔ h = true)
    (hh : holdsBack h (written lib [c]) = some h2) :
    (pw.call lib c).out.write = tabwriter.Write
    ∧ (pw.call lib c).out.st.output = pw.out.st.output
    ∧ (pw.call lib c).out.st.endChar = 0
    ∧ ((pw.call lib c).out.st.lines.getLastD [] ≠ [] ↔ h2 = true) := by
  cases c with
  | Write level format a =>
    rw [written_Write] at hh
    exact Write_holdsBack pw _ _ (Write_eq lib pw level format a) hw h h2 he hl hh
  | WriteLine a =>
    rw [written_WriteLine] at hh
    exact Write_holdsBack pw _ _ (WriteLine_eq lib pw a) hw h h2 he hl hh
  | WriteCols level cols =>
    rw [written_WriteCols] at hh
    exact Write_holdsBack pw _ _ (WriteCols_eq lib pw level cols) hw h h2 he hl hh
  | WriteColsLn level cols =>
    rw [written_WriteColsLn, holdsBack_append] at hh
    cases h1 : holdsBack h (List.replicate (2 * level.toNat) SP ++ stringsJoin cols [HT]) with
    | none => rw [h1] at hh; simp at hh
    | some m =>
      rw [h1] at hh
      have s1 := Write_holdsBack pw (pw.WriteCols lib level cols) _
        (WriteCols_eq lib pw level cols) hw h m he hl h1
      have s2 := Write_holdsBack (pw.WriteCols lib level cols) (pw.WriteColsLn lib level cols) _
        (WriteColsLn_eq lib pw level cols) s1.1 m h2 s1.2.2.1 s1.2.2.2 hh
      exact ⟨s2.1, s2.2.1.trans s1.2.1, s2.2.2.1, s2.2.2.2⟩
  | Flush => exact absurd rfl hc

theorem calls_holdsBack (lib : FmtLib) {σ : Type} (cs : List Call) :
    ∀ (pw : prefixWriter (Writer σ)) (h h2 : Bool), Call.Flush ∉ cs →
      pw.out.write = tabwriter.Write → pw.out.st.endChar = 0 →
      (pw.out.st.lines.getLastD [] ≠ [] ↔ h = true) →
      holdsBack h (written lib cs) = some h2 →
      (pw.calls lib cs).out.st.output = pw.out.st.output := by
  induction cs with
  | nil => intro pw h h2 _ _ _ _ _; rfl
  | cons c cs ih =>
    intro pw h h2 hnf hw he hl hh
    rw [written_cons, holdsBack_append] at hh
    cases h1 : holdsBack h (written lib [c]) with
    | none => rw [h1] at hh; simp at hh
    | some m =>
      rw [h1] at hh
      have hc : c ≠ Call.Flush := fun e => hnf (by rw [e]; exact List.mem_cons_self _ _)
      have s1 := call_holdsBack lib pw c hc hw h m he hl h1
      have s2 := ih (pw.call lib c) m h2 (fun hm => hnf (List.mem_cons_of_mem _ hm))
        s1.1 s1.2.2.1 s1.2.2.2 hh
      show ((pw.call lib c).calls lib cs).out.st.output = _
      rw [s2, s1.2.1]

theorem Cfg_Write_step {σ : Type} (pw q : prefixWriter (Writer σ)) (x : Bytes)
    (hq : q.out = (pw.out.Write x).1) (hw : pw.out.write = tabwriter.Write)
    (hwid : pw.out.st.widths = []) : Cfg pw.out.st q.out.st := by
  have e : q.out.st = (tabwriter.Write pw.out.st x).1 := by
    rw [hq]
    show (pw.out.write pw.out.st x).1 = _
    rw [hw]
  rw [e]
  exact (Write_sound pw.out.st hwid x).1

theorem InvPW_widths {s0 inp : Bytes} {pw : prefixWriter (Writer Bytes)} (h : InvPW s0 inp pw) :
    pw.out.st.widths = [] := by
  obtain ⟨_, _, _, _, _, _, _, _, _, _, _, _, hwid⟩ := h
  exact hwid

theorem call_Cfg (lib : FmtLib) (s0 inp : Bytes) (pw : prefixWriter (Writer Bytes))
    (h : InvPW s0 inp pw) (c : Call) : Cfg pw.out.st (pw.call lib c).out.st := by
  cases c with
  | Write level format a =>
    exact Cfg_Write_step pw _ _ (Write_eq lib pw level format a) h.1 (InvPW_widths h)
  | WriteLine a => exact Cfg_Write_step pw _ _ (WriteLine_eq lib pw a) h.1 (InvPW_widths h)
  | WriteCols level cols =>
    exact Cfg_Write_step pw _ _ (WriteCols_eq lib pw level cols) h.1 (InvPW_widths h)
  | WriteColsLn level cols =>
    have h1 := InvPW_Write s0 inp pw h _ _ (WriteCols_eq lib pw level cols)
    exact (Cfg_Write_step pw _ _ (WriteCols_eq lib pw level cols) h.1 (InvPW_widths h)).trans
      (Cfg_Write_step (pw.WriteCols lib level cols) (pw.WriteColsLn lib level cols) _
        (WriteColsLn_eq lib pw level cols) h1.1 (InvPW_widths h1))
  | Flush =>
    show Cfg pw.out.st pw.Flush.1.out.st
    rw [Flush_of_flusher pw _ h.2.1]
    obtain ⟨st, hst⟩ := Flush_sound pw.out.st (InvPW_widths h)
    show Cfg pw.out.st (tabwriter.Flush pw.out.st).1
    rw [hst]
    exact ⟨rfl, rfl, rfl, rfl, rfl, rfl, rfl⟩

theorem calls_Cfg (lib : FmtLib) (s0 : Bytes) (cs : List Call) :
    ∀ (inp : Bytes) (pw : prefixWriter (Writer Bytes)), InvPW s0 inp pw →
      Cfg pw.out.st (pw.calls lib cs).out.st := by
  induction cs with
  | nil => intro inp pw _; exact Cfg.same _
  | cons c cs ih =>
    intro inp pw h
    exact (call_Cfg lib s0 inp pw h c).trans (ih _ _ (InvPW_call lib s0 inp pw h c))

/-- After any calls and a `Flush`, the writer over a recording sink is as new,
over the sink as it is then. -/
theorem Flush_as_new (lib : FmtLib) (s0 : Bytes) (before : List Call) :
    ∃ s1, ((NewPrefixWriter (memSink s0)).calls lib before).Flush.1
      = NewPrefixWriter (memSink s1) := by
  have hI := InvPW_calls lib s0 before [] _ (InvPW_new s0)
  have hC := calls_Cfg lib s0 before [] _ (InvPW_new s0)
  generalize (NewPrefixWriter (memSink s0)).calls lib before = p0 at hI hC
  obtain ⟨st, hst⟩ := Flush_sound p0.out.st (InvPW_widths hI)
  refine ⟨st, ?_⟩
  rw [Flush_of_flusher p0 _ hI.2.1]
  apply prefixWriter_ext
  show ({ p0.out with st := (tabwriter.Flush p0.out.st).1 } : GoWriter (Writer Bytes)) = _
  rw [hst]
  obtain ⟨h1, h2, _⟩ := hI
  obtain ⟨c1, c2, c3, c4, c5, c6, c7⟩ := hC
  obtain ⟨⟨b, w, f⟩⟩ := p0
  obtain ⟨o, m, t, p, pc, _, _, _, _, _, _, cr⟩ := b
  obtain ⟨os, ow, ofl⟩ := o
  simp only at h1 h2 c1 c2 c3 c4 c5 c6 c7
  subst h1 h2 c1 c2 c3 c4 c5 c6 c7
  rfl


/-- C11, the claim as stated fails: a line without tab, ended by `WriteLine`,
reaches the sink at once, with no `Flush`. -/
theorem line_without_tab_reaches_sink_before_Flush :
    ((NewPrefixWriter (memSink [])).calls sampleLib
        [Call.Write 0 (ascii "Name: kn") [], Call.WriteLine []]).out.st.output.st
      = ascii "Name: kn\n" := by
  decide

/-- C11: a writer made by `NewPrefixWriter`, as made or as a `Flush` leaves
it, keeps what it is given by `Write`, `WriteLine`, `WriteCols` and
`WriteColsLn` to itself, and the sink stays as it is, as long as the text has
no form feed, no byte 0xff, and no newline ending a line without tab. Rows of
the same number (at least two) of plain cells written by `WriteColsLn` are
such a text, and `Flush` then delivers them with every column as wide as the
widest of its cells in all the rows written since the writer was made or
last flushed, plus the padding. -/
theorem held_back_until_Flush (lib : FmtLib) {σ : Type} (sink : GoWriter σ)
    (before cs : List Call) (hnf : Call.Flush ∉ cs) (h2 : Bool)
    (hheld : holdsBack false (written lib cs) = some h2)
    (s0 : Bytes) (earlier : List Call) (n K : Nat) (hK : 2 ≤ K) (rows : List (List Bytes))
    (hne : rows ≠ []) (hrows : ∀ r ∈ rows, r.length = K ∧ ∀ c ∈ r, plain c) :
    ((NewPrefixWriter sink).calls lib cs).out.st.output = sink
    ∧ (((NewPrefixWriter sink).calls lib before).Flush.1.calls lib cs).out.st.output
        = ((NewPrefixWriter sink).calls lib before).Flush.1.out.st.output
    ∧ ((NewPrefixWriter (memSink s0)).calls lib
          (rows.map (Call.WriteColsLn (n : Int)))).out.st.output.st = s0
    ∧ ((NewPrefixWriter (memSink s0)).calls lib
          (rows.map (Call.WriteColsLn (n : Int)))).Flush.1.out.st.output.st
        = s0 ++ renderTable (columnWidths K (rows.map (rowCells n))) (rows.map (rowCells n))
    ∧ ((((NewPrefixWriter (memSink s0)).calls lib earlier).Flush.1.calls lib
          (rows.map (Call.WriteColsLn (n : Int)))).Flush.1.out.st.output.st
        = ((NewPrefixWriter (memSink s0)).calls lib earlier).Flush.1.out.st.output.st
          ++ renderTable (columnWidths K (rows.map (rowCells n))) (rows.map (rowCells n))) := by
  refine ⟨?_, ?_, ?_, ?_, ?_⟩
  · exact calls_holdsBack lib cs (NewPrefixWriter sink) false h2 hnf rfl rfl (by simp
      [NewPrefixWriter, tabwriter.asWriter, tabwriter.NewWriter, tabwriter.reset,
        tabwriter.addLine]) hheld
  · have hm := calls_methods lib before (NewPrefixWriter sink)
    have hfl : ((NewPrefixWriter sink).calls lib before).out.flush = some tabwriter.Flush :=
      hm.2.trans rfl
    have hfr := Flush_fresh ((NewPrefixWriter sink).calls lib before).out.st
    rw [Flush_of_flusher _ _ hfl]
    exact calls_holdsBack lib cs _ false h2 hnf (hm.1.trans rfl) hfr.1
      (by
        show (tabwriter.Flush ((NewPrefixWriter sink).calls lib before).out.st).1.lines.getLastD []
          ≠ [] ↔ false = true
        rw [hfr.2]
        simp) hheld
  · obtain ⟨K2, rfl⟩ : ∃ e, K = e + 2 := ⟨K - 2, by omega⟩
    rw [NewPrefixWriter_rowsState, calls_rowsState lib (memSink s0) n K2 rows [] hrows]
    rfl
  · exact (table_flush_wide lib n K hK rows hne hrows s0).2
  · obtain ⟨s1, hs1⟩ := Flush_as_new lib s0 earlier
    rw [hs1]
    exact (table_flush_wide lib n K hK rows hne hrows s1).2

theorem held_back_until_Flush_witness :
    holdsBack false (written sampleLib
        [Call.WriteColsLn 1 [ascii "a", ascii "b"], Call.WriteCols 0 [ascii "c", ascii "d"]])
      = some true
    ∧ ((NewPrefixWriter (memSink (ascii "x"))).calls sampleLib
        [Call.WriteColsLn 1 [ascii "a", ascii "b"],
         Call.WriteCols 0 [ascii "c", ascii "d"]]).out.st.output = memSink (ascii "x")
    ∧ ((NewPrefixWriter (memSink [])).calls sampleLib
          ([[ascii "a", ascii "bb"], [ascii "ccc", ascii "d"]].map
            (Call.WriteColsLn ((1 : Nat) : Int)))).Flush.1.out.st.output.st
        = ascii "  a    bb\n  ccc  d\n" :=
  have h := held_back_until_Flush sampleLib (memSink (ascii "x")) []
    [Call.WriteColsLn 1 [ascii "a", ascii "b"], Call.WriteCols 0 [ascii "c", ascii "d"]]
    (by simp) true (by decide) [] [] 1 2 (by decide)
    [[ascii "a", ascii "bb"], [ascii "ccc", ascii "d"]] (by decide)
    (by simp [plain, ascii, tabwriter.Escape])
  ⟨by decide, h.1, by rw [h.2.2.2.1]; decide⟩

namespace tabwriter

theorem cellsOut_congr {σ τ : Type} (b1 : Writer σ) (b2 : Writer τ) (hb : b1.buf = b2.buf)
    (hw : b1.widths = b2.widths) (hp : b1.padchar = b2.padchar) (cells : List cell) :
    ∀ (j pos : Nat), cellsOut b1 cells j pos = cellsOut b2 cells j pos := by
  induction cells with
  | nil => intro j pos; rfl
  | cons c cs ih =>
    intro j pos
    simp only [cellsOut, ih, hb, hw, hp]

theorem linesOut_congr {σ τ : Type} (b1 : Writer σ) (b2 : Writer τ) (hb : b1.buf = b2.buf)
    (hw : b1.widths = b2.widths) (hp : b1.padchar = b2.padchar) (hl : b1.lines = b2.lines)
    (hc : b1.cell = b2.cell) (n : Nat) :
    ∀ (i pos : Nat), linesOut b1 n i pos = linesOut b2 n i pos := by
  induction n with
  | zero => intro i pos; rfl
  | succ m ih =>
    intro i pos
    simp only [linesOut, ih, hb, hl, hc, cellsOut_congr b1 b2 hb hw hp]

theorem linesOut_succ {σ : Type} (b : Writer σ) (n i pos : Nat) :
    linesOut b (n + 1) i pos
      = linesOut b 1 i pos ++ linesOut b n (i + 1) (linesEnd b 1 i pos) := by
  simp only [linesOut, linesEnd]
  split_ifs <;> simp

theorem linesEnd_succ {σ : Type} (b : Writer σ) (n i pos : Nat) :
    linesEnd b (n + 1) i pos = linesEnd b n (i + 1) (linesEnd b 1 i pos) := by
  simp only [linesEnd]
  split_ifs <;> rfl

theorem Via_congr {σ τ : Type} (b1 : Writer σ) (b2 : Writer τ) (hb : b1.buf = b2.buf)
    (hp : b1.padchar = b2.padchar) (hl : b1.lines = b2.lines) (hc : b1.cell = b2.cell)
    (base : List Int) (n : Nat) :
    ∀ (i pos : Nat) (out : Bytes), Via b1 base n i pos out → Via b2 base n i pos out := by
  induction n with
  | zero => intro i pos out h; exact h
  | succ m ih =>
    intro i pos out h
    obtain ⟨ext, rest, h1, h2⟩ := h
    refine ⟨ext, rest, ?_, ?_⟩
    · rw [h1, linesOut_congr { b1 with widths := base ++ ext } { b2 with widths := base ++ ext }
        hb rfl hp hl hc]
    · rw [← linesEnd_congr b1 b2 hl hc]
      exact ih _ _ _ h2

theorem Via_of_linesOut (b : Writer Bytes) (n : Nat) :
    ∀ (i pos : Nat), Via b b.widths n i pos (linesOut b n i pos) := by
  induction n with
  | zero => intro i pos; rfl
  | succ m ih =>
    intro i pos
    refine ⟨[], linesOut b m (i + 1) (linesEnd b 1 i pos), ?_, ih _ _⟩
    rw [linesOut_succ, List.append_nil, widths_eta b _ rfl]

theorem Via_add (b : Writer Bytes) (base : List Int) (m n : Nat) :
    ∀ (i pos : Nat) (o1 o2 : Bytes), Via b base m i pos o1 →
      Via b base n (i + m) (linesEnd b m i pos) o2 → Via b base (m + n) i pos (o1 ++ o2) := by
  induction m with
  | zero =>
    intro i pos o1 o2 h1 h2
    have e : o1 = [] := h1
    rw [e, Nat.zero_add]
    exact h2
  | succ k ih =>
    intro i pos o1 o2 h1 h2
    obtain ⟨ext, rest, e1, hr⟩ := h1
    have e : k + 1 + n = (k + n) + 1 := by omega
    rw [e]
    refine ⟨ext, rest ++ o2, by rw [e1, List.append_assoc], ?_⟩
    apply ih _ _ _ _ hr
    have e2 : i + 1 + k = i + (k + 1) := by omega
    rw [e2, ← linesEnd_succ]
    exact h2

theorem Via_push (b : Writer Bytes) (base : List Int) (w : Int) (n : Nat) :
    ∀ (i pos : Nat) (out : Bytes), Via b (base ++ [w]) n i pos out → Via b base n i pos out := by
  induction n with
  | zero => intro i pos out h; exact h
  | succ m ih =>
    intro i pos out h
    obtain ⟨ext, rest, h1, h2⟩ := h
    refine ⟨w :: ext, rest, ?_, ih _ _ _ h2⟩
    rw [h1]
    simp


theorem formatLoop_via (nested : Writer Bytes → Nat → Nat → Nat → Run Bytes Nat)
    (column : Nat)
    (hnested : ∀ (b : Writer Bytes) (pos l0 l1 : Nat), Recording b →
      b.widths.length = column + 1 → l0 ≤ l1 →
      (∀ k, l0 ≤ k → k < l1 → cellsFit b.widths (b.lines.getD k []) 0) →
      FormatsVia (nested b pos l0 l1) b pos l0 l1)
    (fuel : Nat) :
    ∀ (b : Writer Bytes) (pos line0 this line1 : Nat), Recording b →
      b.widths.length = column → line0 ≤ this → line0 ≤ line1 →
      1 ≤ fuel → line1 + 1 ≤ this + fuel →
      (∀ k, line0 ≤ k → k < line1 → cellsFit b.widths (b.lines.getD k []) 0) →
      FormatsVia (formatLoop nested column fuel b pos line0 this line1) b pos line0 line1 := by
  induction fuel with
  | zero => intro b pos line0 this line1 _ _ _ _ h; omega
  | succ f ih =>
    intro b pos line0 this line1 hw hcol h0 h01 _ hfuel HF
    unfold formatLoop
    by_cases hthis : this < line1
    · simp only [hthis, if_true]
      by_cases hskip : column + 1 ≥ (b.lines.getD this []).length
      · simp only [hskip, if_true]
        exact ih b pos line0 (this + 1) line1 hw hcol (by omega) h01 (by omega) (by omega) HF
      · simp only [hskip, if_false]
        rw [writeLines_rec b hw pos line0 this h0 (fun k hk1 hk2 => HF k hk1 (by omega))]
        simp only [Run.andThen]
        have hV1 := Via_of_linesOut b (this - line0) line0 pos
        generalize hout1 : linesOut b (this - line0) line0 pos = out1 at hV1 ⊢
        generalize hpos1 : linesEnd b (this - line0) line0 pos = pos1
        have hblk := columnBlock_spec (emit b out1) column (line1 - this) this line1
          (emit b out1).minwidth
        have hadv : this < (columnBlock (emit b out1) column (line1 - this) this line1
            (emit b out1).minwidth).2 := by
          have e : line1 - this = (line1 - this - 1) + 1 := by omega
          rw [e]
          exact columnBlock_advances (emit b out1) column _ this line1 _ hthis (by
            show column + 1 < (b.lines.getD this []).length
            omega)
        have hbw := (columnBlock_width (emit b out1) column (line1 - this) this line1
          (emit b out1).minwidth).2
        generalize columnBlock (emit b out1) column (line1 - this) this line1
          (emit b out1).minwidth = blk at hblk hadv hbw ⊢
        obtain ⟨_, hb2, hb3⟩ := hblk
        have hb2 := hb2 (by omega)
        have hbw2 : ∀ k, this ≤ k → k < blk.2 →
            ((b.lines.getD k []).getD column {}).width + (b.padding : Int) ≤ blk.1 := hbw
        obtain ⟨out2, hr2, hV2⟩ := hnested
          { emit b out1 with widths := (emit b out1).widths ++ [blk.1] } pos1 this blk.2
          hw (by simp [emit, hcol]) (by omega)
          (fun k hk1 hk2 => cellsFit_push b.widths blk.1 (b.lines.getD k []) 0
            (HF k (by omega) (by omega))
            (fun p _ hjp => by
              have e : p = column := by omega
              have := hbw2 k hk1 hk2
              rw [e]
              omega))
        rw [hr2]
        simp only [Run.andThen]
        rw [push_pop_widths]
        obtain ⟨out3, hr3, hV3⟩ := ih (emit b (out1 ++ out2))
          (linesEnd { emit b out1 with widths := (emit b out1).widths ++ [blk.1] }
            (blk.2 - this) this pos1)
          blk.2 (blk.2 + 1) line1 hw hcol (by omega) hb2 (by omega) (by omega)
          (fun k hk1 hk2 => HF k (by omega) hk2)
        rw [hr3]
        have hV2b : Via b b.widths (blk.2 - this) this pos1 out2 :=
          Via_push b b.widths blk.1 _ _ _ _
            (Via_congr { emit b out1 with widths := (emit b out1).widths ++ [blk.1] } b
              rfl rfl rfl rfl _ _ _ _ _ hV2)
        have hV3b : Via b b.widths (line1 - blk.2) blk.2
            (linesEnd b (blk.2 - this) this pos1) out3 := by
          have := Via_congr (emit b (out1 ++ out2)) b rfl rfl rfl rfl _ _ _ _ _ hV3
          rw [linesEnd_congr { emit b out1 with widths := (emit b out1).widths ++ [blk.1] } b
            rfl rfl] at this
          exact this
        have e2 : line0 + (this - line0) = this := by omega
        have e3 : this + (blk.2 - this) = blk.2 := by omega
        refine ⟨out1 ++ out2 ++ out3, ?_, ?_⟩
        · rw [emit_emit]
          have e1 : line1 - line0 = (this - line0) + ((blk.2 - this) + (line1 - blk.2)) := by
            omega
          rw [e1, linesEnd_add, linesEnd_add, hpos1]
          rw [e2, e3]
          rw [linesEnd_congr (emit b (out1 ++ out2)) b rfl rfl,
            linesEnd_congr { emit b out1 with widths := (emit b out1).widths ++ [blk.1] } b rfl rfl]
        · have e1 : line1 - line0 = (this - line0) + ((blk.2 - this) + (line1 - blk.2)) := by
            omega
          rw [e1, List.append_assoc]
          apply Via_add b b.widths _ _ _ _ _ _ hV1
          rw [hpos1, e2]
          apply Via_add b b.widths _ _ _ _ _ _ hV2b
          rw [e3]
          exact hV3b
    · simp only [hthis, if_false]
      rw [writeLines_rec b hw pos line0 line1 h01 (fun k hk1 hk2 => HF k hk1 (by omega))]
      exact ⟨_, rfl, Via_of_linesOut b _ _ _⟩

theorem format_via (depth : Nat) :
    ∀ (b : Writer Bytes) (pos line0 line1 : Nat), Recording b → line0 ≤ line1 →
      (∀ k, line0 ≤ k → k < line1 → cellsFit b.widths (b.lines.getD k []) 0) →
      FormatsVia (format depth b pos line0 line1) b pos line0 line1 := by
  induction depth with
  | zero =>
    intro b pos line0 line1 hw h01 HF
    unfold format
    rw [writeLines_rec b hw pos line0 line1 h01 (fun k hk1 hk2 => HF k hk1 (by omega))]
    exact ⟨_, rfl, Via_of_linesOut b _ _ _⟩
  | succ d ih =>
    intro b pos line0 line1 hw h01 HF
    unfold format
    exact formatLoop_via (format d) b.widths.length
      (fun b2 pos2 l0 l1 hw2 _ hl hF2 => ih b2 pos2 l0 l1 hw2 hl hF2)
      (line1 - line0 + 1) b pos line0 line0 line1 hw rfl (le_refl _) h01 (by omega) (by omega) HF

end tabwriter

namespace tabwriter

theorem IsRows.rowLine {b : Writer Bytes} {rows : List (List Bytes)}
    (h : IsRows b rows) (i : Nat) (hi : i < rows.length) :
    b.lines.getD i [] = cellsOf (rows.getD i []) := by
  rw [h.lines, List.getD_eq_getElem?_getD, List.getD_eq_getElem?_getD,
    List.getElem?_append_left (by simpa using hi)]
  simp [List.getElem?_eq_getElem hi]

theorem IsRows.emptyLine {b : Writer Bytes} {rows : List (List Bytes)}
    (h : IsRows b rows) : b.lines.getD rows.length [] = [] := by
  rw [h.lines, List.getD_eq_getElem?_getD, List.getElem?_append_right (by simp)]
  simp

theorem IsRows.rowTwo {b : Writer Bytes} {rows : List (List Bytes)}
    (h : IsRows b rows) (i : Nat) (hi : i < rows.length) :
    2 ≤ (rows.getD i []).length := by
  apply h.two
  rw [List.getD_eq_getElem?_getD, List.getElem?_eq_getElem hi]
  exact List.getElem_mem hi

theorem IsRows.lineTwo {b : Writer Bytes} {rows : List (List Bytes)}
    (h : IsRows b rows) (i : Nat) (hi : i < rows.length) :
    2 ≤ (b.lines.getD i []).length := by
  rw [h.rowLine i hi, cellsOf_length]
  exact h.rowTwo i hi

theorem IsRows.lineCount {b : Writer Bytes} {rows : List (List Bytes)}
    (h : IsRows b rows) : b.lines.length = rows.length + 1 := by
  rw [h.lines]; simp

theorem IsRows.of_fields {b b2 : Writer Bytes} {rows : List (List Bytes)}
    (h : IsRows b rows) (hl : b2.lines = b.lines) (hb : b2.buf = b.buf)
    (hc : b2.cell = b.cell) (hp : b2.padding = b.padding) (hm : b2.minwidth = b.minwidth)
    (hpc : b2.padchar = b.padchar) (ho : b2.output.write = b.output.write) :
    IsRows b2 rows :=
  ⟨by rw [hl]; exact h.lines, by rw [hb]; exact h.buf, by rw [hc]; exact h.cell,
   by rw [hp]; exact h.pad, by rw [hm]; exact h.minw, by rw [hpc]; exact h.padchar,
   by show b2.output.write = _; rw [ho]; exact h.recording, h.two⟩

theorem columnBlock_rows {b : Writer Bytes} {rows : List (List Bytes)}
    (h : IsRows b rows) (line1 : Nat) (hl : rows.length ≤ line1) (n : Nat) :
    ∀ (this : Nat) (w : Int), 0 ≤ w → this ≤ rows.length → rows.length - this ≤ n →
      columnBlock b 0 n this line1 w
        = (max w (((rows.drop this).map
              (fun r => (runeCount (r.getD 0 []) : Int) + 2)).foldr max 0), rows.length) := by
  induction n with
  | zero =>
    intro this w hw h1 h2
    have : this = rows.length := by omega
    subst this
    simp [columnBlock, hw]
  | succ m ih =>
    intro this w hw h1 h2
    unfold columnBlock
    by_cases hthis : this = rows.length
    · subst hthis
      simp only [h.emptyLine, List.length_nil]
      simp [hw]
    · have hlt : this < rows.length := by omega
      have hlt1 : this < line1 := by omega
      have hlen := h.lineTwo this hlt
      have hns : ¬ 0 + 1 ≥ (b.lines.getD this []).length := by omega
      simp only [hlt1, if_true, hns, if_false]
      have hrl := h.rowTwo this hlt
      have hwid : ((b.lines.getD this []).getD 0 {}).width
          = (runeCount ((rows.getD this []).getD 0 []) : Int) := by
        rw [h.rowLine this hlt]
        exact cellsOf_getD_width _ 0 (by omega)
      rw [hwid, h.pad]
      rw [ih (this + 1) _ (by split_ifs <;> omega) (by omega) (by omega)]
      have hd : rows.drop this = rows.getD this [] :: rows.drop (this + 1) := by
        rw [List.drop_eq_getElem_cons hlt, List.getD_eq_getElem?_getD,
          List.getElem?_eq_getElem hlt]
        rfl
      rw [hd]
      simp only [List.map_cons, List.foldr_cons, Prod.mk.injEq, and_true]
      rw [← max_assoc]
      split_ifs with hgt
      · push_cast at hgt ⊢
        rw [max_eq_right (le_of_lt hgt)]
      · push_cast at hgt ⊢
        rw [max_eq_left (not_lt.mp hgt)]

theorem writeLines_lastRow {b : Writer Bytes} {rows : List (List Bytes)}
    (h : IsRows b rows) (pos : Nat) :
    writeLines b pos rows.length (rows.length + 1) = .ok pos b := by
  rw [writeLines_rec b h.recording pos _ _ (by omega) (fun k h1 h2 => by
    have e : k = rows.length := by omega
    rw [e, h.emptyLine]
    trivial)]
  have e : rows.length + 1 - rows.length = 1 := by omega
  rw [e]
  have hl : b.lines.getD rows.length [] = [] := h.emptyLine
  have hlen : rows.length + 1 = b.lines.length := h.lineCount.symm
  simp only [linesOut, linesEnd, hl, hlen, if_true, h.cell, cellsOut, cellsSize, List.map_nil,
    List.sum_nil, List.take_zero, List.append_nil, Nat.add_zero, emit_nil]

/-- The loop of `format` at column 0 on rows of at least two cells: the block
is all the rows, so the loop is the nested call on all rows with the width of
the first column pushed. -/
theorem formatLoop_rows {b : Writer Bytes} {rows : List (List Bytes)}
    (h : IsRows b rows) (hL : 1 ≤ rows.length)
    (nested : Writer Bytes → Nat → Nat → Nat → Run Bytes Nat) (pos p2 : Nat) (X : Bytes)
    (hn : nested { b with widths := b.widths ++ [colWidth rows 0] } pos 0 rows.length
        = .ok p2 (emit { b with widths := b.widths ++ [colWidth rows 0] } X))
    (fuel : Nat) :
    formatLoop nested 0 (fuel + 2) b pos 0 0 (rows.length + 1) = .ok p2 (emit b X) := by
  have hlt : 0 < rows.length + 1 := by omega
  have hns : ¬ 0 + 1 ≥ (b.lines.getD 0 []).length := by
    have := h.lineTwo 0 (by omega)
    omega
  rw [formatLoop]
  simp only [hlt, if_true, hns, if_false]
  rw [writeLines_empty b h.recording]
  simp only [Run.andThen]
  have hblk : columnBlock b 0 (rows.length + 1 - 0) 0 (rows.length + 1) b.minwidth
      = (colWidth rows 0, rows.length) := by
    rw [columnBlock_rows h (rows.length + 1) (by omega) (rows.length + 1 - 0) 0 b.minwidth
      (by rw [h.minw]; exact le_refl _) (Nat.zero_le _) (by omega)]
    rw [h.minw]
    simp only [List.drop_zero, Nat.cast_zero, Prod.mk.injEq, and_true]
    exact max_eq_right (colWidth_nonneg rows 0)
  rw [hblk]
  simp only
  rw [hn]
  simp only [Run.andThen]
  have hpop : { emit { b with widths := b.widths ++ [colWidth rows 0] } X with
      widths := (emit { b with widths := b.widths ++ [colWidth rows 0] } X).widths.dropLast }
      = emit b X := by
    simp [emit]
  rw [hpop, formatLoop]
  have hge : ¬ rows.length + 1 < rows.length + 1 := by omega
  simp only [hge, if_false]
  have hT : IsRows (emit b X) rows := h.of_fields rfl rfl rfl rfl rfl rfl rfl
  rw [writeLines_lastRow hT]

end tabwriter

namespace tabwriter

theorem Via_rows {b : Writer Bytes} {rows : List (List Bytes)} (h : IsRows b rows)
    (base : List Int) (rs : List (List Bytes)) :
    ∀ (i pos : Nat) (out : Bytes), rows.drop i = rs →
      b.buf.drop pos = (rs.map List.flatten).flatten →
      Via b base rs.length i pos out → RowsVia base rs out := by
  induction rs with
  | nil => intro i pos out _ _ hv; exact hv
  | cons r rs ih =>
    intro i pos out hd hb hv
    have hi : i < rows.length := by
      by_contra hcon
      rw [List.drop_eq_nil_of_le (by omega)] at hd
      exact absurd hd (by simp)
    have hr : rows.getD i [] = r := by
      rw [List.drop_eq_getElem_cons hi] at hd
      simp only [List.cons.injEq] at hd
      simp [List.getD_eq_getElem?_getD, List.getElem?_eq_getElem hi, hd.1]
    have hd2 : rows.drop (i + 1) = rs := by
      rw [List.drop_eq_getElem_cons hi] at hd
      simp only [List.cons.injEq] at hd
      exact hd.2
    simp only [List.map_cons, List.flatten_cons] at hb
    obtain ⟨ext, rest, h1, h2⟩ := hv
    obtain ⟨c1, c2⟩ := cellsOut_cellsOf { b with widths := base ++ ext } h.padchar r 0 pos _ hb
    have hb2 : b.buf.drop (pos + cellsSize (cellsOf r)) = (rs.map List.flatten).flatten := by
      rw [← List.drop_drop, hb, c2, List.drop_left']; rfl
    have hne : ¬ i + 1 = b.lines.length := by rw [h.lineCount]; omega
    have hne2 : ¬ i + 1 = ({ b with widths := base ++ ext } : Writer Bytes).lines.length := hne
    have hline : ({ b with widths := base ++ ext } : Writer Bytes).lines.getD i []
        = cellsOf r := by
      show b.lines.getD i [] = _
      rw [h.rowLine i hi, hr]
    have hend : linesEnd b 1 i pos = pos + cellsSize (cellsOf r) := by
      simp only [linesEnd, hne, if_false, h.rowLine i hi, hr]
    rw [hend] at h2
    refine ⟨ext, rest, ?_, ih (i + 1) _ rest hd2 hb2 h2⟩
    rw [h1]
    simp only [linesOut, hne2, if_false, hline, c1, List.append_nil]

theorem colWidth_ge (rows : List (List Bytes)) (r : List Bytes) (hr : r ∈ rows) (j : Nat) :
    (runeCount (r.getD j []) : Int) + 2 ≤ colWidth rows j := by
  unfold colWidth
  apply le_foldr_max
  exact List.mem_map.mpr ⟨r, hr, rfl⟩

theorem IsRows_rowsState (out : GoWriter Bytes) (rows : List (List Bytes))
    (ho : out.write = fun s p => (s ++ p, (p.length : Int), none))
    (htwo : ∀ r ∈ rows, 2 ≤ r.length) : IsRows (rowsState out rows []) rows :=
  ⟨by simp [rowsState], by simp [rowsState], rfl, rfl, rfl, rfl, ho, htwo⟩

/-- Flushing rows of at least two cells each delivers one line per row, the
first cell of every row padded to the width of the first column. -/
theorem flushNoDefers_rows (out : GoWriter Bytes) (rows : List (List Bytes))
    (ho : out.write = fun s p => (s ++ p, (p.length : Int), none))
    (htwo : ∀ r ∈ rows, 2 ≤ r.length) (hne : rows ≠ []) :
    ∃ X, flushNoDefers (rowsState out rows [])
        = .ok () (reset (emit (rowsState out rows []) X))
      ∧ RowsVia [colWidth rows 0] rows X := by
  have hT := IsRows_rowsState out rows ho htwo
  have hL : 1 ≤ rows.length := List.length_pos.mpr hne
  obtain ⟨d, hd⟩ : ∃ d, maxCells (rowsState out rows []).lines = d + 1 := by
    refine ⟨maxCells (rowsState out rows []).lines - 1, ?_⟩
    have h2 : 2 ≤ maxCells (rowsState out rows []).lines := by
      rw [hT.lines]
      unfold maxCells
      cases rows with
      | nil => exact absurd rfl hne
      | cons r rs =>
        have := htwo r (by simp)
        simp only [List.map_cons, List.cons_append, List.foldr_cons, cellsOf_length]
        omega
    omega
  have hTB : IsRows { rowsState out rows [] with
      widths := (rowsState out rows []).widths ++ [colWidth rows 0] } rows :=
    hT.of_fields rfl rfl rfl rfl rfl rfl rfl
  obtain ⟨X, hr, hV⟩ := format_via d { rowsState out rows [] with
      widths := (rowsState out rows []).widths ++ [colWidth rows 0] } 0 0 rows.length
    hTB.recording (Nat.zero_le _) (by
      intro k _ hk
      rw [hTB.rowLine k hk]
      apply cellsFit_of_getD
      intro p hp hjp
      have hp0 : p = 0 := by
        have : ([] ++ [colWidth rows 0] : List Int).length = 1 := rfl
        have hjp2 : 0 + p < ([] ++ [colWidth rows 0] : List Int).length := hjp
        omega
      subst hp0
      rw [cellsOf_length] at hp
      rw [cellsOf_getD_width _ 0 hp]
      have hmem : rows.getD k [] ∈ rows := by
        rw [List.getD_eq_getElem?_getD, List.getElem?_eq_getElem hk]
        exact List.getElem_mem hk
      have := colWidth_ge rows _ hmem 0
      show _ ≤ ([] ++ [colWidth rows 0] : List Int).getD (0 + 0) 0
      simp only [List.nil_append, Nat.add_zero, List.getD_cons_zero]
      omega)
  refine ⟨X, ?_, ?_⟩
  · unfold flushNoDefers
    have hc : ¬ (rowsState out rows []).cell.size > 0 := by simp [rowsState]
    simp only [hc, if_false]
    rw [hd, format]
    have e2 : (rowsState out rows []).lines.length = rows.length + 1 := hT.lineCount
    have e : rows.length + 1 - 0 + 1 = rows.length + 2 := by omega
    have hw0 : (rowsState out rows []).widths.length = 0 := rfl
    rw [e2, e, hw0, formatLoop_rows hT hL (format d) 0 _ X hr rows.length]
    rfl
  · have hV2 : Via { rowsState out rows [] with
        widths := (rowsState out rows []).widths ++ [colWidth rows 0] } [colWidth rows 0]
        rows.length 0 0 X := by
      rw [Nat.sub_zero] at hV
      exact hV
    exact Via_rows hTB _ rows 0 0 X rfl (by simp [rowsState]) hV2

end tabwriter

theorem calls_rowsState_levels (lib : FmtLib) (out : GoWriter Bytes)
    (more : List (Nat × List Bytes)) :
    ∀ (rows : List (List Bytes)), (∀ p ∈ more, 2 ≤ p.2.length ∧ ∀ v ∈ p.2, plain v) →
      (prefixWriter.mk (asWriter (rowsState out rows []))).calls lib
          (more.map (fun p => Call.WriteColsLn (p.1 : Int) p.2))
        = prefixWriter.mk
            (asWriter (rowsState out (rows ++ more.map (fun p => rowCells p.1 p.2)) [])) := by
  induction more with
  | nil => intro rows _; simp [prefixWriter.calls]
  | cons q rs ih =>
    intro rows h
    obtain ⟨hl, hp⟩ := h q (by simp)
    obtain ⟨n, r⟩ := q
    match r, hl, hp with
    | c :: d :: cs, _, hp =>
      simp only [List.map_cons, prefixWriter.calls, List.foldl_cons, prefixWriter.call]
      rw [WriteColsLn_rowsState lib out rows n c d cs hp]
      have := ih (rows ++ [rowCells n (c :: d :: cs)]) (fun r hr => h r (by simp [hr]))
      simp only [prefixWriter.calls] at this
      rw [this]
      simp

theorem renderCells_no_LF (ws : List Int) (cells : List Bytes) (hp : ∀ v ∈ cells, plain v) :
    ∀ j, LF ∉ renderCells ws j cells := by
  induction cells with
  | nil => intro j; simp [renderCells]
  | cons t ts ih =>
    intro j
    have ht := hp t (by simp)
    have hts := ih (fun v hv => hp v (by simp [hv])) (j + 1)
    simp only [renderCells, List.mem_append, not_or]
    refine ⟨⟨fun hm => (ht LF hm).2.2.1 rfl, ?_⟩, hts⟩
    split_ifs
    · intro hm
      have := List.eq_of_mem_replicate hm
      exact absurd this (by decide)
    · simp

theorem runeCount_padded (f : Bytes) (W : Int) (h : (runeCount f : Int) + 1 ≤ W) :
    (runeCount (f ++ List.replicate (W - (runeCount f : Int)).toNat SP) : Int) = W := by
  have := runeCount_renderCells [W] [f] 0 [] (by simp) (fun p hp => by
    have hp0 : p = 0 := by simpa using hp
    subst hp0
    simpa using h)
  simpa [renderCells, runeCount_nil] using this

theorem rows_flush_two (lib : FmtLib) (n1 n2 : Nat) (r1 r2 : List Bytes)
    (h1 : 2 ≤ r1.length ∧ ∀ v ∈ r1, plain v) (h2 : 2 ≤ r2.length ∧ ∀ v ∈ r2, plain v)
    (s0 : Bytes) :
    ∃ e1 e2 : List Int,
      ((NewPrefixWriter (memSink s0)).calls lib
          [Call.WriteColsLn (n1 : Int) r1, Call.WriteColsLn (n2 : Int) r2]).Flush.2 = none
      ∧ ((NewPrefixWriter (memSink s0)).calls lib
          [Call.WriteColsLn (n1 : Int) r1, Call.WriteColsLn (n2 : Int) r2]).Flush.1.out.st.output.st
        = s0 ++ (renderCells (colWidth [rowCells n1 r1, rowCells n2 r2] 0 :: e1) 0 (rowCells n1 r1)
            ++ [LF])
          ++ (renderCells (colWidth [rowCells n1 r1, rowCells n2 r2] 0 :: e2) 0 (rowCells n2 r2)
            ++ [LF]) := by
  have hc := calls_rowsState_levels lib (memSink s0) [(n1, r1), (n2, r2)] []
    (fun p hp => by
      rcases List.mem_cons.mp hp with h | h
      · rw [h]; exact h1
      · rw [List.mem_singleton.mp h]; exact h2)
  simp only [List.map_cons, List.map_nil, List.nil_append] at hc
  rw [NewPrefixWriter_rowsState, hc]
  obtain ⟨X, hfl, hX⟩ := tabwriter.flushNoDefers_rows (memSink s0) [rowCells n1 r1, rowCells n2 r2]
    rfl
    (fun r hr => by
      rcases List.mem_cons.mp hr with h | h
      · rw [h, rowCells_length]; exact h1.1
      · rw [List.mem_singleton.mp h, rowCells_length]; exact h2.1)
    (by simp)
  obtain ⟨e1, rest1, hx1, hX1⟩ := hX
  obtain ⟨e2, rest2, hx2, hX2⟩ := hX1
  have hr2 : rest2 = [] := hX2
  refine ⟨e1, e2, ?_⟩
  rw [Flush_of_flusher _ tabwriter.Flush rfl]
  show (Option.map FlushError.fromOut
        (tabwriter.Flush (rowsState (memSink s0) [rowCells n1 r1, rowCells n2 r2] [])).2 = none)
    ∧ (tabwriter.Flush (rowsState (memSink s0) [rowCells n1 r1, rowCells n2 r2] [])).1.output.st
        = _
  unfold tabwriter.Flush
  rw [hfl]
  refine ⟨rfl, ?_⟩
  show s0 ++ X = _
  rw [hx1, hx2, hr2]
  simp


/-- C13, the claim as stated fails: a form feed is neither a tab nor a
newline, and inside the first cell of the second row it makes the tabwriter
flush in the middle of that row. The second cell `b` of the first row starts
at offset 6 of its line, the second cell `e` of the second row at offset 3. -/
theorem second_cells_misaligned_by_form_feed :
    ((NewPrefixWriter (memSink [])).calls sampleLib
        [Call.WriteColsLn 0 [ascii "aaaa", ascii "b"],
         Call.WriteColsLn 1 [[99, FF, 100], ascii "e"]]).Flush.1.out.st.output.st
      = ascii "aaaa  " ++ ascii "b\n" ++ ascii "  c\n" ++ ascii "d  " ++ ascii "e\n"
    ∧ (ascii "aaaa  ").length = 6 ∧ (ascii "d  ").length = 3 := by
  decide

/-- C13: two rows written one after the other by `WriteColsLn` at the levels
`n1` and `n2`, each of at least two cells, the cells free of tab, vertical
tab, newline, form feed and the byte 0xff. After `Flush` the sink holds one
line per row: the indentation and the first cell, spaces up to the width `w`
of the first column, then the second cell. The width `w` is the same in both
lines: the larger of the two widths in runes of indentation plus first cell,
plus the padding of 2. So the second cell starts `w` runes into the line in
both rows. -/
theorem rows_at_two_levels_share_second_column (lib : FmtLib) (n1 n2 : Nat)
    (c1 d1 : Bytes) (t1 : List Bytes) (c2 d2 : Bytes) (t2 : List Bytes)
    (hp1 : ∀ v ∈ c1 :: d1 :: t1, plain v) (hp2 : ∀ v ∈ c2 :: d2 :: t2, plain v)
    (s0 : Bytes) :
    ∃ (w : Int) (x1 x2 : Bytes),
      w = ((max (runeCount (List.replicate (2 * n1) SP ++ c1))
                (runeCount (List.replicate (2 * n2) SP ++ c2)) : Nat) : Int) + 2
      ∧ ((NewPrefixWriter (memSink s0)).calls lib
          [Call.WriteColsLn (n1 : Int) (c1 :: d1 :: t1),
           Call.WriteColsLn (n2 : Int) (c2 :: d2 :: t2)]).Flush.2 = none
      ∧ ((NewPrefixWriter (memSink s0)).calls lib
          [Call.WriteColsLn (n1 : Int) (c1 :: d1 :: t1),
           Call.WriteColsLn (n2 : Int) (c2 :: d2 :: t2)]).Flush.1.out.st.output.st
        = s0
          ++ ((List.replicate (2 * n1) SP ++ c1)
              ++ List.replicate
                  (w - (runeCount (List.replicate (2 * n1) SP ++ c1) : Int)).toNat SP
              ++ d1 ++ x1 ++ [LF])
          ++ ((List.replicate (2 * n2) SP ++ c2)
              ++ List.replicate
                  (w - (runeCount (List.replicate (2 * n2) SP ++ c2) : Int)).toNat SP
              ++ d2 ++ x2 ++ [LF])
      ∧ LF ∉ (List.replicate (2 * n1) SP ++ c1)
              ++ List.replicate
                  (w - (runeCount (List.replicate (2 * n1) SP ++ c1) : Int)).toNat SP
              ++ d1 ++ x1
      ∧ LF ∉ (List.replicate (2 * n2) SP ++ c2)
              ++ List.replicate
                  (w - (runeCount (List.replicate (2 * n2) SP ++ c2) : Int)).toNat SP
              ++ d2 ++ x2
      ∧ (runeCount ((List.replicate (2 * n1) SP ++ c1)
            ++ List.replicate
                (w - (runeCount (List.replicate (2 * n1) SP ++ c1) : Int)).toNat SP) : Int) = w
      ∧ (runeCount ((List.replicate (2 * n2) SP ++ c2)
            ++ List.replicate
                (w - (runeCount (List.replicate (2 * n2) SP ++ c2) : Int)).toNat SP) : Int)
          = w := by
  obtain ⟨e1, e2, hfl, hs⟩ := rows_flush_two lib n1 n2 (c1 :: d1 :: t1) (c2 :: d2 :: t2)
    ⟨by simp, hp1⟩ ⟨by simp, hp2⟩ s0
  have hr1 : rowCells n1 (c1 :: d1 :: t1) = (List.replicate (2 * n1) SP ++ c1) :: d1 :: t1 := rfl
  have hr2 : rowCells n2 (c2 :: d2 :: t2) = (List.replicate (2 * n2) SP ++ c2) :: d2 :: t2 := rfl
  rw [hr1, hr2] at hs
  generalize hf1 : List.replicate (2 * n1) SP ++ c1 = f1 at hs ⊢
  generalize hf2 : List.replicate (2 * n2) SP ++ c2 = f2 at hs ⊢
  have hpf1 : ∀ v ∈ f1 :: d1 :: t1, plain v := by
    intro v hv
    rcases List.mem_cons.mp hv with h | h
    · rw [h, ← hf1]
      exact plain_append (plain_replicate_sp _) (hp1 c1 (by simp))
    · exact hp1 v (List.mem_cons_of_mem _ h)
  have hpf2 : ∀ v ∈ f2 :: d2 :: t2, plain v := by
    intro v hv
    rcases List.mem_cons.mp hv with h | h
    · rw [h, ← hf2]
      exact plain_append (plain_replicate_sp _) (hp2 c2 (by simp))
    · exact hp2 v (List.mem_cons_of_mem _ h)
  have hW : colWidth [f1 :: d1 :: t1, f2 :: d2 :: t2] 0
      = ((max (runeCount f1) (runeCount f2) : Nat) : Int) + 2 := by
    simp only [colWidth, List.map_cons, List.map_nil, List.foldr_cons, List.foldr_nil,
      List.getD_cons_zero]
    push_cast
    omega
  have hg1 := tabwriter.colWidth_ge [f1 :: d1 :: t1, f2 :: d2 :: t2] (f1 :: d1 :: t1) (by simp) 0
  have hg2 := tabwriter.colWidth_ge [f1 :: d1 :: t1, f2 :: d2 :: t2] (f2 :: d2 :: t2) (by simp) 0
  simp only [List.getD_cons_zero] at hg1 hg2
  generalize colWidth [f1 :: d1 :: t1, f2 :: d2 :: t2] 0 = W at hs hW hg1 hg2
  have hl1 := renderCells_no_LF (W :: e1) (f1 :: d1 :: t1) hpf1 0
  have hl2 := renderCells_no_LF (W :: e2) (f2 :: d2 :: t2) hpf2 0
  have hsplit : ∀ (e : List Int) (f d : Bytes) (t : List Bytes),
      renderCells (W :: e) 0 (f :: d :: t)
        = f ++ List.replicate (W - (runeCount f : Int)).toNat SP ++ d
          ++ ((if 1 < (W :: e).length then
                List.replicate ((W :: e).getD 1 0 - (runeCount d : Int)).toNat SP else [])
              ++ renderCells (W :: e) 2 t) := by
    intro e f d t
    simp [renderCells]
  rw [hsplit e1, hsplit e2] at hs
  rw [hsplit] at hl1 hl2
  refine ⟨W, _, _, hW, hfl, ?_, hl1, hl2, runeCount_padded f1 W (by omega),
    runeCount_padded f2 W (by omega)⟩
  rw [hs]

theorem rows_at_two_levels_share_second_column_witness :
    (∀ v ∈ [ascii "a", ascii "b"], plain v)
    ∧ (∀ v ∈ [ascii "cc", ascii "d", ascii "e"], plain v)
    ∧ ∃ (x1 x2 : Bytes),
        ((NewPrefixWriter (memSink [])).calls sampleLib
          [Call.WriteColsLn ((0 : Nat) : Int) [ascii "a", ascii "b"],
           Call.WriteColsLn ((2 : Nat) : Int)
             [ascii "cc", ascii "d", ascii "e"]]).Flush.1.out.st.output.st
          = (ascii "a" ++ List.replicate 7 SP ++ ascii "b" ++ x1 ++ [LF])
            ++ (ascii "    cc" ++ List.replicate 2 SP ++ ascii "d" ++ x2 ++ [LF]) := by
  have hp1 : ∀ v ∈ [ascii "a", ascii "b"], plain v := by simp [plain, ascii, tabwriter.Escape]
  have hp2 : ∀ v ∈ [ascii "cc", ascii "d", ascii "e"], plain v := by
    simp [plain, ascii, tabwriter.Escape]
  obtain ⟨w, x1, x2, hw, _, hs, _⟩ := rows_at_two_levels_share_second_column sampleLib 0 2
    (ascii "a") (ascii "b") [] (ascii "cc") (ascii "d") [ascii "e"] hp1 hp2 []
  refine ⟨hp1, hp2, x1, x2, ?_⟩
  have hw8 : w = 8 := by rw [hw]; decide
  subst hw8
  have k1 : ((8 : Int) - (runeCount (List.replicate (2 * 0) SP ++ ascii "a") : Int)).toNat = 7 := by
    decide
  have k2 : ((8 : Int) - (runeCount (List.replicate (2 * 2) SP ++ ascii "cc") : Int)).toNat
      = 2 := by
    decide
  rw [hs, k1, k2]
  rfl

end printers
